import Mathlib

/-!
# goignorescanner: a shallow embedding of `pkg/scanner`

The development embeds the three source files of the package
(`ignore.go`, `tokenizer.go`, `types.go`) and the body of the command
(`cmd/scanner.go`) for a Unix host (`os.PathSeparator = '/'`).  Go strings are lists of characters.  The package
keeps its state in package-level variables; here they are the fields of
`Globals`, passed explicitly.

The package leans on three libraries, which are modelled first:

* `strings` / `path/filepath` : `TrimSpace`, `Split`, `Clean`, `Join`, `Dir`,
  `Base`, `Rel`;
* `regexp` : a parser for a documented subset of the RE2 syntax and a
  backtracking matcher with Go's leftmost-first semantics;
* `godirwalk` : a pre-order walk over an in-memory directory tree.
-/

namespace GoIgnoreScanner

/-- Go strings, as lists of characters. -/
abbrev Str := List Char

/-! ## `strings` -/

/-- `strings.HasPrefix(s, p)`. -/
def startsWith : Str → Str → Bool
  | _, [] => true
  | [], _ :: _ => false
  | c :: s, d :: p => decide (c = d) && startsWith s p

/-- `strings.TrimPrefix(s, p)`. -/
def trimStart (s p : Str) : Str :=
  if startsWith s p then s.drop p.length else s

/-- `strings.Split(s, sep)` for a one-character separator. -/
def splitOn (sep : Char) : Str → List Str
  | [] => [[]]
  | c :: cs =>
    if c = sep then [] :: splitOn sep cs
    else
      match splitOn sep cs with
      | [] => [[c]]
      | w :: ws => (c :: w) :: ws

/-- `strings.Join(elems, sep)`. -/
def joinSep (sep : Str) : List Str → Str
  | [] => []
  | [x] => x
  | x :: y :: ys => x ++ sep ++ joinSep sep (y :: ys)

/-- `unicode.IsSpace`. -/
def isSpace (c : Char) : Bool :=
  let n := c.toNat
  (9 ≤ n && n ≤ 13) || n == 32 || n == 0x85 || n == 0xA0 || n == 0x1680 ||
  (0x2000 ≤ n && n ≤ 0x200A) || n == 0x2028 || n == 0x2029 || n == 0x202F ||
  n == 0x205F || n == 0x3000

/-- `strings.TrimSpace`. -/
def TrimSpace (s : Str) : Str :=
  ((s.dropWhile isSpace).reverse.dropWhile isSpace).reverse

/-! ## `path/filepath` (Unix) -/

/-- One element of the path read by `filepath.Clean`, against the elements
written so far (`stack`, last written first): empty and `.` elements are
dropped, `..` removes the last written element when there is one to remove,
is dropped at the root and is kept in front of a relative path. -/
def cleanStep (rooted : Bool) (stack : List Str) (c : Str) : List Str :=
  if c = [] ∨ c = ['.'] then stack
  else if c = ['.', '.'] then
    match stack with
    | [] => if rooted then [] else [c]
    | top :: below =>
      if top = ['.', '.'] then (if rooted then stack else c :: stack) else below
  else c :: stack

/-- `filepath.Clean`. -/
def Clean (path : Str) : Str :=
  match path with
  | [] => ['.']
  | c0 :: _ =>
    let rooted := decide (c0 = '/')
    let stack := (splitOn '/' path).foldl (cleanStep rooted) []
    let body := joinSep ['/'] stack.reverse
    if rooted then '/' :: body else if body = [] then ['.'] else body

/-- `filepath.Join`: the elements from the first non-empty one on, joined by
the separator and cleaned. -/
def Join (elems : List Str) : Str :=
  match elems.dropWhile (fun e => decide (e = [])) with
  | [] => []
  | es => Clean (joinSep ['/'] es)

/-- `os.IsPathSeparator`. -/
def isSep (c : Char) : Bool := decide (c = '/')

/-- A character other than the separator. -/
def notSep (c : Char) : Bool := !isSep c

/-- The text up to and including the last separator. -/
def uptoLastSep (path : Str) : Str :=
  (path.reverse.dropWhile notSep).reverse

/-- `filepath.Dir`. -/
def Dir (path : Str) : Str := Clean (uptoLastSep path)

/-- `filepath.Base`. -/
def Base (path : Str) : Str :=
  match path with
  | [] => ['.']
  | _ :: _ =>
    let stripped := path.reverse.dropWhile isSep
    let last := (stripped.takeWhile notSep).reverse
    if last = [] then ['/'] else last

/-- What the element-by-element comparison of `filepath.Rel` leaves: the
base from the start of its current element, that element when the loop
stopped on a difference (empty otherwise), and the target from the start of
its current element. -/
structure RelCursor where
  baseRest : Str
  baseElem : Str
  targRest : Str
deriving DecidableEq, Repr

/-- The loop of `filepath.Rel` that positions both paths at their first
differing elements. -/
def relLoop : Nat → Str → Str → RelCursor
  | 0, b, t => ⟨b, [], t⟩
  | fuel + 1, b, t =>
    if b = [] ∨ t = [] then ⟨b, [], t⟩
    else
      let cb := b.takeWhile notSep
      let ct := t.takeWhile notSep
      if cb ≠ ct then ⟨b, cb, t⟩
      else relLoop fuel ((b.dropWhile notSep).drop 1) ((t.dropWhile notSep).drop 1)

/-- Errors of the scanner and of the libraries under it. -/
inductive ScanError where
  | rel (base targ : Str)
  | regexSyntax (msg : String)
  | regexUnmodelled (msg : String)
  | fileRead
deriving DecidableEq, Repr

/-- `filepath.Rel(basepath, targpath)`. -/
def Rel (basepath targpath : Str) : Except ScanError Str :=
  let base := Clean basepath
  let targ := Clean targpath
  if targ = base then .ok ['.']
  else
    let base := if base = ['.'] then [] else base
    if startsWith base ['/'] ≠ startsWith targ ['/'] then
      .error (.rel basepath targpath)
    else
      let cur := relLoop (base.length + 1) base targ
      if cur.baseElem = ['.', '.'] then .error (.rel basepath targpath)
      else if cur.baseRest ≠ [] then
        let seps := cur.baseRest.count '/'
        let ups := ['.', '.'] ++ (List.replicate seps ['/', '.', '.']).flatten
        .ok (if cur.targRest ≠ [] then ups ++ '/' :: cur.targRest else ups)
      else .ok cur.targRest


/-- Equality of results is decidable. -/
instance instDecidableEqExcept {ε α : Type} [DecidableEq ε] [DecidableEq α] :
    DecidableEq (Except ε α)
  | .ok a, .ok b => if h : a = b then isTrue (by rw [h]) else isFalse (by intro e; cases e; exact h rfl)
  | .error a, .error b =>
    if h : a = b then isTrue (by rw [h]) else isFalse (by intro e; cases e; exact h rfl)
  | .ok _, .error _ => isFalse (by intro e; cases e)
  | .error _, .ok _ => isFalse (by intro e; cases e)

/-! ## `regexp`

The model covers this part of the syntax accepted by `regexp.Compile`
(Perl flags, no flag groups): literals, `.` (any character but a newline),
`^` and `$` (beginning and end of the text), bracket classes with negation
and ranges, backslash followed by an ASCII punctuation character, groups,
alternation and the operators `*`, `+`, `?` with their non-greedy forms.
Expressions outside it (flag groups `(?`, counted repetition `{n,m}`,
backslash followed by a letter or digit, `[:name:]` classes, `*` or `+` on an
expression that matches the empty text) are reported as
`ScanError.regexUnmodelled`, also where Go compiles them; an expression Go
rejects is reported as `ScanError.regexSyntax`. -/

/-- A compiled regular expression. -/
inductive Regex where
  | empty
  | lit (c : Char)
  | anyNotNL
  | cls (neg : Bool) (ranges : List (Char × Char))
  | bol
  | eol
  | cat (a b : Regex)
  | alt (a b : Regex)
  | star (greedy : Bool) (r : Regex)
  | plus (greedy : Bool) (r : Regex)
  | quest (greedy : Bool) (r : Regex)
  | group (r : Regex)
deriving DecidableEq, Repr

/-- Concatenation of the items of one branch (given last first). -/
def mkCat : List Regex → Regex
  | [] => .empty
  | x :: rest => rest.foldl (fun acc y => .cat y acc) x

/-- Alternation of the finished branches (given last first). -/
def mkAlt : List Regex → Regex
  | [] => .empty
  | x :: rest => rest.foldl (fun acc y => .alt y acc) x

/-- One nesting level of the parser: the finished branches and the items of
the branch being read, both last first. -/
structure Frame where
  alts : List Regex
  cur : List Regex
deriving DecidableEq, Repr

/-- The expression a level stands for once it is closed. -/
def Frame.close (f : Frame) : Regex := mkAlt (mkCat f.cur :: f.alts)

/-- Parser state: the open level, the enclosing levels, and whether the
last thing read was a repetition operator. -/
structure PState where
  top : Frame
  outer : List Frame
  lastRep : Bool
deriving DecidableEq, Repr

/-- The state after an item is added to the branch being read. -/
def PState.push (st : PState) (r : Regex) : PState :=
  { st with top := { st.top with cur := r :: st.top.cur }, lastRep := false }

/-- ASCII digits. -/
def isDigit (c : Char) : Bool := '0'.toNat ≤ c.toNat && c.toNat ≤ '9'.toNat

/-- ASCII letters and digits (`isalnum` of `regexp/syntax`). -/
def isAlnum (c : Char) : Bool :=
  isDigit c || ('a'.toNat ≤ c.toNat && c.toNat ≤ 'z'.toNat) ||
  ('A'.toNat ≤ c.toNat && c.toNat ≤ 'Z'.toNat)

/-- Reads the integer of a counted repetition; none when there is none. -/
def skipInt (s : Str) : Option Str :=
  match s with
  | [] => none
  | c :: rest =>
    if !isDigit c then none
    else if c = '0' ∧ (rest.head?.map isDigit).getD false then none
    else some (s.dropWhile isDigit)

/-- Whether the text after an opening brace is a counted repetition
`n}`, `n,}` or `n,m}`; when it is not, the brace is a plain character. -/
def isRepeatSpec (s : Str) : Bool :=
  match skipInt s with
  | none => false
  | some [] => false
  | some (c :: rest) =>
    if c ≠ ',' then decide (c = '}')
    else
      match rest with
      | [] => false
      | d :: rest2 =>
        if d = '}' then true
        else
          match skipInt (d :: rest2) with
          | none => false
          | some [] => false
          | some (e :: _) => decide (e = '}')

/-- One character of a bracket class, possibly escaped. -/
def parseClassChar : Str → Except ScanError (Char × Str)
  | [] => .error (.regexSyntax "missing closing ]")
  | '\\' :: [] => .error (.regexSyntax "trailing backslash at end of expression")
  | '\\' :: d :: rest =>
    if d.toNat < 128 ∧ !isAlnum d then .ok (d, rest)
    else if 128 ≤ d.toNat then .error (.regexSyntax "invalid escape sequence")
    else .error (.regexUnmodelled "escape in class")
  | c :: rest => .ok (c, rest)

/-- The items of a bracket class up to the closing bracket. -/
def parseClassItems : Nat → Bool → Str → List (Char × Char) →
    Except ScanError (List (Char × Char) × Str)
  | 0, _, _, _ => .error (.regexUnmodelled "class too long")
  | fuel + 1, first, t, acc =>
    match t, first with
    | ']' :: rest, false => .ok (acc.reverse, rest)
    | _, _ =>
      if startsWith t ['[', ':'] then .error (.regexUnmodelled "named class")
      else
        match parseClassChar t with
        | .error e => .error e
        | .ok (lo, t1) =>
          match t1 with
          | '-' :: d :: t2 =>
            if d = ']' then parseClassItems fuel false t1 ((lo, lo) :: acc)
            else
              match parseClassChar (d :: t2) with
              | .error e => .error e
              | .ok (hi, t3) =>
                if hi.toNat < lo.toNat then
                  .error (.regexSyntax "invalid character class range")
                else parseClassItems fuel false t3 ((lo, hi) :: acc)
          | _ => parseClassItems fuel false t1 ((lo, lo) :: acc)

/-- A bracket class, after its opening bracket. -/
def parseClass (t : Str) : Except ScanError (Regex × Str) :=
  let neg := startsWith t ['^']
  let body := if neg then t.drop 1 else t
  match parseClassItems (body.length + 1) true body [] with
  | .error e => .error e
  | .ok (ranges, rest) => .ok (.cls neg ranges, rest)

/-- The repetition operator `op`, greedy or not, applied to `r`. -/
def mkRep (op : Char) (greedy : Bool) (r : Regex) : Regex :=
  if op = '*' then .star greedy r
  else if op = '+' then .plus greedy r
  else .quest greedy r

/-- Whether the expression matches the empty text somewhere. -/
def Regex.nullable : Regex → Bool
  | .empty => true
  | .lit _ => false
  | .anyNotNL => false
  | .cls _ _ => false
  | .bol => true
  | .eol => true
  | .cat a b => a.nullable && b.nullable
  | .alt a b => a.nullable || b.nullable
  | .star _ _ => true
  | .plus _ r => r.nullable
  | .quest _ _ => true
  | .group r => r.nullable

/-- The main loop of the parser.  The operators `*` and `+` on an expression
that matches the empty text (as in `(|a)+`) are left out of the model: which
of the empty iterations Go keeps is not modelled. -/
def parseLoop : Nat → Str → PState → Except ScanError Regex
  | 0, _, _ => .error (.regexUnmodelled "expression too long")
  | _ + 1, [], st =>
    match st.outer with
    | [] => .ok st.top.close
    | _ :: _ => .error (.regexSyntax "missing closing )")
  | fuel + 1, c :: cs, st =>
    if c = '(' then
      if startsWith cs ['?'] then .error (.regexUnmodelled "flag group")
      else parseLoop fuel cs ⟨⟨[], []⟩, st.top :: st.outer, false⟩
    else if c = ')' then
      match st.outer with
      | [] => .error (.regexSyntax "unexpected )")
      | f :: fs =>
        parseLoop fuel cs ⟨{ f with cur := .group st.top.close :: f.cur }, fs, false⟩
    else if c = '|' then
      parseLoop fuel cs
        ⟨⟨mkCat st.top.cur :: st.top.alts, []⟩, st.outer, false⟩
    else if c = '*' ∨ c = '+' ∨ c = '?' then
      let lazy := startsWith cs ['?']
      let cs1 := if lazy then cs.drop 1 else cs
      if st.lastRep then .error (.regexSyntax "invalid nested repetition operator")
      else
        match st.top.cur with
        | [] => .error (.regexSyntax "missing argument to repetition operator")
        | x :: xs =>
          if c ≠ '?' ∧ x.nullable then
            .error (.regexUnmodelled "repetition of an expression that matches the empty text")
          else
            parseLoop fuel cs1
              { st with top := { st.top with cur := mkRep c (!lazy) x :: xs }, lastRep := true }
    else if c = '{' then
      if isRepeatSpec cs then .error (.regexUnmodelled "counted repetition")
      else parseLoop fuel cs (st.push (.lit c))
    else if c = '.' then parseLoop fuel cs (st.push .anyNotNL)
    else if c = '^' then parseLoop fuel cs (st.push .bol)
    else if c = '$' then parseLoop fuel cs (st.push .eol)
    else if c = '[' then
      match parseClass cs with
      | .error e => .error e
      | .ok (r, rest) => parseLoop fuel rest (st.push r)
    else if c = '\\' then
      match cs with
      | [] => .error (.regexSyntax "trailing backslash at end of expression")
      | d :: rest =>
        if d.toNat < 128 ∧ !isAlnum d then parseLoop fuel rest (st.push (.lit d))
        else if 128 ≤ d.toNat then .error (.regexSyntax "invalid escape sequence")
        else .error (.regexUnmodelled "escape")
    else parseLoop fuel cs (st.push (.lit c))

/-- `regexp.Compile`. -/
def regexpCompile (expr : Str) : Except ScanError Regex :=
  parseLoop (expr.length + 1) expr ⟨⟨[], []⟩, [], false⟩

/-- Whether a bracket class holds a character. -/
def classHas (neg : Bool) (ranges : List (Char × Char)) (c : Char) : Bool :=
  (ranges.any fun r => r.1.toNat ≤ c.toNat && c.toNat ≤ r.2.toNat) != neg

/-- Repetition of `step` zero or more times, from the position where `rest`
remains.  The results are in order of preference.  The parser gives the
operator only to expressions that do not match the empty text, so every
iteration consumes something; the test on the lengths is what makes the
recursion end. -/
def starLoop (greedy : Bool) (step : Str → List Str) : Nat → Str → List Str
  | 0, rest => [rest]
  | k + 1, rest =>
    let more := ((step rest).filter fun t => t.length < rest.length).flatMap
      (starLoop greedy step k)
    if greedy then more ++ [rest] else rest :: more

/-- All the ways the expression matches at a position of a text of `n`
characters.  A position is given by the text that remains after it; the
results are the positions after the match, in order of preference (the first
is the match a backtracking search finds first). -/
def Regex.run (n : Nat) : Regex → Str → List Str
  | .empty, rest => [rest]
  | .lit c, rest =>
    match rest with
    | d :: t => if d = c then [t] else []
    | [] => []
  | .anyNotNL, rest =>
    match rest with
    | d :: t => if d = '\n' then [] else [t]
    | [] => []
  | .cls neg ranges, rest =>
    match rest with
    | d :: t => if classHas neg ranges d then [t] else []
    | [] => []
  | .bol, rest => if rest.length = n then [rest] else []
  | .eol, rest => if rest = [] then [rest] else []
  | .cat a b, rest => (a.run n rest).flatMap fun t => b.run n t
  | .alt a b, rest => a.run n rest ++ b.run n rest
  | .star g r, rest => starLoop g (fun t => r.run n t) rest.length rest
  | .plus g r, rest =>
    (r.run n rest).flatMap fun t => starLoop g (fun u => r.run n u) t.length t
  | .quest g r, rest => if g then r.run n rest ++ [rest] else rest :: r.run n rest
  | .group r, rest => r.run n rest

/-- The leftmost match at or after position `pos` of `text`, as its start
and end positions. -/
def findFrom (re : Regex) (text : Str) : Nat → Nat → Option (Nat × Nat)
  | 0, _ => none
  | fuel + 1, pos =>
    if text.length < pos then none
    else
      match re.run text.length (text.drop pos) with
      | t :: _ => some (pos, text.length - t.length)
      | [] => findFrom re text fuel (pos + 1)

/-- The loop of `Regexp.FindAllString`: successive non-overlapping matches,
an empty match right after the previous match being dropped. -/
def allMatches (re : Regex) (text : Str) : Nat → Nat → Option Nat → List Str
  | 0, _, _ => []
  | fuel + 1, pos, prevEnd =>
    if text.length < pos then []
    else
      match findFrom re text (text.length + 1 - pos) pos with
      | none => []
      | some (a, b) =>
        let accept := !(decide (b = pos) && decide (some a = prevEnd))
        let pos1 := if b = pos then pos + 1 else b
        let tail := allMatches re text fuel pos1 (some b)
        if accept then (text.drop a).take (b - a) :: tail else tail

/-- The whole matches (`tuple[0]`) of `re.FindAllStringSubmatch(text, -1)`. -/
def FindAllString (re : Regex) (text : Str) : List Str :=
  allMatches re text (text.length + 2) 0 none


/-! ## `types.go`, `tokenizer.go`, `ignore.go` -/

/-- The compiled form of one ignore pattern (`FileIgnorePattern`); `Paths`
is `none` for Go's nil slice. -/
structure FileIgnorePattern where
  Pattern : Str
  Paths : Option (List Str)
  RegexPattern : Regex
  Invert : Bool
deriving DecidableEq, Repr

/-- The package-level variables of the scanner. -/
structure Globals where
  directory : Str
  includes : List Str
  ignorePatterns : List FileIgnorePattern
  rawPatterns : List Str
  excludedDirs : List Str
deriving DecidableEq, Repr

/-- The variables as the package initialises them. -/
def Globals.init : Globals := ⟨[], [], [], [], []⟩

/-- The byte order mark U+FEFF. -/
def bomChar : Char := Char.ofNat 0xFEFF

/-- The replacement character U+FFFD, which Go's `string` gives for the
end-of-input value of the pattern reader. -/
def runeError : Char := Char.ofNat 0xFFFD

/-- The built-in default names. -/
def defaultPatterns : List Str :=
  [['.', 'g', 'i', 't'], ['v', 'e', 'n', 'd', 'o', 'r'],
   ['n', 'o', 'd', 'e', '_', 'm', 'o', 'd', 'u', 'l', 'e', 's']]

/-- `invertPrefix`, the mark of an inverting pattern. -/
def invertMark : Str := ['!']

/-- The loop of `asRegExp`: the expression text for the pattern text still
to be read. -/
def asRegExpLoop : Str → Str
  | [] => []
  | ch :: rest =>
    if ch = '*' then
      match rest with
      | [] => ['.', '*']
      | d :: rest1 =>
        if d = '*' then
          match rest1 with
          | [] => ['.', '*']
          | e :: rest2 =>
            if e = '/' then
              (if rest2 = [] then ['.', '*'] else ['(', '.', '*', '/', ')', '?'])
                ++ asRegExpLoop rest2
            else ['(', '.', '*', '/', ')', '?'] ++ asRegExpLoop (e :: rest2)
        else ['.', '*'] ++ asRegExpLoop (d :: rest1)
    else if ch = '?' then ['[', '^', '/', ']'] ++ asRegExpLoop rest
    else if ch = '.' ∨ ch = '$' then ['\\', ch] ++ asRegExpLoop rest
    else if ch = '\\' then
      if rest = [] then ['\\', runeError] else '\\' :: asRegExpLoop rest
    else ch :: asRegExpLoop rest

/-- The text of the expression `asRegExp` compiles.  The reader of the
pattern (`text/scanner`) drops a byte order mark in front of it. -/
def regexText (directory pattern : Str) : Str :=
  let src := match pattern with
    | c :: rest => if c = bomChar then rest else pattern
    | [] => pattern
  ['^'] ++ directory ++ ['/'] ++ asRegExpLoop src ++ ['$']

/-- `asRegExp`, with the package variable `directory` as a parameter. -/
def asRegExp (directory pattern : Str) : Except ScanError Regex :=
  regexpCompile (regexText directory pattern)

/-- `toFileIgnorePattern`. -/
def toFileIgnorePattern (directory pattern : Str) : Except ScanError FileIgnorePattern :=
  let pattern := Clean pattern
  let invert := startsWith pattern invertMark
  let body := if invert then trimStart pattern invertMark else pattern
  let paths := if '/' ∈ body then some (splitOn '/' body).dropLast else none
  match asRegExp directory body with
  | .error e => .error e
  | .ok re => .ok ⟨pattern, paths, re, invert⟩

/-- What opening and reading the ignore file gives: no such file, a failure,
or the lines of the file. -/
inductive IgnoreFile where
  | absent
  | unreadable
  | lines (ls : List Str)
deriving DecidableEq, Repr

/-- The body of the line loop of `scanAndBuildPatternsList`: the pattern a
line contributes, if any.  `first` tells the first line, whose byte order
mark is removed. -/
def normaliseLine (first : Bool) (line : Str) : Option Str :=
  let line := if first then trimStart line [bomChar] else line
  let pattern := TrimSpace line
  if startsWith ['#'] pattern then none
  else if pattern = [] then none
  else
    let invert := startsWith pattern invertMark
    let pattern := if invert then trimStart pattern invertMark else pattern
    let pattern :=
      if 0 < pattern.length then
        let p := Clean pattern
        if 1 < p.length ∧ startsWith p ['/'] then trimStart p ['/'] else p
      else pattern
    some (if invert then invertMark ++ pattern else pattern)

/-- The line loop of `scanAndBuildPatternsList`. -/
def scanLines : Bool → List Str → List Str
  | _, [] => []
  | first, l :: ls =>
    match normaliseLine first l with
    | none => scanLines false ls
    | some p => p :: scanLines false ls

/-- `scanAndBuildPatternsList`. -/
def scanAndBuildPatternsList (file : IgnoreFile) : Except ScanError (List Str) :=
  match file with
  | .absent => .ok defaultPatterns
  | .unreadable => .error .fileRead
  | .lines ls => .ok (defaultPatterns ++ scanLines true ls)

/-- The two implementations of `DirectoryScanner`. -/
inductive ScannerKind where
  | defaultIgnorer
  | dockerIgnorer
deriving DecidableEq, Repr

/-- The compile loop of `NewOrDefault`: patterns are appended to
`ignorePatterns` one by one and the first failure ends the loop. -/
def compileLoop (g : Globals) : List Str → Except ScanError ScannerKind × Globals
  | [] => (.ok .dockerIgnorer, g)
  | ip :: rest =>
    match toFileIgnorePattern g.directory ip with
    | .error e => (.error e, g)
    | .ok x => compileLoop { g with ignorePatterns := g.ignorePatterns ++ [x] } rest

/-- `NewOrDefault(dir, ignore)`; `file` is what opening `dir/ignore` gives. -/
def NewOrDefault (g : Globals) (dir : Str) (file : IgnoreFile) :
    Except ScanError ScannerKind × Globals :=
  let g := { g with includes := [], ignorePatterns := [], directory := dir }
  match scanAndBuildPatternsList file with
  | .error e => (.error e, g)
  | .ok p => compileLoop { g with rawPatterns := g.rawPatterns ++ p } p

/-- `appendIfNotExist`, on the include list. -/
def appendIfNotExist (includes : List Str) (item : Str) : List Str :=
  if item ∈ includes then includes else includes ++ [item]

/-- `sets.String.Insert`. -/
def setInsert (s : List Str) (item : Str) : List Str :=
  if item ∈ s then s else s ++ [item]

/-- A directory entry as the walk hands it to the callback. -/
structure Dirent where
  name : Str
  isDir : Bool
deriving DecidableEq, Repr

/-- What the callback returns: nil, `godirwalk.SkipThis`, or an error. -/
inductive Signal where
  | ok
  | skipThis
  | err (e : ScanError)
deriving DecidableEq, Repr

/-- The local flags of `scanDir` with the include list. -/
structure LoopState where
  isExcluded : Bool
  isTransitive : Bool
  includes : List Str
deriving DecidableEq, Repr

/-- The inner loop of `scanDir` over the matches of an inverting pattern. -/
def appendMatches (directory : Str) : List Str → List Str → List Str × Option ScanError
  | [], includes => (includes, none)
  | m :: ms, includes =>
    match Rel directory m with
    | .error e => (includes, some e)
    | .ok rel => appendMatches directory ms (appendIfNotExist includes rel)

/-- The loop of `scanDir` over the patterns. -/
def scanPatterns (directory : Str) (excludedDirs : List Str) (osPathname : Str)
    (dirEntry : Dirent) : List FileIgnorePattern → LoopState → LoopState × Option ScanError
  | [], ls => (ls, none)
  | igp :: rest, ls =>
    if !igp.Invert ∧ Dir osPathname ∈ excludedDirs then
      scanPatterns directory excludedDirs osPathname dirEntry rest { ls with isExcluded := true }
    else
      let regxMatches := FindAllString igp.RegexPattern osPathname
      let ls1 := if regxMatches ≠ [] then { ls with isExcluded := true } else ls
      let appended :=
        if regxMatches ≠ [] ∧ igp.Invert then appendMatches directory regxMatches ls1.includes
        else (ls1.includes, none)
      match appended.2 with
      | some e => ({ ls1 with includes := appended.1 }, some e)
      | none =>
        let ls2 := { ls1 with includes := appended.1 }
        let transitive :=
          match igp.Paths with
          | none => false
          | some paths =>
            dirEntry.isDir && igp.Invert &&
              decide (osPathname = Join [directory, joinSep ['/'] paths])
        scanPatterns directory excludedDirs osPathname dirEntry rest
          (if transitive then { ls2 with isTransitive := true } else ls2)

/-- `scanDir`, the callback of the walk. -/
def scanDir (g : Globals) (osPathname : Str) (dirEntry : Dirent) : Signal × Globals :=
  if osPathname = g.directory then (.ok, g)
  else if dirEntry.name ∈ defaultPatterns then (.skipThis, g)
  else
    match scanPatterns g.directory g.excludedDirs osPathname dirEntry g.ignorePatterns
        ⟨false, false, g.includes⟩ with
    | (ls, some e) => (.err e, { g with includes := ls.includes })
    | (ls, none) =>
      if ls.isExcluded then
        let g1 := { g with
          includes := ls.includes
          excludedDirs :=
            if dirEntry.isDir then setInsert g.excludedDirs osPathname else g.excludedDirs }
        if dirEntry.isDir && !ls.isTransitive then (.skipThis, g1) else (.ok, g1)
      else
        match Rel g.directory osPathname with
        | .error e => (.err e, { g with includes := ls.includes })
        | .ok rel => (.ok, { g with includes := appendIfNotExist ls.includes rel })

/-! ## `godirwalk` -/

/-- A directory tree: files (anything that is not a directory) and
directories with their entries in the order the walk reads them. -/
inductive Node where
  | file (name : Str)
  | dir (name : Str) (children : List Node)
deriving Repr

/-- The name of an entry. -/
def Node.name : Node → Str
  | .file n => n
  | .dir n _ => n

/-- Whether an entry is a directory. -/
def Node.isDir : Node → Bool
  | .file _ => false
  | .dir _ _ => true

/-- The entry under another name. -/
def Node.rename (name : Str) : Node → Node
  | .file _ => .file name
  | .dir _ kids => .dir name kids

mutual
/-- `godirwalk.walk` with `scanDir` as callback: the callback is called on
the entry; a directory for which it returns nil is read and its entries are
walked in turn, `SkipThis` from an entry being silenced and an error ending
the walk. -/
def walk (g : Globals) (osPathname : Str) : Node → Signal × Globals
  | .file name =>
    scanDir g osPathname ⟨name, false⟩
  | .dir name kids =>
    match scanDir g osPathname ⟨name, true⟩ with
    | (.ok, g1) => walkChildren g1 osPathname kids
    | r => r
/-- The loop of `godirwalk.walk` over the entries of a directory. -/
def walkChildren (g : Globals) (osPathname : Str) : List Node → Signal × Globals
  | [] => (.ok, g)
  | k :: ks =>
    match walk g (Join [osPathname, k.name]) k with
    | (.err e, g1) => (.err e, g1)
    | (_, g1) => walkChildren g1 osPathname ks
end

/-- `Scan` (both implementations are the same): `godirwalk.Walk` on the base
directory, whose entry is named after the cleaned path, then the include
list and the error of the walk. -/
def Scan (g : Globals) (root : Node) : (List Str × Option ScanError) × Globals :=
  let pathname := Clean g.directory
  match walk g pathname (root.rename (Base pathname)) with
  | (.err e, g1) => ((g1.includes, some e), g1)
  | (_, g1) => ((g1.includes, none), g1)

/-! ## `cmd/scanner.go` -/

/-- `scanDir` of `cmd/scanner.go`, the body of the command: the include list
it prints, none when it returns without printing.  `file` is what opening the
ignore file gives and `root` the tree under the base directory. -/
def commandScanDir (g : Globals) (baseDir : Str) (file : IgnoreFile) (root : Node) :
    Option (List Str) × Globals :=
  match NewOrDefault g baseDir file with
  | (.error _, g1) => (none, g1)
  | (.ok _, g1) =>
    match Scan g1 root with
    | ((_, some _), g2) => (none, g2)
    | ((includes, none), g2) => (some includes, g2)

/-! ## Scenarios -/

/-- The strings of a list, as Go strings. -/
def strs (xs : List String) : List Str := xs.map String.toList

/-- A scan in a fresh process: `NewOrDefault` on the initial variables, then
`Scan` over the tree. -/
def freshScan (dir : String) (ignoreLines : List String) (root : Node) :
    List Str × Option ScanError :=
  (Scan (NewOrDefault Globals.init dir.toList (.lines (strs ignoreLines))).2 root).1

/-- A file entry. -/
def fileOf (name : String) : Node := .file name.toList

/-- A directory entry. -/
def dirOf (name : String) (kids : List Node) : Node := .dir name.toList kids

/-- The ignore file of the scenario of the specification (and of the test
data `dir2`). -/
def scenarioLines : List String :=
  ["lib", "*.md", "!README.md", "temp?", "target", "!target/*-runner.jar"]

/-- The tree of the scenario, entries in the walk's (sorted) order. -/
def scenarioTree : Node :=
  dirOf "proj" [
    fileOf ".dockerignore",
    fileOf "README.md",
    dirOf "lib" [fileOf "x"],
    fileOf "pom.xml",
    dirOf "src" [dirOf "main" [dirOf "java" [fileOf "One.java"]]],
    dirOf "target" [fileOf "foo-runner.jar", dirOf "lib" [fileOf "one.jar"]],
    fileOf "tempABC"]

/-- The include set the specification expects for the scenario. -/
def scenarioExpected : List Str :=
  strs [".dockerignore", "README.md", "src", "src/main", "src/main/java",
    "src/main/java/One.java", "pom.xml", "target/foo-runner.jar"]

/-- The test of `scanDir` on the matches of a pattern: `len(regxMatches) > 0`. -/
def accepts (re : Regex) (path : Str) : Bool := decide (FindAllString re path ≠ [])

/-- Whether the matcher `asRegExp` compiles from `pattern` under the base
directory accepts `path` (false when the pattern does not compile). -/
def matcherAccepts (directory pattern path : Str) : Bool :=
  match asRegExp directory pattern with
  | .ok re => accepts re path
  | .error _ => false

/-- The package variables after `NewOrDefault` in a fresh process. -/
def freshGlobals (dir : String) (ignoreLines : List String) : Globals :=
  (NewOrDefault Globals.init dir.toList (.lines (strs ignoreLines))).2

/-! ## Definitions used to state the claims -/

/-- The characters to which the expression syntax gives a meaning. -/
def regexSpecials : Str := ['(', ')', '|', '*', '+', '?', '{', '.', '^', '$', '[', '\\']

/-- A character that stands for itself in an expression. -/
def regexPlain (c : Char) : Bool := decide (c ∉ regexSpecials)

/-- A character of a base directory whose text, read as an expression,
matches the directory itself: a plain character or a dot. -/
def basePlain (c : Char) : Bool := regexPlain c || c == '.'

/-- The expression item a base directory character compiles to. -/
def baseItem (c : Char) : Regex := if c = '.' then .anyNotNL else .lit c

/-- A pattern character `asRegExp` turns into one item: `*`, `?`, or a
character that is matched literally (plain, or the escaped `.` and `$`). -/
def tameChar (c : Char) : Bool :=
  (regexPlain c || c == '.' || c == '$' || c == '?' || c == '*') && c != bomChar

/-- A pattern character that is matched literally: a plain character, or
the escaped `.` or `$`. -/
def literalChar (c : Char) : Bool :=
  (regexPlain c || c == '.' || c == '$') && c != bomChar

/-- Patterns made of such characters, without two stars in a row. -/
def tame : Str → Bool
  | [] => true
  | c :: rest => tameChar c && !(c == '*' && rest.head? == some '*') && tame rest

/-- The expression item a pattern character compiles to. -/
def patItem (c : Char) : Regex :=
  if c = '*' then .star true .anyNotNL
  else if c = '?' then .cls true [('/', '/')]
  else .lit c

/-- The items of the expression compiled from a tame pattern under a base
directory, in order. -/
def tameItems (base pattern : Str) : List Regex :=
  .bol :: (base.map baseItem ++ [.lit '/'] ++ pattern.map patItem ++ [.eol])

/-- The items of a sequence matched one after the other. -/
def runSeq (n : Nat) : List Regex → Str → List Str
  | [], rest => [rest]
  | x :: xs, rest => (x.run n rest).flatMap (runSeq n xs)

/-- An expression that matches at the beginning of the text only and up to
the end of the text only. -/
def Anchored (re : Regex) : Prop :=
  (∀ n rest, rest.length ≠ n → re.run n rest = []) ∧
  (∀ n rest t, t ∈ re.run n rest → t = [])

/-- Whether an expression ends in the end-of-text item. -/
def endsInEol : Regex → Bool
  | .eol => true
  | .cat _ b => endsInEol b
  | _ => false

/-- A syntactic test for anchored expressions: a concatenation that begins
with the beginning-of-text item and ends in the end-of-text item. -/
def isAnchored : Regex → Bool
  | .cat .bol r => endsInEol r
  | _ => false

/-- A name a directory entry can bear: not empty, without separator, and
neither `.` nor `..`. -/
def validName (n : Str) : Bool :=
  decide (n ≠ [] ∧ '/' ∉ n ∧ n ≠ ['.'] ∧ n ≠ ['.', '.'])

/-- A base directory given in clean form, other than the root and the
working directory. -/
def goodDir (d : Str) : Bool :=
  decide (Clean d = d ∧ d ≠ ['/'] ∧ d ≠ ['.'])

/-- The path of the entry reached from the base directory through the chain
of names. -/
def pathOf (base : Str) (chain : List Str) : Str :=
  base ++ (chain.map fun n => '/' :: n).flatten

mutual
/-- Every name in the tree satisfies the test. -/
def Node.all (q : Str → Bool) : Node → Bool
  | .file n => q n
  | .dir n kids => q n && kidsAll q kids
/-- Every name in the entries, and below them, satisfies the test. -/
def kidsAll (q : Str → Bool) : List Node → Bool
  | [] => true
  | k :: ks => k.all q && kidsAll q ks
end

/-- The entries of a directory. -/
def Node.children : Node → List Node
  | .file _ => []
  | .dir _ kids => kids

/-- Some inverting pattern of the list accepts the path. -/
def invertAccepts (pats : List FileIgnorePattern) (path : Str) : Bool :=
  pats.any fun p => p.Invert && accepts p.RegexPattern path

/-- Some non-inverting pattern of the list accepts the path. -/
def plainAccepts (pats : List FileIgnorePattern) (path : Str) : Bool :=
  pats.any fun p => !p.Invert && accepts p.RegexPattern path

/-- The list holds a non-inverting pattern. -/
def hasPlain (pats : List FileIgnorePattern) : Bool :=
  pats.any fun p => !p.Invert

/-- The path is the base directory joined with the parent chain of the
pattern. -/
def parentChainOf (directory : Str) (p : FileIgnorePattern) (path : Str) : Bool :=
  match p.Paths with
  | none => false
  | some paths => decide (path = Join [directory, joinSep ['/'] paths])

/-- The path is the base directory joined with the parent chain of some
inverting pattern of the list. -/
def transitiveAt (directory : Str) (pats : List FileIgnorePattern) (path : Str) : Bool :=
  pats.any fun p => p.Invert && parentChainOf directory p path

/-- The value of the flag `isExcluded` of `scanDir` after the loop over the
patterns, given the excluded-directory set: an inverting pattern accepts the
path, or the parent is recorded as excluded and there is a non-inverting
pattern, or the parent is not recorded and a non-inverting pattern accepts
the path. -/
def excludedAt (pats : List FileIgnorePattern) (excludedDirs : List Str) (path : Str) : Bool :=
  invertAccepts pats path ||
    (if Dir path ∈ excludedDirs then hasPlain pats else plainAccepts pats path)

/-- The later state of a walk: same base directory and patterns, the include
list and the excluded-directory set grown. -/
def Later (g g1 : Globals) : Prop :=
  g1.directory = g.directory ∧ g1.ignorePatterns = g.ignorePatterns ∧
  g1.rawPatterns = g.rawPatterns ∧
  (∀ r ∈ g.includes, r ∈ g1.includes) ∧ (∀ x ∈ g.excludedDirs, x ∈ g1.excludedDirs)

/-- A tree with a dependency directory at the root and one further down. -/
def vendorTree : Node :=
  dirOf "proj" [
    fileOf ".dockerignore",
    dirOf "src" [fileOf "main.go", dirOf "vendor" [fileOf "keep.txt"]],
    dirOf "vendor" [fileOf "keep.txt"]]

/-- The entries of a build directory. -/
def targetKids : List Node :=
  [fileOf "foo-runner.jar", dirOf "lib" [fileOf "one.jar"], fileOf "notes.txt"]

/-- A tree with a build directory. -/
def targetTree : Node :=
  dirOf "proj" [fileOf "README.md", fileOf "pom.xml", dirOf "target" targetKids]

/-- The compiled form of the pattern `*` under a base directory. -/
def starPattern (dir : String) : FileIgnorePattern :=
  ⟨['*'], none, mkCat (tameItems dir.toList ['*']).reverse, false⟩

/-- The item `(.*/)?` of an expression: an optional stretch without a line
break followed by a separator. -/
def optDirs : Regex := .quest true (.group (.cat (.star true .anyNotNL) (.lit '/')))

/-- Patterns made of characters `asRegExp` turns into items: literally
matched characters, `?` and `*`, stars in a row included. -/
def glob (pattern : Str) : Bool := pattern.all tameChar

/-- The items of the expression `asRegExp` makes of such a pattern, read the
way `asRegExp` reads it: `**` at the end of the pattern, with or without a
separator after it, is `.*`; `**` elsewhere is `(.*/)?`, a separator right
after it being consumed. -/
def globItems : Str → List Regex
  | [] => []
  | ch :: rest =>
    if ch = '*' then
      match rest with
      | [] => [.star true .anyNotNL]
      | d :: rest1 =>
        if d = '*' then
          match rest1 with
          | [] => [.star true .anyNotNL]
          | e :: rest2 =>
            if e = '/' then
              (if rest2 = [] then .star true .anyNotNL else optDirs) :: globItems rest2
            else optDirs :: globItems (e :: rest2)
        else .star true .anyNotNL :: globItems (d :: rest1)
    else if ch = '?' then .cls true [('/', '/')] :: globItems rest
    else .lit ch :: globItems rest

/-- The items of the expression compiled from a pattern of literally matched
characters, `?` and `*` under a base directory, in order. -/
def globSeq (base pattern : Str) : List Regex :=
  .bol :: (base.map baseItem ++ [.lit '/'] ++ globItems pattern ++ [.eol])

/-- Some pattern of the list accepts the path. -/
def anyAccepts (pats : List FileIgnorePattern) (path : Str) : Bool :=
  pats.any fun p => accepts p.RegexPattern path

mutual
/-- No two entries of one directory bear the same name, anywhere in the
tree. -/
def Node.distinct : Node → Bool
  | .file _ => true
  | .dir _ kids => kidsDistinct kids
/-- The entries bear different names, and so do the entries below them. -/
def kidsDistinct : List Node → Bool
  | [] => true
  | k :: ks => k.distinct && decide (k.name ∉ ks.map Node.name) && kidsDistinct ks
end

/-- The normal form `scanAndBuildPatternsList` gives the body of a line:
the clean path, without its leading separator when more than one character
remains. -/
def cleanRelative (body : Str) : Str :=
  let p := Clean body
  if 1 < p.length ∧ startsWith p ['/'] then trimStart p ['/'] else p

/-- A tree with a library directory. -/
def libTree : Node := dirOf "proj" [dirOf "lib" [fileOf "x"]]

/-- A tree whose base directory holds a directory of its own name. -/
def nestedTree : Node := dirOf "proj" [dirOf "proj" [fileOf "a"]]

/-- A path in clean relative form: the root, the working directory, or
elements joined by single separators, of which none is empty or `.` and
only the first ones may be `..`. -/
def IsCleanRelative (c : Str) : Prop :=
  c = ['/'] ∨ c = ['.'] ∨
    ∃ (k : Nat) (names : List Str), 0 < k + names.length ∧
      (∀ n ∈ names, validName n = true) ∧
      c = joinSep ['/'] (List.replicate k ['.', '.'] ++ names)

/-- A tree with a documentation directory. -/
def docsTree : Node :=
  dirOf "proj" [fileOf "README.md", dirOf "docs" [fileOf "a.md", dirOf "sub" [fileOf "b.md"]]]

/-- The elements of a pattern body that the normal form keeps, in the words
of the specification: the body is cut at the separators, and the empty
elements (which duplicate, leading and trailing separators leave) and the
`.` elements are removed. -/
def specSegments (body : Str) : List Str :=
  (splitOn '/' body).filter fun s => decide (s ≠ [] ∧ s ≠ ['.'])

/-- Resolution of the `..` elements, in the words of the specification: a
`..` element is removed together with the nearest element before it that is
still there and is not itself `..`.  The result for a list is read off the
result for its tail: the elements that stay, and the number of `..` elements
in front of them that found nothing to remove. -/
def resolveUp : List Str → List Str × Nat
  | [] => ([], 0)
  | x :: rest =>
    let r := resolveUp rest
    if x = ['.', '.'] then (r.1, r.2 + 1)
    else if 0 < r.2 then (r.1, r.2 - 1) else (x :: r.1, 0)

/-- The clean relative form of a pattern body as the specification words it:
the body without `.` elements, resolvable `..` elements, duplicate separators
and a trailing separator, and without its leading separator whenever
something remains after it.  The `..` elements that found nothing to remove
stay in front of a relative body and are dropped from a rooted one; a body of
which nothing remains is `/` when rooted and `.` otherwise. -/
def specNormalForm (body : Str) : Str :=
  let rooted := startsWith body ['/']
  let r := resolveUp (specSegments body)
  let segs := (if rooted then [] else List.replicate r.2 ['.', '.']) ++ r.1
  if segs = [] then (if rooted then ['/'] else ['.']) else joinSep ['/'] segs

/-! ## The parser on tame patterns -/

theorem regexPlain_ne {c : Char} (h : regexPlain c = true) :
    c ≠ '(' ∧ c ≠ ')' ∧ c ≠ '|' ∧ c ≠ '*' ∧ c ≠ '+' ∧ c ≠ '?' ∧ c ≠ '{' ∧ c ≠ '.' ∧
      c ≠ '^' ∧ c ≠ '$' ∧ c ≠ '[' ∧ c ≠ '\\' := by
  simpa [regexPlain, regexSpecials] using h

theorem parseLoop_plain {c : Char} (h : regexPlain c = true) (fuel : Nat) (cs : Str)
    (st : PState) :
    parseLoop (fuel + 1) (c :: cs) st = parseLoop fuel cs (st.push (.lit c)) := by
  obtain ⟨h1, h2, h3, h4, h5, h6, h7, h8, h9, h10, h11, h12⟩ := regexPlain_ne h
  simp [parseLoop, h1, h2, h3, h4, h5, h6, h7, h8, h9, h10, h11, h12]

theorem parseLoop_dot (fuel : Nat) (cs : Str) (st : PState) :
    parseLoop (fuel + 1) ('.' :: cs) st = parseLoop fuel cs (st.push .anyNotNL) := by
  simp [parseLoop]

theorem parseLoop_bol (fuel : Nat) (cs : Str) (st : PState) :
    parseLoop (fuel + 1) ('^' :: cs) st = parseLoop fuel cs (st.push .bol) := by
  simp [parseLoop]

theorem parseLoop_eol (fuel : Nat) (cs : Str) (st : PState) :
    parseLoop (fuel + 1) ('$' :: cs) st = parseLoop fuel cs (st.push .eol) := by
  simp [parseLoop]

theorem parseLoop_escape {d : Char} (h : d = '.' ∨ d = '$') (fuel : Nat) (cs : Str)
    (st : PState) :
    parseLoop (fuel + 1) ('\\' :: d :: cs) st = parseLoop fuel cs (st.push (.lit d)) := by
  rcases h with rfl | rfl <;> simp [parseLoop, isAlnum, isDigit]

theorem parseLoop_notSep (fuel : Nat) (cs : Str) (st : PState) :
    parseLoop (fuel + 1) ('[' :: '^' :: '/' :: ']' :: cs) st =
      parseLoop fuel cs (st.push (.cls true [('/', '/')])) := by
  simp [parseLoop, parseClass, startsWith, parseClassItems, parseClassChar]

theorem parseLoop_star (fuel : Nat) (cs : Str) (st : PState) (x : Regex) (xs : List Regex)
    (hcs : startsWith cs ['?'] = false) (hrep : st.lastRep = false)
    (hcur : st.top.cur = x :: xs) (hx : x.nullable = false) :
    parseLoop (fuel + 1) ('*' :: cs) st =
      parseLoop fuel cs
        { st with top := { st.top with cur := .star true x :: xs }, lastRep := true } := by
  simp [parseLoop, hcs, hrep, hcur, mkRep, hx]

theorem parseLoop_end (fuel : Nat) (st : PState) (h : st.outer = []) :
    parseLoop (fuel + 1) [] st = .ok st.top.close := by
  simp [parseLoop, h]


theorem asRegExpLoop_plain {c : Char} (h : regexPlain c = true) (rest : Str) :
    asRegExpLoop (c :: rest) = c :: asRegExpLoop rest := by
  obtain ⟨h1, h2, h3, h4, h5, h6, h7, h8, h9, h10, h11, h12⟩ := regexPlain_ne h
  conv_lhs => rw [asRegExpLoop.eq_def]
  simp [h4, h6, h8, h10, h12]

theorem asRegExpLoop_escaped {c : Char} (h : c = '.' ∨ c = '$') (rest : Str) :
    asRegExpLoop (c :: rest) = '\\' :: c :: asRegExpLoop rest := by
  conv_lhs => rw [asRegExpLoop.eq_def]
  rcases h with rfl | rfl <;> simp

theorem asRegExpLoop_quest (rest : Str) :
    asRegExpLoop ('?' :: rest) = '[' :: '^' :: '/' :: ']' :: asRegExpLoop rest := by
  conv_lhs => rw [asRegExpLoop.eq_def]
  rfl

theorem asRegExpLoop_star (rest : Str) (h : rest.head? ≠ some '*') :
    asRegExpLoop ('*' :: rest) = '.' :: '*' :: asRegExpLoop rest := by
  conv_lhs => rw [asRegExpLoop.eq_def]
  cases rest with
  | nil => simp [asRegExpLoop]
  | cons d rest1 =>
    have hd : d ≠ '*' := by simpa using h
    simp [hd]

theorem tameChar_cases {c : Char} (h : tameChar c = true) :
    regexPlain c = true ∨ c = '.' ∨ c = '$' ∨ c = '?' ∨ c = '*' := by
  simp [tameChar] at h
  tauto

theorem asRegExpLoop_head (rest : Str) (h : tame rest = true) :
    startsWith (asRegExpLoop rest ++ ['$']) ['?'] = false := by
  cases rest with
  | nil => simp [asRegExpLoop, startsWith]
  | cons c rest1 =>
    simp only [tame, Bool.and_eq_true] at h
    obtain ⟨⟨hc, hss⟩, _⟩ := h
    rcases tameChar_cases hc with hp | rfl | rfl | rfl | rfl
    · rw [asRegExpLoop_plain hp]
      have := (regexPlain_ne hp).2.2.2.2.2.1
      simp [startsWith, this]
    · rw [asRegExpLoop_escaped (Or.inl rfl)]; simp [startsWith]
    · rw [asRegExpLoop_escaped (Or.inr rfl)]; simp [startsWith]
    · rw [asRegExpLoop_quest]; simp [startsWith]
    · rw [asRegExpLoop_star _ (by simpa using hss)]; simp [startsWith]

theorem parseLoop_tame (pat : Str) (ht : tame pat = true) :
    ∀ (fuel : Nat) (st : PState), st.outer = [] → (asRegExpLoop pat).length + 1 < fuel →
      parseLoop fuel (asRegExpLoop pat ++ ['$']) st =
        .ok (Frame.close ⟨st.top.alts, .eol :: (pat.map patItem).reverse ++ st.top.cur⟩) := by
  induction pat with
  | nil =>
    intro fuel st hout hfuel
    obtain ⟨f, rfl⟩ : ∃ f, fuel = f + 2 := ⟨fuel - 2, by simp [asRegExpLoop] at hfuel; omega⟩
    simp [asRegExpLoop, parseLoop_eol, parseLoop_end, PState.push, hout]
  | cons c rest ih =>
    intro fuel st hout hfuel
    simp only [tame, Bool.and_eq_true] at ht
    obtain ⟨⟨hc, hss⟩, hrest⟩ := ht
    rcases tameChar_cases hc with hp | rfl | rfl | rfl | rfl
    · rw [asRegExpLoop_plain hp] at hfuel ⊢
      obtain ⟨f, rfl⟩ : ∃ f, fuel = f + 1 := ⟨fuel - 1, by omega⟩
      rw [List.cons_append, parseLoop_plain hp, ih hrest _ _ (by simpa [PState.push] using hout)
        (by simp at hfuel; omega)]
      have hne := regexPlain_ne hp
      simp [PState.push, patItem, hne.2.2.2.1, hne.2.2.2.2.2.1]
    · rw [asRegExpLoop_escaped (Or.inl rfl)] at hfuel ⊢
      obtain ⟨f, rfl⟩ : ∃ f, fuel = f + 1 := ⟨fuel - 1, by omega⟩
      rw [List.cons_append, List.cons_append, parseLoop_escape (Or.inl rfl),
        ih hrest _ _ (by simpa [PState.push] using hout) (by simp at hfuel; omega)]
      simp [PState.push, patItem]
    · rw [asRegExpLoop_escaped (Or.inr rfl)] at hfuel ⊢
      obtain ⟨f, rfl⟩ : ∃ f, fuel = f + 1 := ⟨fuel - 1, by omega⟩
      rw [List.cons_append, List.cons_append, parseLoop_escape (Or.inr rfl),
        ih hrest _ _ (by simpa [PState.push] using hout) (by simp at hfuel; omega)]
      simp [PState.push, patItem]
    · rw [asRegExpLoop_quest] at hfuel ⊢
      obtain ⟨f, rfl⟩ : ∃ f, fuel = f + 1 := ⟨fuel - 1, by omega⟩
      simp only [List.cons_append]
      rw [parseLoop_notSep,
        ih hrest _ _ (by simpa [PState.push] using hout) (by simp at hfuel; omega)]
      simp [PState.push, patItem]
    · have hh : rest.head? ≠ some '*' := by simpa using hss
      rw [asRegExpLoop_star _ hh] at hfuel ⊢
      obtain ⟨f, rfl⟩ : ∃ f, fuel = f + 2 := ⟨fuel - 2, by simp at hfuel; omega⟩
      simp only [List.cons_append]
      rw [parseLoop_dot, parseLoop_star f _ _ .anyNotNL st.top.cur (asRegExpLoop_head rest hrest)
        (by simp [PState.push]) (by simp [PState.push]) rfl,
        ih hrest _ _ (by simpa [PState.push] using hout) (by simp at hfuel; omega)]
      simp [PState.push, patItem]


theorem parseLoop_base (base : Str) (hb : ∀ c ∈ base, basePlain c = true) :
    ∀ (fuel : Nat) (rest : Str) (st : PState),
      parseLoop (fuel + base.length) (base ++ rest) st =
        parseLoop fuel rest
          (if base = [] then st else
            { st with top := { st.top with cur := (base.map baseItem).reverse ++ st.top.cur },
                      lastRep := false }) := by
  induction base with
  | nil => intro fuel rest st; simp
  | cons c cs ih =>
    intro fuel rest st
    have hc : basePlain c = true := hb c (List.mem_cons_self _ _)
    have hcs : ∀ d ∈ cs, basePlain d = true := fun d hd => hb d (List.mem_cons_of_mem _ hd)
    have hstep : parseLoop (fuel + cs.length + 1) (c :: (cs ++ rest)) st =
        parseLoop (fuel + cs.length) (cs ++ rest) (st.push (baseItem c)) := by
      simp only [basePlain, Bool.or_eq_true, beq_iff_eq] at hc
      rcases hc with hp | rfl
      · rw [parseLoop_plain hp]
        simp [baseItem, (regexPlain_ne hp).2.2.2.2.2.2.2.1]
      · rw [parseLoop_dot]; simp [baseItem]
    rw [List.length_cons, ← Nat.add_assoc, List.cons_append, hstep, ih hcs]
    by_cases hnil : cs = []
    · subst hnil; simp [PState.push]
    · simp [hnil, PState.push]

theorem tame_head_ne_bom {c : Char} {rest : Str} (h : tame (c :: rest) = true) :
    c ≠ bomChar := by
  simp only [tame, Bool.and_eq_true, tameChar] at h
  simpa using h.1.1.2

theorem regexText_tame (base pat : Str) (ht : tame pat = true) :
    regexText base pat = '^' :: (base ++ '/' :: (asRegExpLoop pat ++ ['$'])) := by
  cases pat with
  | nil => simp [regexText]
  | cons c rest => simp [regexText, tame_head_ne_bom ht]

/-- The expression `asRegExp` compiles from a tame pattern under a base
directory of plain characters. -/
theorem asRegExp_tame (base pat : Str) (hb : ∀ c ∈ base, basePlain c = true)
    (ht : tame pat = true) :
    asRegExp base pat = .ok (mkCat (tameItems base pat).reverse) := by
  have hlen : (regexText base pat).length + 1 =
      ((asRegExpLoop pat).length + 2 + 1 + base.length) + 1 := by
    rw [regexText_tame base pat ht]; simp; omega
  rw [asRegExp, regexpCompile, hlen, regexText_tame base pat ht, parseLoop_bol,
    parseLoop_base base hb]
  have hslash : regexPlain '/' = true := by decide
  rw [parseLoop_plain hslash, parseLoop_tame pat ht _ _ (by split <;> simp [PState.push])
    (by omega)]
  by_cases hnil : base = []
  · subst hnil; simp [PState.push, Frame.close, mkAlt, tameItems]
  · simp [hnil, PState.push, Frame.close, mkAlt, tameItems]

theorem runSeq_append (n : Nat) (xs ys : List Regex) (rest : Str) :
    runSeq n (xs ++ ys) rest = (runSeq n xs rest).flatMap (runSeq n ys) := by
  induction xs generalizing rest with
  | nil => simp [runSeq]
  | cons x xs ih =>
    simp only [List.cons_append, runSeq, List.flatMap_assoc]
    congr 1
    funext t
    exact ih t

theorem run_foldl_cat (n : Nat) (ys : List Regex) :
    ∀ (acc : Regex) (rest : Str),
      (ys.foldl (fun acc y => Regex.cat y acc) acc).run n rest =
        (runSeq n ys.reverse rest).flatMap (acc.run n) := by
  induction ys with
  | nil => intro acc rest; simp [runSeq]
  | cons y ys ih =>
    intro acc rest
    rw [List.foldl_cons, ih, List.reverse_cons, runSeq_append, List.flatMap_assoc]
    congr 1
    funext t
    simp [Regex.run, runSeq]

/-- Running the concatenation the parser builds is running its items in
order. -/
theorem run_mkCat (n : Nat) (items : List Regex) (rest : Str) :
    (mkCat items.reverse).run n rest = runSeq n items rest := by
  rcases List.eq_nil_or_concat items with rfl | ⟨xs, x, rfl⟩
  · simp [mkCat, Regex.run, runSeq]
  · rw [List.concat_eq_append, List.reverse_append, List.reverse_singleton, List.singleton_append, mkCat,
      run_foldl_cat, List.reverse_reverse, runSeq_append]
    congr 1
    funext t
    simp [runSeq]

/-! ## The matcher on anchored expressions and tame patterns -/

theorem findFrom_anchored_pos {re : Regex} (h : Anchored re) (text : Str) :
    ∀ (fuel pos : Nat), 0 < pos → findFrom re text fuel pos = none := by
  intro fuel
  induction fuel with
  | zero => intro pos _; rfl
  | succ f ih =>
    intro pos hpos
    rw [findFrom]
    split
    · rfl
    · rename_i hlen
      have hrun : re.run text.length (text.drop pos) = [] :=
        h.1 _ _ (by rw [List.length_drop]; omega)
      rw [hrun]
      exact ih (pos + 1) (by omega)

/-- The matches of an anchored expression: the whole text or nothing. -/
theorem FindAllString_anchored {re : Regex} (h : Anchored re) (text : Str) :
    FindAllString re text = if re.run text.length text = [] then [] else [text] := by
  rw [FindAllString, allMatches]
  simp only [Nat.not_lt_zero, ↓reduceIte, Nat.sub_zero]
  rw [findFrom]
  simp only [Nat.not_lt_zero, ↓reduceIte, List.drop_zero]
  cases hrun : re.run text.length text with
  | nil =>
    simp only [findFrom_anchored_pos h text _ 1 (by omega), ↓reduceIte]
  | cons t ts =>
    have ht : t = [] := h.2 _ _ t (by rw [hrun]; exact List.mem_cons_self _ _)
    subst ht
    simp only [List.length_nil, Nat.sub_zero]
    by_cases hlen : text.length = 0
    · have : text = [] := List.length_eq_zero.mp hlen
      subst this
      simp [allMatches]
    · have htail : allMatches re text (text.length + 1) text.length (some text.length) = [] := by
        rw [allMatches]
        simp only [lt_self_iff_false, ↓reduceIte]
        rw [findFrom_anchored_pos h text _ _ (by omega)]
      simp [hlen, htail]

theorem accepts_anchored {re : Regex} (h : Anchored re) (text : Str) :
    accepts re text = true ↔ re.run text.length text ≠ [] := by
  rw [accepts, FindAllString_anchored h]
  by_cases hrun : re.run text.length text = [] <;> simp [hrun]

theorem endsInEol_run {r : Regex} (h : endsInEol r = true) :
    ∀ (n : Nat) (rest t : Str), t ∈ r.run n rest → t = [] := by
  induction r with
  | eol =>
    intro n rest t ht
    simp only [Regex.run] at ht
    split at ht <;> simp_all
  | cat a b _ ihb =>
    intro n rest t ht
    simp only [Regex.run, List.mem_flatMap] at ht
    obtain ⟨u, _, hu⟩ := ht
    exact ihb (by simpa [endsInEol] using h) n u t hu
  | _ => simp [endsInEol] at h

/-- The syntactic test is sound. -/
theorem anchored_of_isAnchored {re : Regex} (h : isAnchored re = true) : Anchored re := by
  match re, h with
  | .cat .bol r, h =>
    have hr : endsInEol r = true := by simpa [isAnchored] using h
    refine ⟨fun n rest hlen => ?_, fun n rest t ht => ?_⟩
    · simp [Regex.run, hlen]
    · simp only [Regex.run, List.mem_flatMap] at ht
      obtain ⟨u, _, hu⟩ := ht
      exact endsInEol_run hr n u t hu

theorem anchored_seq (mid : List Regex) :
    Anchored (mkCat (Regex.bol :: (mid ++ [Regex.eol])).reverse) := by
  refine ⟨fun n rest hlen => ?_, fun n rest t ht => ?_⟩
  · rw [run_mkCat]; simp [runSeq, Regex.run, hlen]
  · rw [run_mkCat, ← List.cons_append, runSeq_append] at ht
    simp only [List.mem_flatMap] at ht
    obtain ⟨u, _, hu⟩ := ht
    simp only [runSeq, Regex.run] at hu
    split at hu <;> simp_all

theorem anchored_tame (base pat : Str) : Anchored (mkCat (tameItems base pat).reverse) := by
  have := anchored_seq (base.map baseItem ++ [.lit '/'] ++ pat.map patItem)
  simpa [tameItems] using this

theorem runSeq_base (n : Nat) (base : Str) (more : List Regex) (rest : Str) :
    runSeq n (base.map baseItem ++ more) (base ++ rest) = runSeq n more rest := by
  induction base with
  | nil => simp
  | cons c cs ih =>
    simp only [List.map_cons, List.cons_append, runSeq]
    by_cases hdot : c = '.'
    · subst hdot; simp [baseItem, Regex.run, ih]
    · simp [baseItem, hdot, Regex.run, ih]


/-- What the matcher of a tame pattern accepts, in terms of its items. -/
theorem matcherAccepts_tame (base pat name : Str) (hb : ∀ c ∈ base, basePlain c = true)
    (ht : tame pat = true) :
    matcherAccepts base pat (base ++ '/' :: name) = true ↔
      runSeq (base ++ '/' :: name).length (pat.map patItem ++ [.eol]) name ≠ [] := by
  rw [matcherAccepts, asRegExp_tame base pat hb ht]
  rw [accepts_anchored (anchored_tame base pat), run_mkCat, tameItems]
  simp only [runSeq, Regex.run, ↓reduceIte, List.flatMap_cons, List.flatMap_nil,
    List.append_nil, List.append_assoc]
  rw [runSeq_base]
  simp [runSeq, Regex.run]

theorem char_eq_of_toNat_eq {c d : Char} (h : c.toNat = d.toNat) : c = d := by
  rw [← Char.ofNat_toNat c, h, Char.ofNat_toNat]

theorem classHas_notSep (d : Char) : classHas true [('/', '/')] d = true ↔ d ≠ '/' := by
  by_cases hd : d = '/'
  · subst hd; decide
  · have hne : d.toNat ≠ ('/' : Char).toNat := fun h => hd (char_eq_of_toNat_eq h)
    have : (decide (('/' : Char).toNat ≤ d.toNat) && decide (d.toNat ≤ ('/' : Char).toNat))
        = false := by
      rw [Bool.and_eq_false_iff]
      simp only [decide_eq_false_iff_not, not_le]
      omega
    simp [classHas, this, hd]
    exact hne

/-- The items of a pattern of literal characters and `?` match exactly the
names of the same length that agree with it position by position. -/
theorem runSeq_quest (n : Nat) (pat : Str) (hpat : ∀ c ∈ pat, c ≠ '*') :
    ∀ name : Str, runSeq n (pat.map patItem ++ [.eol]) name ≠ [] ↔
      name.length = pat.length ∧
        ∀ pc ∈ List.zip pat name, (pc.1 = '?' → pc.2 ≠ '/') ∧ (pc.1 ≠ '?' → pc.2 = pc.1) := by
  induction pat with
  | nil =>
    intro name
    cases name <;> simp [runSeq, Regex.run]
  | cons c ps ih =>
    intro name
    have hc : c ≠ '*' := hpat c (List.mem_cons_self _ _)
    have hps : ∀ d ∈ ps, d ≠ '*' := fun d hd => hpat d (List.mem_cons_of_mem _ hd)
    cases name with
    | nil => simp [runSeq, Regex.run, patItem, hc]; split <;> simp [Regex.run]
    | cons d t =>
      simp only [List.map_cons, List.cons_append, runSeq, List.length_cons, List.zip_cons_cons,
        List.mem_cons, forall_eq_or_imp, Nat.add_right_cancel_iff]
      by_cases hq : c = '?'
      · subst hq
        by_cases hd : d = '/'
        · subst hd
          have : classHas true [('/', '/')] '/' = false := by decide
          simp [patItem, Regex.run, this]
        · have : classHas true [('/', '/')] d = true := (classHas_notSep d).2 hd
          simp only [patItem, Regex.run, this, ↓reduceIte, List.flatMap_cons, List.flatMap_nil,
            List.append_nil, List.append_eq]
          rw [ih hps t]
          simp [hd]
      · by_cases hd : d = c
        · subst hd
          simp only [patItem, hc, hq, Regex.run, ↓reduceIte, List.flatMap_cons,
            List.flatMap_nil, List.append_nil, List.append_eq]
          rw [ih hps t]
          simp [hq]
        · simp [patItem, hc, hq, Regex.run, hd]


theorem regexPlain_of_isAlnum {c : Char} (h : isAlnum c = true) : regexPlain c = true := by
  simp only [regexPlain, regexSpecials, decide_eq_true_eq, List.mem_cons, List.mem_singleton,
    List.not_mem_nil, or_false, not_or]
  refine ⟨?_, ?_, ?_, ?_, ?_, ?_, ?_, ?_, ?_, ?_, ?_, ?_⟩ <;>
    (intro hc; subst hc; revert h; decide)

theorem isAlnum_ne_bom {c : Char} (h : isAlnum c = true) : c ≠ bomChar := by
  intro hc; subst hc; revert h; decide

theorem tame_of_alnum_or_quest (pat : Str) (h : ∀ c ∈ pat, isAlnum c = true ∨ c = '?') :
    tame pat = true ∧ ∀ c ∈ pat, c ≠ '*' := by
  induction pat with
  | nil => simp [tame]
  | cons c cs ih =>
    have hc := h c (List.mem_cons_self _ _)
    obtain ⟨ih1, ih2⟩ := ih (fun d hd => h d (List.mem_cons_of_mem _ hd))
    have hstar : c ≠ '*' := by
      rcases hc with hc | hc
      · intro hs; subst hs; revert hc; decide
      · subst hc; decide
    have htc : tameChar c = true := by
      rcases hc with hc | hc
      · simp [tameChar, regexPlain_of_isAlnum hc, isAlnum_ne_bom hc]
      · subst hc; decide
    refine ⟨by simp [tame, htc, hstar, ih1], ?_⟩
    intro d hd
    rcases List.mem_cons.mp hd with rfl | hd
    · exact hstar
    · exact ih2 d hd

theorem mem_starLoop_step (step : Str → List Str) (hnil : step [] = [])
    (hcons : ∀ d r, step (d :: r) = if d = '\n' then [] else [r]) :
    ∀ (k : Nat) (rest t : Str), rest.length ≤ k →
      (t ∈ starLoop true step k rest ↔ ∃ w, rest = w ++ t ∧ '\n' ∉ w) := by
  intro k
  induction k with
  | zero =>
    intro rest t hk
    have : rest = [] := List.length_eq_zero.mp (by omega)
    subst this
    simp only [starLoop, List.mem_singleton]
    constructor
    · intro h; exact ⟨[], by simp [h], by simp⟩
    · rintro ⟨w, hw, _⟩
      have := List.append_eq_nil.mp hw.symm
      exact this.2
  | succ k ih =>
    intro rest t hk
    cases rest with
    | nil =>
      simp only [starLoop, hnil, List.filter_nil, List.flatMap_nil, ↓reduceIte,
        List.nil_append, List.mem_singleton]
      constructor
      · intro h; exact ⟨[], by simp [h], by simp⟩
      · rintro ⟨w, hw, _⟩
        exact (List.append_eq_nil.mp hw.symm).2
    | cons d r =>
      have hr : r.length ≤ k := by simp at hk; omega
      by_cases hd : d = '\n'
      · subst hd
        simp only [starLoop, hcons, ↓reduceIte, List.filter_nil, List.flatMap_nil,
          List.nil_append, List.mem_singleton]
        constructor
        · intro h; exact ⟨[], by simp [h], by simp⟩
        · rintro ⟨w, hw, hnl⟩
          cases w with
          | nil => simpa using hw.symm
          | cons c w' =>
            simp only [List.cons_append, List.cons.injEq] at hw
            exact absurd (hw.1 ▸ List.mem_cons_self _ _) hnl
      · simp only [starLoop, hcons, hd, ↓reduceIte, List.filter_cons, List.length_cons,
          Nat.lt_add_one, decide_True, List.filter_nil, List.flatMap_cons, List.flatMap_nil,
          List.append_nil, List.mem_append, List.mem_singleton]
        rw [ih r t hr]
        constructor
        · rintro (⟨w, hw, hnl⟩ | h)
          · refine ⟨d :: w, by simp [hw], ?_⟩
            simp only [List.mem_cons, not_or]
            exact ⟨fun h => hd h.symm, hnl⟩
          · exact ⟨[], by simp [h], by simp⟩
        · rintro ⟨w, hw, hnl⟩
          cases w with
          | nil => right; simpa using hw.symm
          | cons c w' =>
            simp only [List.cons_append, List.cons.injEq] at hw
            left
            exact ⟨w', hw.2, fun h => hnl (List.mem_cons_of_mem _ h)⟩

/-- The positions `.*` can reach: past any stretch without a line break. -/
theorem mem_run_dotStar (n : Nat) (rest t : Str) :
    t ∈ (Regex.star true .anyNotNL).run n rest ↔ ∃ w, rest = w ++ t ∧ '\n' ∉ w := by
  rw [Regex.run]
  exact mem_starLoop_step _ rfl (fun _ _ => rfl) _ _ _ (le_refl _)

theorem runSeq_lits (n : Nat) (v : Str) :
    ∀ t : Str, runSeq n (v.map Regex.lit ++ [.eol]) t ≠ [] ↔ t = v := by
  induction v with
  | nil => intro t; cases t <;> simp [runSeq, Regex.run]
  | cons c cs ih =>
    intro t
    cases t with
    | nil => simp [runSeq, Regex.run]
    | cons d r =>
      simp only [List.map_cons, List.cons_append, runSeq, Regex.run, List.cons.injEq]
      by_cases hd : d = c
      · subst hd
        simp only [↓reduceIte, List.flatMap_cons, List.flatMap_nil, List.append_nil, true_and]
        exact ih r
      · simp [hd]

theorem literalChar_facts {c : Char} (h : literalChar c = true) :
    tameChar c = true ∧ c ≠ '*' ∧ c ≠ '?' := by
  simp only [literalChar, Bool.and_eq_true, Bool.or_eq_true, beq_iff_eq, bne_iff_ne] at h
  obtain ⟨h1, h2⟩ := h
  rcases h1 with (hp | rfl) | rfl
  · have := regexPlain_ne hp
    exact ⟨by simp [tameChar, hp, h2], this.2.2.2.1, this.2.2.2.2.2.1⟩
  · exact ⟨by decide, by decide, by decide⟩
  · exact ⟨by decide, by decide, by decide⟩

theorem tame_literal (v : Str) (h : ∀ c ∈ v, literalChar c = true) :
    tame v = true ∧ v.head? ≠ some '*' ∧ v.map patItem = v.map Regex.lit := by
  induction v with
  | nil => simp [tame]
  | cons c cs ih =>
    obtain ⟨hc1, hc2, hc3⟩ := literalChar_facts (h c (List.mem_cons_self _ _))
    obtain ⟨ih1, _, ih3⟩ := ih (fun d hd => h d (List.mem_cons_of_mem _ hd))
    refine ⟨by simp [tame, hc1, hc2, ih1], by simpa using hc2, ?_⟩
    simp [patItem, hc2, hc3, ih3]

/-- What a pattern of literally matched characters accepts: itself. -/
theorem matcherAccepts_literal (base v s : Str) (hb : ∀ c ∈ base, basePlain c = true)
    (hv : ∀ c ∈ v, literalChar c = true) :
    matcherAccepts base v (base ++ '/' :: s) = true ↔ s = v := by
  obtain ⟨ht, _, hmap⟩ := tame_literal v hv
  rw [matcherAccepts_tame base v s hb ht, hmap]
  exact runSeq_lits _ v s

/-- What a star followed by literally matched characters accepts: the paths
that end in these characters after a stretch without a line break. -/
theorem matcherAccepts_star_literal (base v s : Str) (hb : ∀ c ∈ base, basePlain c = true)
    (hv : ∀ c ∈ v, literalChar c = true) :
    matcherAccepts base ('*' :: v) (base ++ '/' :: s) = true ↔
      ∃ w, s = w ++ v ∧ '\n' ∉ w := by
  obtain ⟨ht, hhead, hmap⟩ := tame_literal v hv
  have ht' : tame ('*' :: v) = true := by
    have hb' : (v.head? == some '*') = false := by simpa using hhead
    simp only [tame, Bool.and_eq_true, Bool.not_eq_true', Bool.and_eq_false_iff]
    exact ⟨⟨by decide, Or.inr hb'⟩, ht⟩
  rw [matcherAccepts_tame base ('*' :: v) s hb ht', List.map_cons, hmap]
  have hitem : patItem '*' = .star true .anyNotNL := by simp [patItem]
  rw [hitem, List.cons_append, runSeq, ne_eq, List.flatMap_eq_nil_iff]
  simp only [not_forall]
  constructor
  · rintro ⟨t, ht, hrun⟩
    obtain ⟨w, hw, hnl⟩ := (mem_run_dotStar _ _ _).1 ht
    have := (runSeq_lits _ v t).1 hrun
    subst this
    exact ⟨w, hw, hnl⟩
  · rintro ⟨w, hw, hnl⟩
    exact ⟨v, (mem_run_dotStar _ _ _).2 ⟨w, hw, hnl⟩, (runSeq_lits _ v v).2 rfl⟩



/-! ## The parser on patterns with `**` -/

theorem parseLoop_optDirs (fuel : Nat) (cs : Str) (st : PState)
    (hcs : startsWith cs ['?'] = false) :
    parseLoop (fuel + 6) ('(' :: '.' :: '*' :: '/' :: ')' :: '?' :: cs) st =
      parseLoop fuel cs
        { st with top := { st.top with cur := optDirs :: st.top.cur }, lastRep := true } := by
  simp [parseLoop, startsWith, hcs, mkRep, PState.push, Frame.close, mkAlt, mkCat, optDirs,
    Regex.nullable]

theorem glob_cons {c : Char} {rest : Str} (h : glob (c :: rest) = true) :
    tameChar c = true ∧ glob rest = true := by
  simpa [glob] using h

theorem asRegExpLoop_starStar_end : asRegExpLoop ['*', '*'] = ['.', '*'] := by
  simp [asRegExpLoop]

theorem asRegExpLoop_starStar_sep_end : asRegExpLoop ['*', '*', '/'] = ['.', '*'] := by
  simp [asRegExpLoop]

theorem asRegExpLoop_starStar_sep (e : Char) (rest : Str) :
    asRegExpLoop ('*' :: '*' :: '/' :: e :: rest) =
      '(' :: '.' :: '*' :: '/' :: ')' :: '?' :: asRegExpLoop (e :: rest) := by
  conv_lhs => rw [asRegExpLoop.eq_def]
  simp

theorem asRegExpLoop_starStar (e : Char) (rest : Str) (he : e ≠ '/') :
    asRegExpLoop ('*' :: '*' :: e :: rest) =
      '(' :: '.' :: '*' :: '/' :: ')' :: '?' :: asRegExpLoop (e :: rest) := by
  conv_lhs => rw [asRegExpLoop.eq_def]
  simp [he]

theorem globItems_lit (c : Char) (rest : Str) (h1 : c ≠ '*') (h2 : c ≠ '?') :
    globItems (c :: rest) = .lit c :: globItems rest := by
  conv_lhs => rw [globItems.eq_def]
  simp [h1, h2]

theorem globItems_quest (rest : Str) :
    globItems ('?' :: rest) = .cls true [('/', '/')] :: globItems rest := by
  conv_lhs => rw [globItems.eq_def]
  simp

theorem globItems_star (d : Char) (rest : Str) (hd : d ≠ '*') :
    globItems ('*' :: d :: rest) = .star true .anyNotNL :: globItems (d :: rest) := by
  conv_lhs => rw [globItems.eq_def]
  simp [hd]

theorem globItems_star_end : globItems ['*'] = [.star true .anyNotNL] := by
  simp [globItems]

theorem globItems_starStar_end : globItems ['*', '*'] = [.star true .anyNotNL] := by
  simp [globItems]

theorem globItems_starStar_sep_end : globItems ['*', '*', '/'] = [.star true .anyNotNL] := by
  simp [globItems]

theorem globItems_starStar_sep (e : Char) (rest : Str) :
    globItems ('*' :: '*' :: '/' :: e :: rest) = optDirs :: globItems (e :: rest) := by
  conv_lhs => rw [globItems.eq_def]
  simp

theorem globItems_starStar (e : Char) (rest : Str) (he : e ≠ '/') :
    globItems ('*' :: '*' :: e :: rest) = optDirs :: globItems (e :: rest) := by
  conv_lhs => rw [globItems.eq_def]
  simp [he]

/-- The expression text of a pattern never begins with a repetition
operator. -/
theorem asRegExpLoop_glob_head (pat : Str) (h : glob pat = true) :
    startsWith (asRegExpLoop pat ++ ['$']) ['?'] = false := by
  cases pat with
  | nil => simp [asRegExpLoop, startsWith]
  | cons c rest =>
    obtain ⟨hc, _⟩ := glob_cons h
    rcases tameChar_cases hc with hp | rfl | rfl | rfl | rfl
    · rw [asRegExpLoop_plain hp]
      have := (regexPlain_ne hp).2.2.2.2.2.1
      simp [startsWith, this]
    · rw [asRegExpLoop_escaped (Or.inl rfl)]; simp [startsWith]
    · rw [asRegExpLoop_escaped (Or.inr rfl)]; simp [startsWith]
    · rw [asRegExpLoop_quest]; simp [startsWith]
    · rw [asRegExpLoop.eq_def]
      cases rest with
      | nil => simp [startsWith]
      | cons d rest1 =>
        by_cases hd : d = '*'
        · subst hd
          cases rest1 with
          | nil => simp [startsWith]
          | cons e rest2 =>
            by_cases he : e = '/'
            · subst he
              by_cases h2 : rest2 = []
              · simp [startsWith, h2]
              · simp [startsWith, h2]
            · simp [startsWith, he]
        · simp [startsWith, hd]

theorem parseLoop_dotStar (fuel : Nat) (cs : Str) (st : PState)
    (hcs : startsWith cs ['?'] = false) :
    parseLoop (fuel + 2) ('.' :: '*' :: cs) st =
      parseLoop fuel cs
        { st with top := { st.top with cur := .star true .anyNotNL :: st.top.cur },
                  lastRep := true } := by
  rw [parseLoop_dot, parseLoop_star fuel _ _ .anyNotNL st.top.cur hcs (by simp [PState.push])
    (by simp [PState.push]) rfl]
  simp [PState.push]

theorem parseLoop_glob : ∀ (n : Nat) (pat : Str), pat.length ≤ n → glob pat = true →
    ∀ (fuel : Nat) (st : PState), st.outer = [] → (asRegExpLoop pat).length + 1 < fuel →
      parseLoop fuel (asRegExpLoop pat ++ ['$']) st =
        .ok (Frame.close ⟨st.top.alts, .eol :: (globItems pat).reverse ++ st.top.cur⟩) := by
  intro n
  induction n with
  | zero =>
    intro pat hlen _ fuel st hout hfuel
    have : pat = [] := List.length_eq_zero.mp (by omega)
    subst this
    obtain ⟨f, rfl⟩ : ∃ f, fuel = f + 2 := ⟨fuel - 2, by simp [asRegExpLoop] at hfuel; omega⟩
    simp [asRegExpLoop, globItems, parseLoop_eol, parseLoop_end, PState.push, hout]
  | succ n ih =>
    intro pat hlen hg fuel st hout hfuel
    cases pat with
    | nil =>
      obtain ⟨f, rfl⟩ : ∃ f, fuel = f + 2 := ⟨fuel - 2, by simp [asRegExpLoop] at hfuel; omega⟩
      simp [asRegExpLoop, globItems, parseLoop_eol, parseLoop_end, PState.push, hout]
    | cons c rest =>
      obtain ⟨hc, hrest⟩ := glob_cons hg
      have hlr : rest.length ≤ n := by simp at hlen; omega
      rcases tameChar_cases hc with hp | rfl | rfl | rfl | rfl
      · rw [asRegExpLoop_plain hp] at hfuel ⊢
        obtain ⟨f, rfl⟩ : ∃ f, fuel = f + 1 := ⟨fuel - 1, by omega⟩
        rw [List.cons_append, parseLoop_plain hp,
          ih rest hlr hrest _ _ (by simpa [PState.push] using hout) (by simp at hfuel; omega)]
        have hne := regexPlain_ne hp
        simp [PState.push, globItems_lit _ _ hne.2.2.2.1 hne.2.2.2.2.2.1]
      · rw [asRegExpLoop_escaped (Or.inl rfl)] at hfuel ⊢
        obtain ⟨f, rfl⟩ : ∃ f, fuel = f + 1 := ⟨fuel - 1, by omega⟩
        rw [List.cons_append, List.cons_append, parseLoop_escape (Or.inl rfl),
          ih rest hlr hrest _ _ (by simpa [PState.push] using hout) (by simp at hfuel; omega)]
        simp [PState.push, globItems_lit '.' _ (by decide) (by decide)]
      · rw [asRegExpLoop_escaped (Or.inr rfl)] at hfuel ⊢
        obtain ⟨f, rfl⟩ : ∃ f, fuel = f + 1 := ⟨fuel - 1, by omega⟩
        rw [List.cons_append, List.cons_append, parseLoop_escape (Or.inr rfl),
          ih rest hlr hrest _ _ (by simpa [PState.push] using hout) (by simp at hfuel; omega)]
        simp [PState.push, globItems_lit '$' _ (by decide) (by decide)]
      · rw [asRegExpLoop_quest] at hfuel ⊢
        obtain ⟨f, rfl⟩ : ∃ f, fuel = f + 1 := ⟨fuel - 1, by omega⟩
        simp only [List.cons_append]
        rw [parseLoop_notSep,
          ih rest hlr hrest _ _ (by simpa [PState.push] using hout) (by simp at hfuel; omega)]
        simp [PState.push, globItems_quest]
      · cases rest with
        | nil =>
          obtain ⟨f, rfl⟩ : ∃ f, fuel = f + 4 := ⟨fuel - 4, by simp [asRegExpLoop] at hfuel; omega⟩
          have h0 : asRegExpLoop ['*'] = ['.', '*'] := by simp [asRegExpLoop]
          rw [h0]
          simp only [List.cons_append, List.nil_append]
          rw [parseLoop_dotStar _ _ _ (by simp [startsWith]), parseLoop_eol, parseLoop_end _ _
            (by simpa [PState.push] using hout)]
          simp [PState.push, globItems]
        | cons d rest1 =>
          by_cases hd : d = '*'
          · subst hd
            cases rest1 with
            | nil =>
              obtain ⟨f, rfl⟩ : ∃ f, fuel = f + 4 :=
                ⟨fuel - 4, by simp [asRegExpLoop] at hfuel; omega⟩
              rw [asRegExpLoop_starStar_end]
              simp only [List.cons_append, List.nil_append]
              rw [parseLoop_dotStar _ _ _ (by simp [startsWith]), parseLoop_eol, parseLoop_end _ _
                (by simpa [PState.push] using hout)]
              simp [PState.push, globItems]
            | cons e rest2 =>
              have hg2 : glob rest2 = true := (glob_cons (glob_cons hrest).2).2
              have hge : glob (e :: rest2) = true := (glob_cons hrest).2
              by_cases he : e = '/'
              · subst he
                cases rest2 with
                | nil =>
                  obtain ⟨f, rfl⟩ : ∃ f, fuel = f + 4 :=
                    ⟨fuel - 4, by simp [asRegExpLoop] at hfuel; omega⟩
                  rw [asRegExpLoop_starStar_sep_end]
                  simp only [List.cons_append, List.nil_append]
                  rw [parseLoop_dotStar _ _ _ (by simp [startsWith]), parseLoop_eol,
                    parseLoop_end _ _ (by simpa [PState.push] using hout)]
                  simp [PState.push, globItems]
                | cons x rest3 =>
                  rw [asRegExpLoop_starStar_sep] at hfuel ⊢
                  obtain ⟨f, rfl⟩ : ∃ f, fuel = f + 6 := ⟨fuel - 6, by simp at hfuel; omega⟩
                  simp only [List.cons_append]
                  rw [parseLoop_optDirs _ _ _ (asRegExpLoop_glob_head _ hg2),
                    ih (x :: rest3) (by simp at hlen ⊢; omega) hg2 _ _ (by simpa using hout)
                      (by simp at hfuel ⊢; omega)]
                  simp [globItems_starStar_sep]
              · rw [asRegExpLoop_starStar _ _ he] at hfuel ⊢
                obtain ⟨f, rfl⟩ : ∃ f, fuel = f + 6 := ⟨fuel - 6, by simp at hfuel; omega⟩
                simp only [List.cons_append]
                rw [parseLoop_optDirs _ _ _ (asRegExpLoop_glob_head _ hge),
                  ih (e :: rest2) (by simp at hlen ⊢; omega) hge _ _ (by simpa using hout)
                    (by simp at hfuel ⊢; omega)]
                simp [globItems_starStar _ _ he]
          · have hh : (d :: rest1).head? ≠ some '*' := by simpa using hd
            rw [asRegExpLoop_star _ hh] at hfuel ⊢
            obtain ⟨f, rfl⟩ : ∃ f, fuel = f + 2 := ⟨fuel - 2, by simp at hfuel; omega⟩
            simp only [List.cons_append]
            rw [parseLoop_dotStar _ _ _ (asRegExpLoop_glob_head _ hrest),
              ih (d :: rest1) hlr hrest _ _ (by simpa using hout) (by simp at hfuel ⊢; omega)]
            simp [globItems_star _ _ hd]


theorem glob_head_ne_bom {c : Char} {rest : Str} (h : glob (c :: rest) = true) :
    c ≠ bomChar := by
  have := (glob_cons h).1
  simp only [tameChar, Bool.and_eq_true] at this
  simpa using this.2

theorem regexText_glob (base pat : Str) (hg : glob pat = true) :
    regexText base pat = '^' :: (base ++ '/' :: (asRegExpLoop pat ++ ['$'])) := by
  cases pat with
  | nil => simp [regexText]
  | cons c rest => simp [regexText, glob_head_ne_bom hg]

/-- The expression `asRegExp` compiles from a pattern of literally matched
characters, `?` and `*` under a base directory of plain characters. -/
theorem asRegExp_glob (base pat : Str) (hb : ∀ c ∈ base, basePlain c = true)
    (hg : glob pat = true) :
    asRegExp base pat = .ok (mkCat (globSeq base pat).reverse) := by
  have hlen : (regexText base pat).length + 1 =
      ((asRegExpLoop pat).length + 2 + 1 + base.length) + 1 := by
    rw [regexText_glob base pat hg]; simp; omega
  rw [asRegExp, regexpCompile, hlen, regexText_glob base pat hg, parseLoop_bol,
    parseLoop_base base hb]
  have hslash : regexPlain '/' = true := by decide
  rw [parseLoop_plain hslash, parseLoop_glob _ pat (le_refl _) hg _ _
    (by split <;> simp [PState.push]) (by omega)]
  by_cases hnil : base = []
  · subst hnil; simp [PState.push, Frame.close, mkAlt, globSeq]
  · simp [hnil, PState.push, Frame.close, mkAlt, globSeq]

theorem anchored_glob (base pat : Str) : Anchored (mkCat (globSeq base pat).reverse) := by
  have := anchored_seq (base.map baseItem ++ [.lit '/'] ++ globItems pat)
  simpa [globSeq] using this

theorem runSeq_cons_ne_nil (n : Nat) (x : Regex) (xs : List Regex) (t : Str) :
    runSeq n (x :: xs) t ≠ [] ↔ ∃ r ∈ x.run n t, runSeq n xs r ≠ [] := by
  rw [runSeq, ne_eq, List.flatMap_eq_nil_iff]
  simp only [not_forall, exists_prop]

/-- Literal items in front of a sequence consume exactly their text. -/
theorem runSeq_lits_append (n : Nat) (v : Str) (more : List Regex) :
    ∀ t : Str, runSeq n (v.map Regex.lit ++ more) t ≠ [] ↔
      ∃ r, t = v ++ r ∧ runSeq n more r ≠ [] := by
  induction v with
  | nil => intro t; simp
  | cons c cs ih =>
    intro t
    rw [List.map_cons, List.cons_append, runSeq_cons_ne_nil]
    cases t with
    | nil => simp [Regex.run]
    | cons d r =>
      by_cases hd : d = c
      · subst hd
        simp only [Regex.run, ↓reduceIte, List.mem_singleton, exists_eq_left, List.cons_append,
          List.cons.injEq, true_and]
        exact ih r
      · simp [Regex.run, hd]

theorem baseItem_plain (base : Str) (hb : ∀ c ∈ base, regexPlain c = true) :
    base.map baseItem = base.map Regex.lit := by
  apply List.map_congr_left
  intro c hc
  have := (regexPlain_ne (hb c hc)).2.2.2.2.2.2.2.1
  simp [baseItem, this]

theorem basePlain_of_plain {base : Str} (hb : ∀ c ∈ base, regexPlain c = true) :
    ∀ c ∈ base, basePlain c = true := fun c hc => by simp [basePlain, hb c hc]

/-- What the matcher of a pattern of literally matched characters, `?` and
`*` accepts under a base directory of plain characters: the paths that are
the base directory, a separator, and a text the items of the pattern match
up to its end. -/
theorem matcherAccepts_glob (base pat path : Str) (hb : ∀ c ∈ base, regexPlain c = true)
    (hg : glob pat = true) :
    matcherAccepts base pat path = true ↔
      ∃ name, path = base ++ '/' :: name ∧
        runSeq path.length (globItems pat ++ [.eol]) name ≠ [] := by
  rw [matcherAccepts, asRegExp_glob base pat (basePlain_of_plain hb) hg]
  rw [accepts_anchored (anchored_glob base pat), run_mkCat, globSeq, baseItem_plain base hb]
  simp only [runSeq, Regex.run, ↓reduceIte, List.flatMap_cons, List.flatMap_nil,
    List.append_nil, List.append_assoc]
  rw [runSeq_lits_append]
  constructor
  · rintro ⟨r, hr, hrun⟩
    rw [List.singleton_append, runSeq_cons_ne_nil] at hrun
    obtain ⟨r2, hr2, hrun2⟩ := hrun
    cases r with
    | nil => simp [Regex.run] at hr2
    | cons d r1 =>
      simp only [Regex.run] at hr2
      split at hr2
      · rename_i hd
        subst hd
        simp only [List.mem_singleton] at hr2
        subst hr2
        exact ⟨r2, hr, hrun2⟩
      · simp at hr2
  · rintro ⟨name, hname, hrun⟩
    refine ⟨'/' :: name, hname, ?_⟩
    rw [List.singleton_append, runSeq_cons_ne_nil]
    exact ⟨name, by simp [Regex.run], hrun⟩

theorem globItems_literal_append (u rest : Str) (hu : ∀ c ∈ u, literalChar c = true) :
    globItems (u ++ rest) = u.map Regex.lit ++ globItems rest := by
  induction u with
  | nil => simp
  | cons c cs ih =>
    obtain ⟨_, h2, h3⟩ := literalChar_facts (hu c (List.mem_cons_self _ _))
    rw [List.cons_append, globItems_lit _ _ h2 h3, ih (fun d hd => hu d (List.mem_cons_of_mem _ hd))]
    simp

theorem globItems_literal (v : Str) (hv : ∀ c ∈ v, literalChar c = true) :
    globItems v = v.map Regex.lit := by
  have := globItems_literal_append v [] hv
  simpa [globItems] using this

theorem glob_append {u v : Str} : glob (u ++ v) = true ↔ glob u = true ∧ glob v = true := by
  simp [glob, List.all_append]

theorem glob_literal (v : Str) (hv : ∀ c ∈ v, literalChar c = true) : glob v = true := by
  simp only [glob, List.all_eq_true]
  exact fun c hc => (literalChar_facts (hv c hc)).1

theorem globItems_star_literal (v : Str) (hv : ∀ c ∈ v, literalChar c = true) :
    globItems ('*' :: v) = .star true .anyNotNL :: v.map Regex.lit := by
  cases v with
  | nil => simp [globItems_star_end]
  | cons d rest =>
    have hd := (literalChar_facts (hv d (List.mem_cons_self _ _))).2.1
    rw [globItems_star _ _ hd, globItems_literal _ hv]


/-- What the matcher of a pattern of literally matched characters, `?` and
`*` accepts among the paths under the base directory, when the text of the
base directory stands for itself as an expression. -/
theorem matcherAccepts_glob_under (base pat name : Str) (hb : ∀ c ∈ base, basePlain c = true)
    (hg : glob pat = true) :
    matcherAccepts base pat (base ++ '/' :: name) = true ↔
      runSeq (base ++ '/' :: name).length (globItems pat ++ [.eol]) name ≠ [] := by
  rw [matcherAccepts, asRegExp_glob base pat hb hg]
  rw [accepts_anchored (anchored_glob base pat), run_mkCat, globSeq]
  simp only [runSeq, Regex.run, ↓reduceIte, List.flatMap_cons, List.flatMap_nil,
    List.append_nil, List.append_assoc]
  rw [runSeq_base]
  simp [runSeq, Regex.run]

theorem runSeq_eol (n : Nat) (t : Str) : runSeq n [Regex.eol] t ≠ [] ↔ t = [] := by
  cases t <;> simp [runSeq, Regex.run]

/-- The positions `(.*/)?` can reach: the position itself, and past any
separator that follows a stretch without a line break. -/
theorem mem_run_optDirs (n : Nat) (t r : Str) :
    r ∈ optDirs.run n t ↔ (∃ w, t = w ++ '/' :: r ∧ '\n' ∉ w) ∨ r = t := by
  simp only [optDirs, Regex.run, ↓reduceIte, List.mem_append, List.mem_flatMap,
    List.mem_singleton]
  constructor
  · rintro (⟨x, hx, hr⟩ | h)
    · obtain ⟨w, hw, hnl⟩ := (mem_run_dotStar n t x).1 (by simpa [Regex.run] using hx)
      left
      cases x with
      | nil => simp at hr
      | cons d x1 =>
        simp only at hr
        split at hr
        · rename_i hd
          subst hd
          simp only [List.mem_singleton] at hr
          subst hr
          exact ⟨w, hw, hnl⟩
        · simp at hr
    · exact Or.inr h
  · rintro (⟨w, hw, hnl⟩ | h)
    · left
      refine ⟨'/' :: r, ?_, by simp⟩
      have := (mem_run_dotStar n t ('/' :: r)).2 ⟨w, hw, hnl⟩
      simpa [Regex.run] using this
    · exact Or.inr h

/-- A text that begins with `u`, ends with `v` and is at least as long as
both together is `u`, a middle part and `v`. -/
theorem prefix_suffix_iff (u v s : Str) (q : Str → Prop) :
    (∃ w, s = u ++ w ++ v ∧ q w) ↔
      u <+: s ∧ v <:+ s ∧ u.length + v.length ≤ s.length ∧
        q ((s.drop u.length).take (s.length - u.length - v.length)) := by
  constructor
  · rintro ⟨w, rfl, hw⟩
    refine ⟨⟨w ++ v, by simp⟩, ⟨u ++ w, by simp⟩, by simp, ?_⟩
    have : (u ++ w ++ v).length - u.length - v.length = w.length := by simp
    rw [this, List.append_assoc, List.drop_left, List.take_left]
    exact hw
  · rintro ⟨⟨r, rfl⟩, ⟨p, hp⟩, hlen, hq⟩
    rw [List.drop_left] at hq
    rcases List.append_eq_append_iff.1 hp with ⟨a, ha, hv⟩ | ⟨c, hc, hr⟩
    · have hal : a.length = 0 := by
        have := congrArg List.length hv
        simp at this hlen
        omega
      have : a = [] := List.length_eq_zero.mp hal
      subst this
      simp only [List.nil_append] at hv
      subst hv
      refine ⟨[], by simp, ?_⟩
      simpa using hq
    · subst hr
      refine ⟨c, by simp, ?_⟩
      have : (u ++ (c ++ v)).length - u.length - v.length = c.length := by simp
      rw [this, List.take_left] at hq
      exact hq

/-- What `u*v` accepts, for literally matched `u` and `v`. -/
theorem matcherAccepts_infix_star (base u v s : Str) (hb : ∀ c ∈ base, basePlain c = true)
    (hu : ∀ c ∈ u, literalChar c = true) (hv : ∀ c ∈ v, literalChar c = true) :
    matcherAccepts base (u ++ '*' :: v) (base ++ '/' :: s) = true ↔
      ∃ w, s = u ++ w ++ v ∧ '\n' ∉ w := by
  have hg : glob (u ++ '*' :: v) = true := by
    rw [glob_append]
    refine ⟨glob_literal u hu, ?_⟩
    have := glob_literal v hv
    simp only [glob, List.all_cons, Bool.and_eq_true] at this ⊢
    exact ⟨by decide, this⟩
  rw [matcherAccepts_glob_under base _ s hb hg, globItems_literal_append u _ hu,
    globItems_star_literal v hv, List.append_assoc, runSeq_lits_append]
  constructor
  · rintro ⟨r, hr, hrun⟩
    rw [List.cons_append, runSeq_cons_ne_nil] at hrun
    obtain ⟨t, ht, hrun2⟩ := hrun
    obtain ⟨w, hw, hnl⟩ := (mem_run_dotStar _ _ _).1 ht
    have := (runSeq_lits _ v t).1 hrun2
    subst this
    exact ⟨w, by rw [hr, hw, List.append_assoc], hnl⟩
  · rintro ⟨w, hw, hnl⟩
    refine ⟨w ++ v, by rw [hw, List.append_assoc], ?_⟩
    rw [List.cons_append, runSeq_cons_ne_nil]
    exact ⟨v, (mem_run_dotStar _ _ _).2 ⟨w, rfl, hnl⟩, (runSeq_lits _ v v).2 rfl⟩

/-- What `u**/v` accepts, for literally matched `u` and `v`, `v` not
empty. -/
theorem matcherAccepts_starStar_sep (base u v s : Str) (hb : ∀ c ∈ base, basePlain c = true)
    (hu : ∀ c ∈ u, literalChar c = true) (hv : ∀ c ∈ v, literalChar c = true)
    (hne : v ≠ []) :
    matcherAccepts base (u ++ '*' :: '*' :: '/' :: v) (base ++ '/' :: s) = true ↔
      s = u ++ v ∨ ∃ w, s = u ++ w ++ '/' :: v ∧ '\n' ∉ w := by
  have hg : glob (u ++ '*' :: '*' :: '/' :: v) = true := by
    rw [glob_append]
    refine ⟨glob_literal u hu, ?_⟩
    have := glob_literal v hv
    simp only [glob, List.all_cons, Bool.and_eq_true] at this ⊢
    exact ⟨by decide, by decide, by decide, this⟩
  have hitems : globItems ('*' :: '*' :: '/' :: v) = optDirs :: v.map Regex.lit := by
    cases v with
    | nil => exact absurd rfl hne
    | cons e rest => rw [globItems_starStar_sep, globItems_literal _ hv]
  rw [matcherAccepts_glob_under base _ s hb hg, globItems_literal_append u _ hu, hitems,
    List.append_assoc, runSeq_lits_append]
  constructor
  · rintro ⟨r, hr, hrun⟩
    rw [List.cons_append, runSeq_cons_ne_nil] at hrun
    obtain ⟨t, ht, hrun2⟩ := hrun
    have := (runSeq_lits _ v t).1 hrun2
    subst this
    rcases (mem_run_optDirs _ _ _).1 ht with ⟨w, hw, hnl⟩ | h
    · right; exact ⟨w, by rw [hr, hw, List.append_assoc], hnl⟩
    · left; rw [hr, h]
  · rintro (h | ⟨w, hw, hnl⟩)
    · refine ⟨v, h, ?_⟩
      rw [List.cons_append, runSeq_cons_ne_nil]
      exact ⟨v, (mem_run_optDirs _ _ _).2 (Or.inr rfl), (runSeq_lits _ v v).2 rfl⟩
    · refine ⟨w ++ '/' :: v, by rw [hw, List.append_assoc], ?_⟩
      rw [List.cons_append, runSeq_cons_ne_nil]
      exact ⟨v, (mem_run_optDirs _ _ _).2 (Or.inl ⟨w, rfl, hnl⟩), (runSeq_lits _ v v).2 rfl⟩

/-- What `u**` accepts, for literally matched `u`. -/
theorem matcherAccepts_starStar_end (base u s : Str) (hb : ∀ c ∈ base, basePlain c = true)
    (hu : ∀ c ∈ u, literalChar c = true) :
    matcherAccepts base (u ++ ['*', '*']) (base ++ '/' :: s) = true ↔
      ∃ w, s = u ++ w ∧ '\n' ∉ w := by
  have hg : glob (u ++ ['*', '*']) = true := by
    rw [glob_append]
    exact ⟨glob_literal u hu, by decide⟩
  rw [matcherAccepts_glob_under base _ s hb hg, globItems_literal_append u _ hu,
    globItems_starStar_end, List.append_assoc, runSeq_lits_append]
  constructor
  · rintro ⟨r, hr, hrun⟩
    rw [List.singleton_append, runSeq_cons_ne_nil] at hrun
    obtain ⟨t, ht, hrun2⟩ := hrun
    obtain ⟨w, hw, hnl⟩ := (mem_run_dotStar _ _ _).1 ht
    have := (runSeq_eol _ t).1 hrun2
    subst this
    exact ⟨w, by rw [hr, hw]; simp, hnl⟩
  · rintro ⟨w, hw, hnl⟩
    refine ⟨w, hw, ?_⟩
    rw [List.singleton_append, runSeq_cons_ne_nil]
    exact ⟨[], (mem_run_dotStar _ _ _).2 ⟨w, by simp, hnl⟩, (runSeq_eol _ []).2 rfl⟩

/-- What a pattern of literally matched characters accepts under a base
directory of plain characters: one path. -/
theorem matcherAccepts_literal_only (base v path : Str) (hb : ∀ c ∈ base, regexPlain c = true)
    (hv : ∀ c ∈ v, literalChar c = true) :
    matcherAccepts base v path = true ↔ path = base ++ '/' :: v := by
  rw [matcherAccepts_glob base v path hb (glob_literal v hv), globItems_literal v hv]
  constructor
  · rintro ⟨name, hname, hrun⟩
    rw [hname, (runSeq_lits _ v name).1 hrun]
  · intro h
    exact ⟨v, h, (runSeq_lits _ v v).2 rfl⟩


theorem asRegExpLoop_literal_append (u rest : Str) (hu : ∀ c ∈ u, literalChar c = true) :
    asRegExpLoop (u ++ rest) = asRegExpLoop u ++ asRegExpLoop rest := by
  induction u with
  | nil => simp [asRegExpLoop]
  | cons c cs ih =>
    have hc := hu c (List.mem_cons_self _ _)
    have ih1 := ih (fun d hd => hu d (List.mem_cons_of_mem _ hd))
    simp only [literalChar, Bool.and_eq_true, Bool.or_eq_true, beq_iff_eq] at hc
    rcases hc.1 with (hp | h) | h
    · rw [List.cons_append, asRegExpLoop_plain hp, asRegExpLoop_plain hp, ih1]; simp
    · rw [List.cons_append, asRegExpLoop_escaped (Or.inl h), asRegExpLoop_escaped (Or.inl h), ih1]
      simp
    · rw [List.cons_append, asRegExpLoop_escaped (Or.inr h), asRegExpLoop_escaped (Or.inr h), ih1]
      simp

theorem literalChar_of_alnum_or_sep {c : Char} (h : isAlnum c = true ∨ c = '/') :
    literalChar c = true := by
  rcases h with h | rfl
  · simp [literalChar, regexPlain_of_isAlnum h, isAlnum_ne_bom h]
  · decide

/-! ## Paths under a clean base directory -/

theorem splitOn_ne_nil (sep : Char) (s : Str) : splitOn sep s ≠ [] := by
  induction s with
  | nil => simp [splitOn]
  | cons c cs ih =>
    rw [splitOn]
    split
    · simp
    · split <;> simp

theorem splitOn_append_sep (sep : Char) (a x : Str) :
    splitOn sep (a ++ sep :: x) = splitOn sep a ++ splitOn sep x := by
  induction a with
  | nil => simp [splitOn]
  | cons c cs ih =>
    by_cases hc : c = sep
    · simp [splitOn, hc, ih]
    · simp only [List.cons_append, splitOn, hc, ↓reduceIte, List.append_eq]
      rw [ih]
      cases h : splitOn sep cs with
      | nil => exact absurd h (splitOn_ne_nil _ _)
      | cons w ws => simp

theorem splitOn_of_not_mem (sep : Char) (n : Str) (h : sep ∉ n) : splitOn sep n = [n] := by
  induction n with
  | nil => simp [splitOn]
  | cons c cs ih =>
    have hc : c ≠ sep := fun e => h (e ▸ List.mem_cons_self _ _)
    have hcs : sep ∉ cs := fun e => h (List.mem_cons_of_mem _ e)
    simp [splitOn, hc, ih hcs]

theorem splitOn_not_mem (sep : Char) (s : Str) : ∀ c ∈ splitOn sep s, sep ∉ c := by
  induction s with
  | nil => simp [splitOn]
  | cons d ds ih =>
    intro c hc
    rw [splitOn] at hc
    split at hc
    · rcases List.mem_cons.mp hc with rfl | hc
      · simp
      · exact ih c hc
    · rename_i hd
      cases h : splitOn sep ds with
      | nil => exact absurd h (splitOn_ne_nil _ _)
      | cons w ws =>
        rw [h] at hc ih
        rcases List.mem_cons.mp hc with rfl | hc
        · have := ih w (List.mem_cons_self _ _)
          simp only [List.mem_cons, not_or]
          exact ⟨fun e => hd e.symm, this⟩
        · exact ih c (List.mem_cons_of_mem _ hc)

theorem joinSep_append_singleton (sep : Str) (xs : List Str) (n : Str) (h : xs ≠ []) :
    joinSep sep (xs ++ [n]) = joinSep sep xs ++ sep ++ n := by
  induction xs with
  | nil => exact absurd rfl h
  | cons x xs ih =>
    cases xs with
    | nil => simp [joinSep]
    | cons y ys =>
      have := ih (by simp)
      simp only [List.cons_append, joinSep, List.append_eq] at this ⊢
      rw [this]
      simp

theorem validName_iff {n : Str} :
    validName n = true ↔ n ≠ [] ∧ '/' ∉ n ∧ n ≠ ['.'] ∧ n ≠ ['.', '.'] := by
  simp [validName]

theorem goodDir_iff {d : Str} :
    goodDir d = true ↔ Clean d = d ∧ d ≠ ['/'] ∧ d ≠ ['.'] := by
  simp [goodDir]

theorem cleanStep_valid (rooted : Bool) (stack : List Str) {n : Str}
    (hn : validName n = true) : cleanStep rooted stack n = n :: stack := by
  obtain ⟨h1, _, h3, h4⟩ := validName_iff.1 hn
  simp [cleanStep, h1, h3, h4]

theorem Clean_cons (c0 : Char) (tl : Str) :
    Clean (c0 :: tl) =
      if decide (c0 = '/') = true then
        '/' :: joinSep ['/']
          ((splitOn '/' (c0 :: tl)).foldl (cleanStep (decide (c0 = '/'))) []).reverse
      else if joinSep ['/']
          ((splitOn '/' (c0 :: tl)).foldl (cleanStep (decide (c0 = '/'))) []).reverse = [] then
        ['.']
      else joinSep ['/']
          ((splitOn '/' (c0 :: tl)).foldl (cleanStep (decide (c0 = '/'))) []).reverse := by
  rfl

theorem joinSep_nil_iff_of_nonempty (xs : List Str) (h : ∀ x ∈ xs, x ≠ []) :
    joinSep ['/'] xs = [] ↔ xs = [] := by
  cases xs with
  | nil => simp [joinSep]
  | cons x xs =>
    have hx := h x (List.mem_cons_self _ _)
    cases xs with
    | nil => simp [joinSep, hx]
    | cons y ys => simp [joinSep, hx]

/-- A clean path extended by a valid name is clean as it stands. -/
theorem Clean_extend (P n : Str) (hP : goodDir P = true) (hn : validName n = true) :
    Clean (P ++ '/' :: n) = P ++ '/' :: n := by
  obtain ⟨hclean, hroot, hdot⟩ := goodDir_iff.1 hP
  obtain ⟨hn1, hn2, _, _⟩ := validName_iff.1 hn
  cases P with
  | nil => simp [Clean] at hclean
  | cons c0 tl =>
    rw [Clean_cons] at hclean
    rw [List.cons_append, Clean_cons, ← List.cons_append, splitOn_append_sep,
      splitOn_of_not_mem _ _ hn2, List.foldl_append, List.foldl_cons, List.foldl_nil,
      cleanStep_valid _ _ hn, List.reverse_cons]
    generalize hS : (splitOn '/' (c0 :: tl)).foldl (cleanStep (decide (c0 = '/'))) [] = S
      at hclean ⊢
    have hSne : S ≠ [] := by
      intro hnil
      subst hnil
      by_cases hr : c0 = '/'
      · subst hr
        simp only [decide_True, ↓reduceIte, List.reverse_nil, joinSep] at hclean
        exact hroot hclean.symm
      · simp only [hr, decide_False, Bool.false_eq_true, ↓reduceIte, List.reverse_nil,
          joinSep] at hclean
        exact hdot hclean.symm
    have hrev : S.reverse ≠ [] := by simpa using hSne
    rw [joinSep_append_singleton _ _ _ hrev]
    by_cases hr : c0 = '/'
    · simp only [hr, decide_True, ↓reduceIte] at hclean ⊢
      rw [← List.cons_append, ← List.cons_append, hclean]
      simp
    · simp only [hr, decide_False, Bool.false_eq_true, ↓reduceIte] at hclean ⊢
      have hbody : joinSep ['/'] S.reverse ≠ [] := by
        intro hb
        rw [hb] at hclean
        simp only [↓reduceIte] at hclean
        exact hdot hclean.symm
      simp only [hbody, ↓reduceIte] at hclean
      rw [hclean]
      simp

theorem goodDir_extend (P n : Str) (hP : goodDir P = true) (hn : validName n = true) :
    goodDir (P ++ '/' :: n) = true := by
  rw [goodDir_iff]
  refine ⟨Clean_extend P n hP hn, ?_, ?_⟩
  · intro h
    have := congrArg List.length h
    have hlen : 0 < n.length := List.length_pos.2 (validName_iff.1 hn).1
    simp at this
    omega
  · intro h
    have hl := congrArg List.length h
    have hlen : 0 < n.length := List.length_pos.2 (validName_iff.1 hn).1
    simp at hl
    omega

theorem goodDir_ne_nil {P : Str} (hP : goodDir P = true) : P ≠ [] := by
  intro h
  subst h
  simp [goodDir, Clean] at hP

/-- The path of an entry of a directory, as the walk builds it. -/
theorem Join_extend (P n : Str) (hP : goodDir P = true) (hn : validName n = true) :
    Join [P, n] = P ++ '/' :: n := by
  have hne := goodDir_ne_nil hP
  cases P with
  | nil => exact absurd rfl hne
  | cons c tl =>
    simp only [Join, List.dropWhile, reduceCtorEq, decide_False, joinSep]
    rw [List.append_assoc, List.singleton_append]
    exact Clean_extend (c :: tl) n hP hn


theorem dropWhile_append_stop {α : Type} (p : α → Bool) (l : List α) (x : α) (r : List α)
    (hl : ∀ a ∈ l, p a = true) (hx : p x = false) :
    (l ++ x :: r).dropWhile p = x :: r := by
  induction l with
  | nil => simp [List.dropWhile, hx]
  | cons a l ih =>
    have ha := hl a (List.mem_cons_self _ _)
    simp only [List.cons_append, List.dropWhile, ha]
    exact ih (fun b hb => hl b (List.mem_cons_of_mem _ hb))

theorem uptoLastSep_extend (P n : Str) (hn : '/' ∉ n) :
    uptoLastSep (P ++ '/' :: n) = P ++ ['/'] := by
  have hrev : (P ++ '/' :: n).reverse = n.reverse ++ '/' :: P.reverse := by simp
  rw [uptoLastSep, hrev, dropWhile_append_stop _ _ _ _ _ (by decide)]
  · simp
  · intro a ha
    have : a ∈ n := List.mem_reverse.mp ha
    simp only [notSep, isSep, Bool.not_eq_true', decide_eq_false_iff_not]
    intro h
    exact hn (h ▸ this)

theorem Clean_trailing_sep (P : Str) (hP : P ≠ []) : Clean (P ++ ['/']) = Clean P := by
  cases P with
  | nil => exact absurd rfl hP
  | cons c0 tl =>
    rw [List.cons_append, Clean_cons, Clean_cons, ← List.cons_append, splitOn_append_sep]
    simp [splitOn, cleanStep]

/-- The parent of an entry under a clean directory is that directory. -/
theorem Dir_extend (P n : Str) (hP : goodDir P = true) (hn : validName n = true) :
    Dir (P ++ '/' :: n) = P := by
  rw [Dir, uptoLastSep_extend P n (validName_iff.1 hn).2.1,
    Clean_trailing_sep P (goodDir_ne_nil hP)]
  exact (goodDir_iff.1 hP).1

theorem pathOf_nil (D : Str) : pathOf D [] = D := by simp [pathOf]

theorem pathOf_concat (D : Str) (ms : List Str) (n : Str) :
    pathOf D (ms ++ [n]) = pathOf D ms ++ '/' :: n := by
  simp [pathOf]

theorem pathOf_cons (D : Str) (m : Str) (ms : List Str) :
    pathOf D (m :: ms) = pathOf (D ++ '/' :: m) ms := by
  simp [pathOf]

theorem goodDir_pathOf (D : Str) (ms : List Str) (hD : goodDir D = true)
    (hms : ∀ m ∈ ms, validName m = true) : goodDir (pathOf D ms) = true := by
  induction ms generalizing D with
  | nil => simpa [pathOf] using hD
  | cons m ms ih =>
    rw [pathOf_cons]
    exact ih _ (goodDir_extend D m hD (hms m (List.mem_cons_self _ _)))
      (fun x hx => hms x (List.mem_cons_of_mem _ hx))

theorem Join_pathOf (D : Str) (ms : List Str) (n : Str) (hD : goodDir D = true)
    (hms : ∀ m ∈ ms, validName m = true) (hn : validName n = true) :
    Join [pathOf D ms, n] = pathOf D (ms ++ [n]) := by
  rw [pathOf_concat]
  exact Join_extend _ _ (goodDir_pathOf D ms hD hms) hn

theorem Dir_pathOf (D : Str) (ms : List Str) (n : Str) (hD : goodDir D = true)
    (hms : ∀ m ∈ ms, validName m = true) (hn : validName n = true) :
    Dir (pathOf D (ms ++ [n])) = pathOf D ms := by
  rw [pathOf_concat]
  exact Dir_extend _ _ (goodDir_pathOf D ms hD hms) hn

theorem flatten_sep_eq (ms : List Str) (h : ms ≠ []) :
    (ms.map fun n => '/' :: n).flatten = '/' :: joinSep ['/'] ms := by
  induction ms with
  | nil => exact absurd rfl h
  | cons m ms ih =>
    cases ms with
    | nil => simp [joinSep]
    | cons m2 ms2 =>
      have := ih (by simp)
      simp only [List.map_cons, List.flatten_cons, joinSep] at this ⊢
      rw [this]
      simp

theorem pathOf_eq_rel (D : Str) (ms : List Str) (h : ms ≠ []) :
    pathOf D ms = D ++ '/' :: joinSep ['/'] ms := by
  rw [pathOf, flatten_sep_eq ms h]

theorem splitOn_joinSep (ms : List Str) (h : ms ≠ []) (hms : ∀ m ∈ ms, '/' ∉ m) :
    splitOn '/' (joinSep ['/'] ms) = ms := by
  induction ms with
  | nil => exact absurd rfl h
  | cons m ms ih =>
    have hm := hms m (List.mem_cons_self _ _)
    cases ms with
    | nil => simpa [joinSep] using splitOn_of_not_mem _ _ hm
    | cons m2 ms2 =>
      have := ih (by simp) (fun x hx => hms x (List.mem_cons_of_mem _ hx))
      simp only [joinSep, List.append_assoc, List.singleton_append]
      rw [splitOn_append_sep, splitOn_of_not_mem _ _ hm, this]
      simp

theorem takeWhile_append_stop {α : Type} (p : α → Bool) (l : List α) (x : α) (r : List α)
    (hx : p x = false) : (l ++ x :: r).takeWhile p = l.takeWhile p := by
  induction l with
  | nil => simp [List.takeWhile, hx]
  | cons a l ih =>
    by_cases ha : p a = true
    · simp [List.takeWhile, ha, ih]
    · simp [List.takeWhile, ha]

theorem dropWhile_append_stop' {α : Type} (p : α → Bool) (l : List α) (x : α) (r : List α)
    (hx : p x = false) : (l ++ x :: r).dropWhile p = l.dropWhile p ++ x :: r := by
  induction l with
  | nil => simp [List.dropWhile, hx]
  | cons a l ih =>
    by_cases ha : p a = true
    · simp [List.dropWhile, ha, ih]
    · simp [List.dropWhile, ha]

theorem dropWhile_head {α : Type} (p : α → Bool) (l : List α) (a : α) (r : List α)
    (h : l.dropWhile p = a :: r) : p a = false := by
  induction l with
  | nil => simp at h
  | cons b l ih =>
    by_cases hb : p b = true
    · simp only [List.dropWhile, hb] at h
      exact ih h
    · simp only [List.dropWhile, hb] at h
      have : b = a := by injection h
      subst this
      simpa using hb

theorem notSep_sep : notSep '/' = false := by decide

/-- The comparison loop of `Rel` on a path and an extension of it: the base
is used up and the extension remains. -/
theorem relLoop_extend (r : Str) :
    ∀ (fuel : Nat) (X : Str), X ≠ [] → X.getLast? ≠ some '/' → X.length ≤ fuel →
      relLoop fuel X (X ++ '/' :: r) = ⟨[], [], r⟩ := by
  intro fuel
  induction fuel with
  | zero =>
    intro X hX _ hlen
    exact absurd (List.length_eq_zero.mp (Nat.le_zero.mp hlen)) hX
  | succ f ih =>
    intro X hX hlast hlen
    rw [relLoop]
    simp only [hX, List.append_eq_nil, reduceCtorEq, and_false, or_self, ↓reduceIte,
      takeWhile_append_stop notSep X '/' r notSep_sep, ne_eq, not_true_eq_false,
      dropWhile_append_stop' notSep X '/' r notSep_sep]
    cases hdw : X.dropWhile notSep with
    | nil =>
      simp only [List.drop_nil, List.nil_append, List.drop_succ_cons, List.drop_zero]
      cases f <;> simp [relLoop]
    | cons a X2 =>
      have ha : a = '/' := by
        have := dropWhile_head _ X a X2 hdw
        simpa [notSep, isSep] using this
      subst ha
      have hsplit : X = X.takeWhile notSep ++ '/' :: X2 := by
        rw [← hdw, List.takeWhile_append_dropWhile]
      have hX2 : X2 ≠ [] := by
        intro h
        subst h
        apply hlast
        rw [hsplit]
        simp
      have hlast2 : X2.getLast? ≠ some '/' := by
        intro h
        apply hlast
        rw [hsplit, List.getLast?_append, List.getLast?_cons, h]
        rfl
      have hlen2 : X2.length ≤ f := by
        have := congrArg List.length hsplit
        simp at this
        omega
      simp only [List.drop_succ_cons, List.drop_zero, List.cons_append]
      exact ih X2 hX2 hlast2 hlen2


theorem cleanStep_inv (rooted : Bool) (stack : List Str) (c : Str)
    (hs : ∀ s ∈ stack, s ≠ [] ∧ '/' ∉ s) (hc : '/' ∉ c) :
    ∀ s ∈ cleanStep rooted stack c, s ≠ [] ∧ '/' ∉ s := by
  intro s hmem
  rw [cleanStep.eq_def] at hmem
  split at hmem
  · exact hs s hmem
  · rename_i h1
    split at hmem
    · rename_i h2
      cases stack with
      | nil =>
        simp only at hmem
        split at hmem
        · simp at hmem
        · simp only [List.mem_singleton] at hmem
          subst hmem
          exact ⟨by rw [h2]; simp, hc⟩
      | cons top below =>
        simp only at hmem
        split at hmem
        · split at hmem
          · exact hs s hmem
          · rcases List.mem_cons.mp hmem with rfl | hmem
            · exact ⟨by rw [h2]; simp, hc⟩
            · exact hs s hmem
        · exact hs s (List.mem_cons_of_mem _ hmem)
    · rcases List.mem_cons.mp hmem with rfl | hmem
      · exact ⟨fun h => h1 (Or.inl h), hc⟩
      · exact hs s hmem

theorem cleanStack_inv (rooted : Bool) (comps : List Str) :
    ∀ (stack : List Str), (∀ s ∈ stack, s ≠ [] ∧ '/' ∉ s) → (∀ c ∈ comps, '/' ∉ c) →
      ∀ s ∈ comps.foldl (cleanStep rooted) stack, s ≠ [] ∧ '/' ∉ s := by
  induction comps with
  | nil => intro stack hs _; simpa using hs
  | cons c cs ih =>
    intro stack hs hc
    rw [List.foldl_cons]
    exact ih _ (cleanStep_inv rooted stack c hs (hc c (List.mem_cons_self _ _)))
      (fun d hd => hc d (List.mem_cons_of_mem _ hd))

theorem joinSep_getLast (xs : List Str) (hne : xs ≠ [])
    (h : ∀ x ∈ xs, x ≠ [] ∧ '/' ∉ x) : (joinSep ['/'] xs).getLast? ≠ some '/' := by
  induction xs with
  | nil => exact absurd rfl hne
  | cons x xs ih =>
    cases xs with
    | nil =>
      intro hl
      have := List.mem_of_getLast?_eq_some hl
      exact (h x (List.mem_cons_self _ _)).2 (by simpa [joinSep] using this)
    | cons y ys =>
      have ih' := ih (by simp) (fun z hz => h z (List.mem_cons_of_mem _ hz))
      have hne2 : joinSep ['/'] (y :: ys) ≠ [] := by
        intro hnil
        have hy := (h y (by simp)).1
        cases ys with
        | nil => exact hy (by simpa [joinSep] using hnil)
        | cons z zs => simp [joinSep, hy] at hnil
      rw [joinSep, List.getLast?_append_of_ne_nil _ hne2]
      exact ih'

/-- A clean directory other than the root does not end in a separator. -/
theorem goodDir_getLast {D : Str} (hD : goodDir D = true) : D.getLast? ≠ some '/' := by
  obtain ⟨hclean, hroot, hdot⟩ := goodDir_iff.1 hD
  cases D with
  | nil => simp
  | cons c0 tl =>
    rw [Clean_cons] at hclean
    have hinv := cleanStack_inv (decide (c0 = '/')) (splitOn '/' (c0 :: tl)) []
      (by simp) (splitOn_not_mem '/' (c0 :: tl))
    generalize hS : (splitOn '/' (c0 :: tl)).foldl (cleanStep (decide (c0 = '/'))) [] = S
      at hclean hinv
    have hinv' : ∀ x ∈ S.reverse, x ≠ [] ∧ '/' ∉ x := fun x hx => hinv x (List.mem_reverse.mp hx)
    by_cases hSnil : S = []
    · subst hSnil
      by_cases hr : c0 = '/'
      · subst hr
        simp only [decide_True, ↓reduceIte, List.reverse_nil, joinSep] at hclean
        exact absurd hclean.symm hroot
      · simp only [hr, decide_False, Bool.false_eq_true, ↓reduceIte, List.reverse_nil,
          joinSep] at hclean
        exact absurd hclean.symm hdot
    · have hrev : S.reverse ≠ [] := by simpa using hSnil
      have hlast := joinSep_getLast S.reverse hrev hinv'
      have hbody : joinSep ['/'] S.reverse ≠ [] := by
        intro hb
        rw [hb] at hlast
        obtain ⟨x, hx⟩ := List.exists_mem_of_ne_nil _ hrev
        have hx1 := (hinv' x hx).1
        rcases List.eq_nil_or_concat S.reverse with h0 | ⟨ys, y, hy⟩
        · exact hrev h0
        · rw [hy, List.concat_eq_append] at hb
          by_cases hys : ys = []
          · subst hys
            simp only [List.nil_append, joinSep] at hb
            exact (hinv' y (by rw [hy]; simp)).1 hb
          · rw [joinSep_append_singleton _ _ _ hys] at hb
            simp at hb
      by_cases hr : c0 = '/'
      · subst hr
        simp only [decide_True, ↓reduceIte] at hclean
        rw [← hclean, List.getLast?_cons]
        intro h
        cases hj : (joinSep ['/'] S.reverse).getLast? with
        | none => exact hbody (List.getLast?_eq_none_iff.mp hj)
        | some z =>
          rw [hj] at h hlast
          simp only [Option.getD_some, Option.some.injEq] at h
          exact hlast (by rw [h])
      · simp only [hr, decide_False, Bool.false_eq_true, ↓reduceIte, hbody] at hclean
        rw [← hclean]
        exact hlast

/-- The path of an entry relative to the base directory. -/
theorem Rel_pathOf (D : Str) (ms : List Str) (hD : goodDir D = true) (hne : ms ≠ [])
    (hms : ∀ m ∈ ms, validName m = true) :
    Rel D (pathOf D ms) = .ok (joinSep ['/'] ms) := by
  have hT := (goodDir_iff.1 (goodDir_pathOf D ms hD hms)).1
  obtain ⟨hclean, hroot, hdot⟩ := goodDir_iff.1 hD
  have hDne := goodDir_ne_nil hD
  rw [Rel, hT, hclean]
  rw [pathOf_eq_rel D ms hne]
  have hneq : ¬ (D ++ '/' :: joinSep ['/'] ms = D) := by
    intro h
    have := congrArg List.length h
    simp at this
  have hsw : startsWith D ['/'] = startsWith (D ++ '/' :: joinSep ['/'] ms) ['/'] := by
    cases D with
    | nil => exact absurd rfl hDne
    | cons c tl => simp [startsWith]
  simp only [hneq, ↓reduceIte, hdot, hsw, ne_eq, not_true_eq_false]
  rw [relLoop_extend _ _ D hDne (goodDir_getLast hD) (by omega)]
  simp

/-! ## `scanDir` and the walk -/

theorem appendIfNotExist_idem (incl : List Str) (r : Str) :
    appendIfNotExist (appendIfNotExist incl r) r = appendIfNotExist incl r := by
  by_cases h : r ∈ incl <;> simp [appendIfNotExist, h]

theorem mem_appendIfNotExist (incl : List Str) (r x : Str) :
    x ∈ appendIfNotExist incl r ↔ x ∈ incl ∨ x = r := by
  by_cases h : r ∈ incl
  · simp only [appendIfNotExist, h, ↓reduceIte]
    constructor
    · exact Or.inl
    · rintro (h1 | rfl)
      · exact h1
      · exact h
  · simp [appendIfNotExist, h]

theorem mem_setInsert (s : List Str) (r x : Str) :
    x ∈ setInsert s r ↔ x ∈ s ∨ x = r := mem_appendIfNotExist s r x

theorem accepts_iff (re : Regex) (path : Str) :
    accepts re path = true ↔ FindAllString re path ≠ [] := by
  simp [accepts]

/-- One round of the loop of `scanDir` over the patterns. -/
theorem scanPatterns_cons (D : Str) (exd : List Str) (P : Str) (d : Dirent) (rel : Str)
    (p : FileIgnorePattern) (rest : List FileIgnorePattern) (ls : LoopState)
    (hp : p.Invert = true → accepts p.RegexPattern P = true →
        FindAllString p.RegexPattern P = [P] ∧ Rel D P = .ok rel) :
    scanPatterns D exd P d (p :: rest) ls =
      scanPatterns D exd P d rest
        ⟨ls.isExcluded || ((!p.Invert && decide (Dir P ∈ exd)) || accepts p.RegexPattern P),
          ls.isTransitive || (d.isDir && (p.Invert && parentChainOf D p P)),
          if (p.Invert && accepts p.RegexPattern P) = true then
            appendIfNotExist ls.includes rel
          else ls.includes⟩ := by
  rw [scanPatterns]
  by_cases hinv : p.Invert = true
  · by_cases hacc : accepts p.RegexPattern P = true
    · obtain ⟨hfind, hrel⟩ := hp hinv hacc
      simp only [hinv, Bool.not_true, Bool.false_eq_true, false_and, ↓reduceIte, hfind,
        ne_eq, reduceCtorEq, not_false_eq_true, and_self, appendMatches, hrel, hacc,
        Bool.false_and, Bool.false_or, Bool.or_true, Bool.and_self, Bool.true_and]
      cases hpaths : p.Paths with
      | none => simp [parentChainOf, hpaths]
      | some paths =>
        by_cases hd : d.isDir = true <;>
          by_cases hj : P = Join [D, joinSep ['/'] paths] <;>
          simp [parentChainOf, hpaths, hd, hj]
    · have hnil : FindAllString p.RegexPattern P = [] := by
        by_contra h
        exact hacc ((accepts_iff _ _).2 h)
      simp only [hinv, Bool.not_true, Bool.false_eq_true, false_and, ↓reduceIte, hnil,
        ne_eq, not_true_eq_false, hacc, Bool.false_and, Bool.false_or, Bool.or_false,
        Bool.true_and, Bool.and_false]
      cases hpaths : p.Paths with
      | none => simp [parentChainOf, hpaths]
      | some paths =>
        by_cases hd : d.isDir = true <;>
          by_cases hj : P = Join [D, joinSep ['/'] paths] <;>
          simp [parentChainOf, hpaths, hd, hj]
  · have hinv' : p.Invert = false := by simpa using hinv
    by_cases hdir : Dir P ∈ exd
    · simp [hinv', hdir]
    · by_cases hacc : accepts p.RegexPattern P = true
      · have hne : FindAllString p.RegexPattern P ≠ [] := (accepts_iff _ _).1 hacc
        simp only [hinv', Bool.not_false, hdir, and_false, ↓reduceIte, ne_eq, hne,
          not_false_eq_true, Bool.false_eq_true, decide_False, Bool.and_false, Bool.false_or,
          hacc, Bool.or_true, Bool.false_and]
        cases hpaths : p.Paths <;> simp
      · have hnil : FindAllString p.RegexPattern P = [] := by
          by_contra h
          exact hacc ((accepts_iff _ _).2 h)
        simp only [hinv', Bool.not_false, hdir, and_false, ↓reduceIte, ne_eq, hnil,
          not_true_eq_false, Bool.false_eq_true, decide_False, Bool.and_false, Bool.false_or,
          hacc, Bool.or_false, Bool.false_and]
        cases hpaths : p.Paths <;> simp

/-- The loop of `scanDir` over the patterns, when every match of an inverting
pattern on the path is the path itself and the path has a relative form. -/
theorem scanPatterns_spec (D : Str) (exd : List Str) (P : Str) (d : Dirent) (rel : Str)
    (pats : List FileIgnorePattern) :
    (∀ p ∈ pats, p.Invert = true → accepts p.RegexPattern P = true →
        FindAllString p.RegexPattern P = [P] ∧ Rel D P = .ok rel) →
    ∀ ls : LoopState,
      scanPatterns D exd P d pats ls =
        (⟨ls.isExcluded || excludedAt pats exd P,
          ls.isTransitive || (d.isDir && transitiveAt D pats P),
          if invertAccepts pats P = true then appendIfNotExist ls.includes rel
          else ls.includes⟩, none) := by
  induction pats with
  | nil =>
    intro _ ls
    simp [scanPatterns, excludedAt, invertAccepts, hasPlain, plainAccepts, transitiveAt]
  | cons p rest ih =>
    intro hw ls
    have hw' := fun q hq => hw q (List.mem_cons_of_mem _ hq)
    rw [scanPatterns_cons D exd P d rel p rest ls (hw p (List.mem_cons_self _ _)), ih hw']
    simp only [excludedAt, invertAccepts, hasPlain, plainAccepts, transitiveAt, List.any_cons]
    by_cases hinv : p.Invert = true <;> by_cases hacc : accepts p.RegexPattern P = true <;>
      by_cases hdir : Dir P ∈ exd <;>
      simp [hinv, hacc, hdir, appendIfNotExist_idem, Bool.and_or_distrib_left]
    all_goals (cases ls.isTransitive <;> cases d.isDir <;> cases (parentChainOf D p P) <;> simp)


/-- What `scanDir` does on an entry other than the base directory that does
not bear a default name, when every match of an inverting pattern on the path
is the path itself and the path has a relative form. -/
theorem scanDir_spec (g : Globals) (P : Str) (d : Dirent) (rel : Str)
    (hroot : P ≠ g.directory) (hname : d.name ∉ defaultPatterns)
    (hw : ∀ p ∈ g.ignorePatterns, p.Invert = true → accepts p.RegexPattern P = true →
        FindAllString p.RegexPattern P = [P] ∧ Rel g.directory P = .ok rel)
    (hrel : excludedAt g.ignorePatterns g.excludedDirs P = false →
        Rel g.directory P = .ok rel) :
    scanDir g P d =
      if excludedAt g.ignorePatterns g.excludedDirs P = true then
        (if (d.isDir && !transitiveAt g.directory g.ignorePatterns P) = true then .skipThis
          else .ok,
          { g with
            includes :=
              if invertAccepts g.ignorePatterns P = true then appendIfNotExist g.includes rel
              else g.includes
            excludedDirs :=
              if d.isDir = true then setInsert g.excludedDirs P else g.excludedDirs })
      else (.ok, { g with includes := appendIfNotExist g.includes rel }) := by
  rw [scanDir]
  simp only [hroot, ↓reduceIte, hname]
  rw [scanPatterns_spec g.directory g.excludedDirs P d rel g.ignorePatterns hw]
  simp only [Bool.false_or]
  by_cases hex : excludedAt g.ignorePatterns g.excludedDirs P = true
  · simp only [hex, ↓reduceIte]
    by_cases hd : d.isDir = true <;>
      by_cases ht : transitiveAt g.directory g.ignorePatterns P = true <;>
      simp [hd, ht]
  · have hex' : excludedAt g.ignorePatterns g.excludedDirs P = false := by simpa using hex
    have hinv : invertAccepts g.ignorePatterns P = false := by
      simp only [excludedAt, Bool.or_eq_false_iff] at hex'
      exact hex'.1
    simp only [hex', Bool.false_eq_true, ↓reduceIte, hinv, hrel hex']

theorem appendMatches_mono (D : Str) (ms : List Str) :
    ∀ (incl : List Str) (r : Str), r ∈ incl → r ∈ (appendMatches D ms incl).1 := by
  induction ms with
  | nil => intro incl r hr; simpa [appendMatches] using hr
  | cons m ms ih =>
    intro incl r hr
    rw [appendMatches]
    split
    · exact hr
    · exact ih _ r ((mem_appendIfNotExist _ _ _).2 (Or.inl hr))

theorem scanPatterns_mono (D : Str) (exd : List Str) (P : Str) (d : Dirent)
    (pats : List FileIgnorePattern) :
    ∀ (ls : LoopState) (r : Str), r ∈ ls.includes →
      r ∈ (scanPatterns D exd P d pats ls).1.includes := by
  induction pats with
  | nil => intro ls r hr; simpa [scanPatterns] using hr
  | cons p rest ih =>
    intro ls r hr
    rw [scanPatterns]
    split
    · exact ih _ r hr
    · have hmono : r ∈ (if FindAllString p.RegexPattern P ≠ [] ∧ p.Invert = true then
          appendMatches D (FindAllString p.RegexPattern P)
            (if FindAllString p.RegexPattern P ≠ [] then
              { ls with isExcluded := true } else ls).includes
          else ((if FindAllString p.RegexPattern P ≠ [] then
              { ls with isExcluded := true } else ls).includes, none)).1 := by
        have hls : r ∈ (if FindAllString p.RegexPattern P ≠ [] then
            { ls with isExcluded := true } else ls).includes := by
          split <;> exact hr
        split
        · exact appendMatches_mono _ _ _ _ hls
        · exact hls
      simp only
      split
      · exact hmono
      · apply ih
        split <;> exact hmono

/-- `scanDir` leaves the base directory and the patterns alone and only adds
to the include list and the excluded-directory set. -/
theorem scanDir_later (g : Globals) (P : Str) (d : Dirent) : Later g (scanDir g P d).2 := by
  have hrefl : Later g g := ⟨rfl, rfl, rfl, fun _ h => h, fun _ h => h⟩
  rw [scanDir]
  by_cases hroot : P = g.directory
  · simpa [hroot] using hrefl
  by_cases hname : d.name ∈ defaultPatterns
  · simpa [hroot, hname] using hrefl
  simp only [hroot, ↓reduceIte, hname]
  have hm := scanPatterns_mono g.directory g.excludedDirs P d g.ignorePatterns
    ⟨false, false, g.includes⟩
  cases hsp : scanPatterns g.directory g.excludedDirs P d g.ignorePatterns
    ⟨false, false, g.includes⟩ with
  | mk ls oe =>
    rw [hsp] at hm
    cases oe with
    | some e => exact ⟨rfl, rfl, rfl, fun r hr => hm r hr, fun _ h => h⟩
    | none =>
      simp only
      by_cases hex : ls.isExcluded = true
      · simp only [hex, ↓reduceIte]
        have hx : ∀ x ∈ g.excludedDirs,
            x ∈ (if d.isDir = true then setInsert g.excludedDirs P else g.excludedDirs) := by
          intro x hx
          split
          · exact (mem_setInsert _ _ _).2 (Or.inl hx)
          · exact hx
        split <;> exact ⟨rfl, rfl, rfl, fun r hr => hm r hr, hx⟩
      · simp only [hex, Bool.false_eq_true, ↓reduceIte]
        cases hrel : Rel g.directory P with
        | error e => exact ⟨rfl, rfl, rfl, fun r hr => hm r hr, fun _ h => h⟩
        | ok rel =>
          exact ⟨rfl, rfl, rfl,
            fun r hr => (mem_appendIfNotExist _ _ _).2 (Or.inl (hm r hr)), fun _ h => h⟩

theorem Later.refl (g : Globals) : Later g g := ⟨rfl, rfl, rfl, fun _ h => h, fun _ h => h⟩

theorem Later.trans {g g1 g2 : Globals} (h1 : Later g g1) (h2 : Later g1 g2) : Later g g2 :=
  ⟨h2.1.trans h1.1, h2.2.1.trans h1.2.1, h2.2.2.1.trans h1.2.2.1,
    fun r hr => h2.2.2.2.1 r (h1.2.2.2.1 r hr), fun x hx => h2.2.2.2.2 x (h1.2.2.2.2 x hx)⟩

mutual
/-- The walk of a subtree only adds to the state. -/
theorem walk_later (g : Globals) (P : Str) : ∀ node : Node, Later g (walk g P node).2
  | .file name => by
    rw [walk]
    exact scanDir_later g P _
  | .dir name kids => by
    rw [walk]
    have h1 := scanDir_later g P ⟨name, true⟩
    cases hsd : scanDir g P ⟨name, true⟩ with
    | mk sig g1 =>
      rw [hsd] at h1
      cases sig with
      | ok => exact h1.trans (walkChildren_later g1 P kids)
      | skipThis => exact h1
      | err e => exact h1
/-- The walk of the entries of a directory only adds to the state. -/
theorem walkChildren_later (g : Globals) (P : Str) :
    ∀ kids : List Node, Later g (walkChildren g P kids).2
  | [] => by rw [walkChildren]; exact Later.refl g
  | k :: ks => by
    rw [walkChildren]
    have h1 := walk_later g (Join [P, k.name]) k
    cases hw : walk g (Join [P, k.name]) k with
    | mk sig g1 =>
      rw [hw] at h1
      cases sig with
      | ok => exact h1.trans (walkChildren_later g1 P ks)
      | skipThis => exact h1.trans (walkChildren_later g1 P ks)
      | err e => exact h1
end

theorem Node.all_name (q : Str → Bool) : ∀ node : Node, node.all q = true → q node.name = true
  | .file n, h => by simpa [Node.all, Node.name] using h
  | .dir n kids, h => by
    simp only [Node.all, Bool.and_eq_true] at h
    simpa [Node.name] using h.1

mutual
/-- An invariant of the state that `scanDir` keeps on every entry it may be
called on is kept by the walk of a subtree.  `A chain g` says that the entry
reached through `chain` may be visited in state `g`. -/
theorem walk_invariant (D : Str) (hD : goodDir D = true) (q : Str → Bool)
    (hq : ∀ n, q n = true → validName n = true)
    (I : Globals → Prop) (A : List Str → Globals → Prop)
    (hscan : ∀ (g : Globals) (ms : List Str) (n : Str) (isDir : Bool),
      (∀ m ∈ ms, q m = true) → q n = true → I g → A (ms ++ [n]) g →
        I (scanDir g (pathOf D (ms ++ [n])) ⟨n, isDir⟩).2)
    (hdesc : ∀ (g : Globals) (ms : List Str) (n c : Str),
      (∀ m ∈ ms, q m = true) → q n = true → q c = true → I g → A (ms ++ [n]) g →
        (scanDir g (pathOf D (ms ++ [n])) ⟨n, true⟩).1 = .ok →
        A (ms ++ [n] ++ [c]) (scanDir g (pathOf D (ms ++ [n])) ⟨n, true⟩).2)
    (hmono : ∀ (g g1 : Globals) (ms : List Str), A ms g → Later g g1 → A ms g1) :
    ∀ (node : Node) (ms : List Str) (g : Globals), node.all q = true →
      (∀ m ∈ ms, q m = true) → I g → A (ms ++ [node.name]) g →
      I (walk g (pathOf D (ms ++ [node.name])) node).2
  | .file name, ms, g, hv, hms, hI, hA => by
    rw [walk]
    exact hscan g ms name false hms (by simpa [Node.all] using hv) hI hA
  | .dir name kids, ms, g, hv, hms, hI, hA => by
    simp only [Node.all, Bool.and_eq_true] at hv
    have hI1 := hscan g ms name true hms hv.1 hI hA
    rw [walk]
    simp only [Node.name] at hA ⊢
    cases hsd : scanDir g (pathOf D (ms ++ [name])) ⟨name, true⟩ with
    | mk sig g1 =>
      rw [hsd] at hI1
      cases sig with
      | ok =>
        simp only
        refine walkChildren_invariant D hD q hq I A hscan hdesc hmono kids (ms ++ [name]) g1
          hv.2 ?_ hI1 ?_
        · intro m hm
          rcases List.mem_append.mp hm with h | h
          · exact hms m h
          · rw [List.mem_singleton.mp h]; exact hv.1
        · intro c hc
          have := hdesc g ms name c hms hv.1 hc hI hA (by rw [hsd])
          rw [hsd] at this
          exact this
      | skipThis => exact hI1
      | err e => exact hI1
/-- The same for the walk of the entries of a directory. -/
theorem walkChildren_invariant (D : Str) (hD : goodDir D = true) (q : Str → Bool)
    (hq : ∀ n, q n = true → validName n = true)
    (I : Globals → Prop) (A : List Str → Globals → Prop)
    (hscan : ∀ (g : Globals) (ms : List Str) (n : Str) (isDir : Bool),
      (∀ m ∈ ms, q m = true) → q n = true → I g → A (ms ++ [n]) g →
        I (scanDir g (pathOf D (ms ++ [n])) ⟨n, isDir⟩).2)
    (hdesc : ∀ (g : Globals) (ms : List Str) (n c : Str),
      (∀ m ∈ ms, q m = true) → q n = true → q c = true → I g → A (ms ++ [n]) g →
        (scanDir g (pathOf D (ms ++ [n])) ⟨n, true⟩).1 = .ok →
        A (ms ++ [n] ++ [c]) (scanDir g (pathOf D (ms ++ [n])) ⟨n, true⟩).2)
    (hmono : ∀ (g g1 : Globals) (ms : List Str), A ms g → Later g g1 → A ms g1) :
    ∀ (kids : List Node) (ms : List Str) (g : Globals), kidsAll q kids = true →
      (∀ m ∈ ms, q m = true) → I g → (∀ c, q c = true → A (ms ++ [c]) g) →
      I (walkChildren g (pathOf D ms) kids).2
  | [], ms, g, _, _, hI, _ => by
    rw [walkChildren]; exact hI
  | k :: ks, ms, g, hv, hms, hI, hA => by
    simp only [kidsAll, Bool.and_eq_true] at hv
    have hk : q k.name = true := Node.all_name q k hv.1
    have hjoin : Join [pathOf D ms, k.name] = pathOf D (ms ++ [k.name]) :=
      Join_pathOf D ms k.name hD (fun m hm => hq m (hms m hm)) (hq _ hk)
    rw [walkChildren, hjoin]
    have hI1 := walk_invariant D hD q hq I A hscan hdesc hmono k ms g hv.1 hms hI
      (hA k.name hk)
    have hl := walk_later g (pathOf D (ms ++ [k.name])) k
    cases hw : walk g (pathOf D (ms ++ [k.name])) k with
    | mk sig g1 =>
      rw [hw] at hI1 hl
      have hnext := walkChildren_invariant D hD q hq I A hscan hdesc hmono ks ms g1 hv.2 hms
        hI1 (fun c hc => hmono g g1 _ (hA c hc) hl)
      cases sig with
      | ok => exact hnext
      | skipThis => exact hnext
      | err e => exact hI1
end

/-- The scan of a tree is the walk of the entries of the base directory. -/
theorem Scan_eq (g : Globals) (root : Node) (hD : goodDir g.directory = true) :
    (Scan g root).2 = (walkChildren g g.directory root.children).2 ∧
      (Scan g root).1.1 = (walkChildren g g.directory root.children).2.includes := by
  have hclean := (goodDir_iff.1 hD).1
  rw [Scan]
  simp only [hclean]
  cases root with
  | file name =>
    simp [Node.rename, walk, scanDir, Node.children, walkChildren]
  | dir name kids =>
    simp only [Node.rename, walk, scanDir, ↓reduceIte, Node.children]
    cases hw : walkChildren g g.directory kids with
    | mk sig g1 => cases sig <;> simp

theorem pathOf_ne_base (D : Str) (ms : List Str) (n : Str) : pathOf D (ms ++ [n]) ≠ D := by
  intro h
  have := congrArg List.length h
  simp [pathOf] at this

theorem FindAllString_of_accepts {re : Regex} (h : isAnchored re = true) (P : Str)
    (hacc : accepts re P = true) : FindAllString re P = [P] := by
  have ha := anchored_of_isAnchored h
  rw [FindAllString_anchored ha]
  have := (accepts_anchored ha P).1 hacc
  simp [this]

/-- `scanDir` on the entry reached through a chain of valid names from a
clean base directory, when the inverting patterns are anchored. -/
theorem scanDir_at (g : Globals) (ms : List Str) (n : Str) (isDir : Bool)
    (hD : goodDir g.directory = true)
    (hanch : ∀ p ∈ g.ignorePatterns, p.Invert = true → isAnchored p.RegexPattern = true)
    (hms : ∀ m ∈ ms, validName m = true) (hn : validName n = true)
    (hdef : n ∉ defaultPatterns) :
    scanDir g (pathOf g.directory (ms ++ [n])) ⟨n, isDir⟩ =
      if excludedAt g.ignorePatterns g.excludedDirs (pathOf g.directory (ms ++ [n])) = true then
        (if (isDir && !transitiveAt g.directory g.ignorePatterns
              (pathOf g.directory (ms ++ [n]))) = true then .skipThis else .ok,
          { g with
            includes :=
              if invertAccepts g.ignorePatterns (pathOf g.directory (ms ++ [n])) = true then
                appendIfNotExist g.includes (joinSep ['/'] (ms ++ [n]))
              else g.includes
            excludedDirs :=
              if isDir = true then setInsert g.excludedDirs (pathOf g.directory (ms ++ [n]))
              else g.excludedDirs })
      else (.ok, { g with includes := appendIfNotExist g.includes (joinSep ['/'] (ms ++ [n])) }) := by
  have hchain : ∀ m ∈ ms ++ [n], validName m = true := by
    intro m hm
    rcases List.mem_append.mp hm with h | h
    · exact hms m h
    · rw [List.mem_singleton.mp h]; exact hn
  have hrel := Rel_pathOf g.directory (ms ++ [n]) hD (by simp) hchain
  exact scanDir_spec g _ ⟨n, isDir⟩ _ (pathOf_ne_base _ _ _) hdef
    (fun p hp hinv hacc => ⟨FindAllString_of_accepts (hanch p hp hinv) _ hacc, hrel⟩)
    (fun _ => hrel)

theorem scanDir_default (g : Globals) (P : Str) (d : Dirent) (hP : P ≠ g.directory)
    (hd : d.name ∈ defaultPatterns) : scanDir g P d = (.skipThis, g) := by
  simp [scanDir, hP, hd]

/-- The state a scan works on: the base directory and the patterns are those
given, and every path of the include list is the relative path of an entry
that satisfies `ok`. -/
theorem scan_includes_of (D : Str) (pats : List FileIgnorePattern) (q : Str → Bool)
    (hq : ∀ n, q n = true → validName n = true) (hD : goodDir D = true)
    (hanch : ∀ p ∈ pats, p.Invert = true → isAnchored p.RegexPattern = true)
    (ok : List Str → Prop) (A : List Str → Globals → Prop)
    (hstep : ∀ (g : Globals) (ms : List Str) (n : Str) (isDir : Bool),
      g.directory = D → g.ignorePatterns = pats →
      (∀ m ∈ ms, q m = true) → q n = true → n ∉ defaultPatterns → A (ms ++ [n]) g →
      joinSep ['/'] (ms ++ [n]) ∈
        (scanDir g (pathOf D (ms ++ [n])) ⟨n, isDir⟩).2.includes →
      joinSep ['/'] (ms ++ [n]) ∉ g.includes → ok (ms ++ [n]))
    (hdesc : ∀ (g : Globals) (ms : List Str) (n c : Str),
      g.directory = D → g.ignorePatterns = pats →
      (∀ m ∈ ms, q m = true) → q n = true → q c = true → A (ms ++ [n]) g →
        (scanDir g (pathOf D (ms ++ [n])) ⟨n, true⟩).1 = .ok →
        A (ms ++ [n] ++ [c]) (scanDir g (pathOf D (ms ++ [n])) ⟨n, true⟩).2)
    (hmono : ∀ (g g1 : Globals) (ms : List Str), A ms g → Later g g1 → A ms g1)
    (g : Globals) (root : Node) (hgD : g.directory = D) (hgp : g.ignorePatterns = pats)
    (hclean : g.includes = []) (hA : ∀ c, q c = true → A [c] g)
    (hv : kidsAll q root.children = true) :
    ∀ r ∈ (Scan g root).1.1, ∃ ms, (∀ m ∈ ms, q m = true) ∧ ms ≠ [] ∧
      r = joinSep ['/'] ms ∧ ok ms := by
  have hinv := walkChildren_invariant D hD q hq
    (fun g => g.directory = D ∧ g.ignorePatterns = pats ∧
      ∀ r ∈ g.includes, ∃ ms, (∀ m ∈ ms, q m = true) ∧ ms ≠ [] ∧ r = joinSep ['/'] ms ∧ ok ms)
    A ?_ ?_ hmono root.children [] g hv (by simp) ⟨hgD, hgp, by simp [hclean]⟩
    (by simpa using hA)
  · intro r hr
    have := (Scan_eq g root (hgD ▸ hD)).2
    rw [this, hgD] at hr
    rw [pathOf_nil] at hinv
    exact hinv.2.2 r hr
  · intro g ms n isDir hms hn ⟨hg1, hg2, hI⟩ hA
    have hl := scanDir_later g (pathOf D (ms ++ [n])) ⟨n, isDir⟩
    refine ⟨hl.1.trans hg1, hl.2.1.trans hg2, ?_⟩
    intro r hr
    by_cases hold : r ∈ g.includes
    · exact hI r hold
    · by_cases hdef : n ∈ defaultPatterns
      · rw [scanDir_default g _ _ (hg1 ▸ pathOf_ne_base D ms n) hdef] at hr
        exact absurd hr hold
      · have hchain : ∀ m ∈ ms ++ [n], q m = true := by
          intro m hm
          rcases List.mem_append.mp hm with h | h
          · exact hms m h
          · rw [List.mem_singleton.mp h]; exact hn
        have hspec := scanDir_at g ms n isDir (hg1 ▸ hD) (hg2 ▸ hanch)
          (fun m hm => hq m (hms m hm)) (hq n hn) hdef
        rw [hg1] at hspec
        have hreq : r = joinSep ['/'] (ms ++ [n]) := by
          rw [hspec] at hr
          split at hr
          · simp only at hr
            split at hr
            · rcases (mem_appendIfNotExist _ _ _).1 hr with h | h
              · exact absurd h hold
              · exact h
            · exact absurd hr hold
          · simp only at hr
            rcases (mem_appendIfNotExist _ _ _).1 hr with h | h
            · exact absurd h hold
            · exact h
        subst hreq
        exact ⟨ms ++ [n], hchain, by simp, rfl,
          hstep g ms n isDir hg1 hg2 hms hn hdef hA hr hold⟩
  · intro g ms n c hms hn hc ⟨hg1, hg2, _⟩ hA hok
    exact hdesc g ms n c hg1 hg2 hms hn hc hA hok

theorem validName_not_mem_sep {m : Str} (h : validName m = true) : '/' ∉ m :=
  (validName_iff.1 h).2.1

theorem scanDir_ok_not_default (g : Globals) (P : Str) (d : Dirent) (hP : P ≠ g.directory)
    (hok : (scanDir g P d).1 = .ok) : d.name ∉ defaultPatterns := by
  intro hd
  rw [scanDir_default g P d hP hd] at hok
  simp at hok

theorem invertAccepts_false_iff (pats : List FileIgnorePattern) (P : Str) :
    invertAccepts pats P = false ↔
      ∀ p ∈ pats, p.Invert = true → accepts p.RegexPattern P = false := by
  simp [invertAccepts]

theorem hasPlain_of_plainAccepts {pats : List FileIgnorePattern} {P : Str}
    (h : plainAccepts pats P = true) : hasPlain pats = true := by
  simp only [plainAccepts, List.any_eq_true, Bool.and_eq_true] at h
  obtain ⟨p, hp, h1, _⟩ := h
  simp only [hasPlain, List.any_eq_true]
  exact ⟨p, hp, h1⟩

theorem excludedAt_of_plainAccepts {pats : List FileIgnorePattern} {P : Str} (exd : List Str)
    (h : plainAccepts pats P = true) : excludedAt pats exd P = true := by
  simp only [excludedAt, Bool.or_eq_true]
  right
  split
  · exact hasPlain_of_plainAccepts h
  · exact h

/-- What `scanDir` does on a directory that a non-inverting pattern accepts,
no inverting pattern accepts, and that is the parent chain of no inverting
pattern: it records the directory as excluded and prunes it. -/
theorem scanDir_pruned (g : Globals) (Q : Str) (name : Str) (isDir : Bool)
    (hQ : Q ≠ g.directory) (hname : name ∉ defaultPatterns)
    (hplain : plainAccepts g.ignorePatterns Q = true)
    (hinv : invertAccepts g.ignorePatterns Q = false) :
    scanDir g Q ⟨name, isDir⟩ =
      (if (isDir && !transitiveAt g.directory g.ignorePatterns Q) = true then .skipThis
        else .ok,
        { g with excludedDirs := if isDir = true then setInsert g.excludedDirs Q
                                  else g.excludedDirs }) := by
  have hex := excludedAt_of_plainAccepts g.excludedDirs hplain
  rw [scanDir_spec g Q ⟨name, isDir⟩ [] hQ hname
    (fun p hp hi ha => by
      have := (invertAccepts_false_iff _ _).1 hinv p hp hi
      rw [this] at ha
      exact absurd ha (by decide))
    (fun h => by rw [hex] at h; exact absurd h (by decide))]
  simp [hex, hinv]

theorem joinSep_inj {ms qs : List Str} (hms : ∀ m ∈ ms, validName m = true) (hmne : ms ≠ [])
    (hqs : ∀ m ∈ qs, validName m = true) (hqne : qs ≠ [])
    (h : joinSep ['/'] ms = joinSep ['/'] qs) : ms = qs := by
  rw [← splitOn_joinSep ms hmne (fun m hm => validName_not_mem_sep (hms m hm)), h,
    splitOn_joinSep qs hqne (fun m hm => validName_not_mem_sep (hqs m hm))]

theorem prefix_of_joinSep_prefix {ms qs : List Str} (hms : ∀ m ∈ ms, validName m = true)
    (hmne : ms ≠ []) (hqs : ∀ m ∈ qs, validName m = true) (hqne : qs ≠ [])
    (h : (joinSep ['/'] qs ++ ['/']) <+: joinSep ['/'] ms) : qs <+: ms := by
  obtain ⟨x, hx⟩ := h
  have h1 := splitOn_joinSep ms hmne (fun m hm => validName_not_mem_sep (hms m hm))
  rw [← hx, List.append_assoc, List.singleton_append, splitOn_append_sep,
    splitOn_joinSep qs hqne (fun m hm => validName_not_mem_sep (hqs m hm))] at h1
  exact ⟨_, h1⟩

/-- The compiled form of the pattern `*`: a non-inverting pattern that
accepts every path under the base directory that holds no line break. -/
theorem star_pattern (D : Str) (star : FileIgnorePattern)
    (hplainD : ∀ c ∈ D, basePlain c = true)
    (hstar : toFileIgnorePattern D ['*'] = .ok star) :
    star.Invert = false ∧
      ∀ s : Str, '\n' ∉ s → accepts star.RegexPattern (D ++ '/' :: s) = true := by
  have hclean : Clean ['*'] = ['*'] := by decide
  have hre := asRegExp_tame D ['*'] hplainD (by decide)
  have hacc := fun s => matcherAccepts_star_literal D [] s hplainD (by simp)
  simp only [matcherAccepts, hre] at hacc
  have hne : ('*' : Char) ≠ '!' := by decide
  have hne2 : ('/' : Char) ≠ '*' := by decide
  simp [toFileIgnorePattern, hclean, invertMark, startsWith, hre, hne, hne2] at hstar
  subst hstar
  refine ⟨rfl, fun s hs => ?_⟩
  exact (hacc s).2 ⟨s, by simp, hs⟩

theorem not_mem_joinSep (c : Char) (hc : c ≠ '/') (ms : List Str) (h : ∀ m ∈ ms, c ∉ m) :
    c ∉ joinSep ['/'] ms := by
  induction ms with
  | nil => simp [joinSep]
  | cons m ms ih =>
    have hm := h m (List.mem_cons_self _ _)
    have ih' := ih (fun x hx => h x (List.mem_cons_of_mem _ hx))
    cases ms with
    | nil => simpa [joinSep] using hm
    | cons m2 ms2 =>
      simp only [joinSep, List.append_assoc, List.singleton_append, List.mem_append,
        List.mem_cons, not_or]
      exact ⟨hm, hc, ih'⟩

theorem Join_rel (D : Str) (ms : List Str) (hD : goodDir D = true) (hne : ms ≠ [])
    (hms : ∀ m ∈ ms, validName m = true) :
    Join [D, joinSep ['/'] ms] = pathOf D ms := by
  have hDne := goodDir_ne_nil hD
  have hT := (goodDir_iff.1 (goodDir_pathOf D ms hD hms)).1
  cases D with
  | nil => exact absurd rfl hDne
  | cons c tl =>
    simp only [Join, List.dropWhile, reduceCtorEq, decide_False, joinSep]
    rw [List.append_assoc, List.singleton_append, ← pathOf_eq_rel _ _ hne]
    exact hT

/-- A name without line break that a directory entry can bear. -/
theorem lineName_valid (n : Str) (h : (validName n && !n.contains '\n') = true) :
    validName n = true ∧ '\n' ∉ n := by
  simp only [Bool.and_eq_true, Bool.not_eq_true', List.contains_eq_any_beq, List.any_eq_false,
    beq_iff_eq] at h
  exact ⟨h.1, fun hm => h.2 _ hm rfl⟩


theorem scanDir_no_err (g : Globals) (ms : List Str) (n : Str) (isDir : Bool)
    (hD : goodDir g.directory = true)
    (hanch : ∀ p ∈ g.ignorePatterns, p.Invert = true → isAnchored p.RegexPattern = true)
    (hms : ∀ m ∈ ms, validName m = true) (hn : validName n = true) (e : ScanError) :
    (scanDir g (pathOf g.directory (ms ++ [n])) ⟨n, isDir⟩).1 ≠ .err e := by
  by_cases hdef : n ∈ defaultPatterns
  · rw [scanDir_default g _ _ (pathOf_ne_base _ _ _) hdef]; simp
  · rw [scanDir_at g ms n isDir hD hanch hms hn hdef]
    split
    · simp only; split <;> simp
    · simp

mutual
/-- Under a clean base directory, with valid entry names and anchored
inverting patterns, the walk of a subtree ends without error. -/
theorem walk_no_err (D : Str) (pats : List FileIgnorePattern) (hD : goodDir D = true)
    (hanch : ∀ p ∈ pats, p.Invert = true → isAnchored p.RegexPattern = true) :
    ∀ (node : Node) (ms : List Str) (g : Globals), g.directory = D → g.ignorePatterns = pats →
      node.all validName = true → (∀ m ∈ ms, validName m = true) → ∀ e : ScanError,
      (walk g (pathOf D (ms ++ [node.name])) node).1 ≠ .err e
  | .file name, ms, g, hg1, hg2, hv, hms, e => by
    rw [walk]
    have := scanDir_no_err g ms name false (hg1 ▸ hD) (hg2 ▸ hanch) hms
      (by simpa [Node.all] using hv) e
    rwa [hg1] at this
  | .dir name kids, ms, g, hg1, hg2, hv, hms, e => by
    simp only [Node.all, Bool.and_eq_true] at hv
    have hne := scanDir_no_err g ms name true (hg1 ▸ hD) (hg2 ▸ hanch) hms hv.1 e
    have hl := scanDir_later g (pathOf D (ms ++ [name])) ⟨name, true⟩
    rw [hg1] at hne
    rw [walk]
    simp only [Node.name]
    cases hsd : scanDir g (pathOf D (ms ++ [name])) ⟨name, true⟩ with
    | mk sig g1 =>
      rw [hsd] at hne hl
      cases sig with
      | ok =>
        simp only
        refine walkChildren_no_err D pats hD hanch kids (ms ++ [name]) g1 (hl.1.trans hg1)
          (hl.2.1.trans hg2) hv.2 ?_ e
        intro m hm
        rcases List.mem_append.mp hm with h | h
        · exact hms m h
        · rw [List.mem_singleton.mp h]; exact hv.1
      | skipThis => simp
      | err e1 => exact hne
/-- The same for the walk of the entries of a directory. -/
theorem walkChildren_no_err (D : Str) (pats : List FileIgnorePattern) (hD : goodDir D = true)
    (hanch : ∀ p ∈ pats, p.Invert = true → isAnchored p.RegexPattern = true) :
    ∀ (kids : List Node) (ms : List Str) (g : Globals), g.directory = D →
      g.ignorePatterns = pats → kidsAll validName kids = true →
      (∀ m ∈ ms, validName m = true) → ∀ e : ScanError,
      (walkChildren g (pathOf D ms) kids).1 ≠ .err e
  | [], ms, g, _, _, _, _, e => by rw [walkChildren]; simp
  | k :: ks, ms, g, hg1, hg2, hv, hms, e => by
    simp only [kidsAll, Bool.and_eq_true] at hv
    have hk := Node.all_name validName k hv.1
    rw [walkChildren, Join_pathOf D ms k.name hD hms hk]
    have h1 := walk_no_err D pats hD hanch k ms g hg1 hg2 hv.1 hms
    have hl := walk_later g (pathOf D (ms ++ [k.name])) k
    cases hw : walk g (pathOf D (ms ++ [k.name])) k with
    | mk sig g1 =>
      rw [hw] at h1 hl
      have hnext := walkChildren_no_err D pats hD hanch ks ms g1 (hl.1.trans hg1)
        (hl.2.1.trans hg2) hv.2 hms e
      cases sig with
      | ok => exact hnext
      | skipThis => exact hnext
      | err e1 => exact absurd rfl (h1 e1)
end

theorem kidsAll_mem (q : Str → Bool) :
    ∀ (kids : List Node) (k : Node), kidsAll q kids = true → k ∈ kids → k.all q = true
  | [], k, _, hk => by simp at hk
  | k0 :: ks, k, hv, hk => by
    simp only [kidsAll, Bool.and_eq_true] at hv
    rcases List.mem_cons.mp hk with rfl | h
    · exact hv.1
    · exact kidsAll_mem q ks k hv.2 h

/-- Every entry of a directory is reached by the walk of its entries, and
what the walk of the entry leaves stays to the end. -/
theorem walkChildren_reaches (D : Str) (pats : List FileIgnorePattern) (hD : goodDir D = true)
    (hanch : ∀ p ∈ pats, p.Invert = true → isAnchored p.RegexPattern = true)
    (ms : List Str) (hms : ∀ m ∈ ms, validName m = true) (k : Node) :
    ∀ (kids : List Node) (g : Globals), g.directory = D → g.ignorePatterns = pats →
      kidsAll validName kids = true → k ∈ kids →
      ∃ g2, Later g g2 ∧
        Later (walk g2 (pathOf D (ms ++ [k.name])) k).2 (walkChildren g (pathOf D ms) kids).2
  | [], g, _, _, _, hk => by simp at hk
  | k0 :: ks, g, hg1, hg2, hv, hk => by
    simp only [kidsAll, Bool.and_eq_true] at hv
    have hk0 := Node.all_name validName k0 hv.1
    rw [walkChildren, Join_pathOf D ms k0.name hD hms hk0]
    have h1 := walk_no_err D pats hD hanch k0 ms g hg1 hg2 hv.1 hms
    have hl := walk_later g (pathOf D (ms ++ [k0.name])) k0
    cases hw : walk g (pathOf D (ms ++ [k0.name])) k0 with
    | mk sig g1 =>
      rw [hw] at h1 hl
      have key : ∃ g2, Later g g2 ∧
          Later (walk g2 (pathOf D (ms ++ [k.name])) k).2
            (walkChildren g1 (pathOf D ms) ks).2 := by
        rcases List.mem_cons.mp hk with rfl | hmem
        · refine ⟨g, Later.refl g, ?_⟩
          rw [hw]
          exact walkChildren_later g1 (pathOf D ms) ks
        · obtain ⟨g2, hl2, hfin⟩ := walkChildren_reaches D pats hD hanch ms hms k ks g1
            (hl.1.trans hg1) (hl.2.1.trans hg2) hv.2 hmem
          exact ⟨g2, hl.trans hl2, hfin⟩
      cases sig with
      | ok => exact key
      | skipThis => exact key
      | err e1 => exact absurd rfl (h1 e1)

theorem walk_after_scanDir (g : Globals) (P : Str) (node : Node) :
    Later (scanDir g P ⟨node.name, node.isDir⟩).2 (walk g P node).2 := by
  cases node with
  | file name => rw [walk]; exact Later.refl _
  | dir name kids =>
    rw [walk]
    simp only [Node.name, Node.isDir]
    cases hsd : scanDir g P ⟨name, true⟩ with
    | mk sig g1 =>
      cases sig with
      | ok => exact walkChildren_later g1 P kids
      | skipThis => exact Later.refl _
      | err e => exact Later.refl _



/-! ### Compiled patterns -/

theorem endsInEol_foldl (ys : List Regex) :
    ∀ acc : Regex, endsInEol acc = true →
      endsInEol (ys.foldl (fun acc y => Regex.cat y acc) acc) = true := by
  induction ys with
  | nil => intro acc h; simpa using h
  | cons y ys ih =>
    intro acc h
    rw [List.foldl_cons]
    exact ih _ (by simpa [endsInEol] using h)

/-- The expression compiled from a tame pattern passes the syntactic test for
anchored expressions. -/
theorem isAnchored_tame (base pat : Str) :
    isAnchored (mkCat (tameItems base pat).reverse) = true := by
  have hrev : (tameItems base pat).reverse =
      Regex.eol :: ((base.map baseItem ++ [Regex.lit '/'] ++ pat.map patItem).reverse ++
        [Regex.bol]) := by
    simp [tameItems]
  rw [hrev, mkCat, List.foldl_append, List.foldl_cons, List.foldl_nil, isAnchored]
  exact endsInEol_foldl _ _ rfl

/-- A valid name is clean as it stands. -/
theorem Clean_validName (n : Str) (hn : validName n = true) : Clean n = n := by
  obtain ⟨hne, hslash, _, _⟩ := validName_iff.1 hn
  cases n with
  | nil => exact absurd rfl hne
  | cons c tl =>
    have hc : c ≠ '/' := fun h => hslash (h ▸ List.mem_cons_self _ _)
    rw [Clean_cons, splitOn_of_not_mem _ _ hslash]
    simp [hc, cleanStep_valid _ _ hn, joinSep]

theorem toFileIgnorePattern_pattern (dir ip : Str) (x : FileIgnorePattern)
    (h : toFileIgnorePattern dir ip = .ok x) : x.Pattern = Clean ip := by
  rw [toFileIgnorePattern] at h
  split at h
  · exact absurd h (by simp)
  · injection h with h
    rw [← h]

/-- The compile loop of `NewOrDefault`, when it succeeds, has appended one
compiled pattern per raw pattern, in order. -/
theorem compileLoop_ok (pats : List Str) :
    ∀ (g g1 : Globals) (k : ScannerKind), compileLoop g pats = (.ok k, g1) →
      g1.ignorePatterns.map (fun p => p.Pattern) =
        g.ignorePatterns.map (fun p => p.Pattern) ++ pats.map Clean ∧
      g1.directory = g.directory ∧ g1.includes = g.includes ∧
      g1.excludedDirs = g.excludedDirs ∧ g1.rawPatterns = g.rawPatterns := by
  induction pats with
  | nil =>
    intro g g1 k h
    simp only [compileLoop, Prod.mk.injEq] at h
    rw [← h.2]
    simp
  | cons ip rest ih =>
    intro g g1 k h
    rw [compileLoop] at h
    cases hx : toFileIgnorePattern g.directory ip with
    | error e => rw [hx] at h; simp at h
    | ok x =>
      rw [hx] at h
      obtain ⟨h1, h2, h3, h4, h5⟩ := ih _ g1 k h
      simp only at h h1 h2 h3 h4 h5
      refine ⟨?_, h2, h3, h4, h5⟩
      rw [h1, List.map_append, List.map_cons, List.map_nil,
        toFileIgnorePattern_pattern _ _ _ hx]
      simp

/-- After a successful `NewOrDefault` the compiled patterns are the default
patterns followed by the patterns of the lines the line loop keeps, each in
clean form, whatever the variables held before. -/
theorem NewOrDefault_patterns (g g1 : Globals) (dir : Str) (ls : List Str) (k : ScannerKind)
    (h : NewOrDefault g dir (.lines ls) = (.ok k, g1)) :
    g1.ignorePatterns.map (fun p => p.Pattern) =
        (defaultPatterns ++ scanLines true ls).map Clean ∧
      g1.ignorePatterns.length = 3 + (scanLines true ls).length ∧
      g1.directory = dir ∧ g1.includes = [] := by
  rw [NewOrDefault] at h
  simp only [scanAndBuildPatternsList] at h
  obtain ⟨h1, h2, h3, _, _⟩ := compileLoop_ok _ _ g1 k h
  simp only [List.map_nil, List.nil_append] at h1
  refine ⟨h1, ?_, h2, h3⟩
  have := congrArg List.length h1
  simp only [List.length_map, List.length_append] at this
  rw [this]
  simp [defaultPatterns]


/-- The compile loop of `NewOrDefault` fails when one of the patterns does
not compile, and leaves the include list as it was. -/
theorem compileLoop_error (pats : List Str) :
    ∀ (g : Globals) (p : Str), p ∈ pats →
      (∃ e, toFileIgnorePattern g.directory p = .error e) →
      (∃ e, (compileLoop g pats).1 = .error e) ∧
        (compileLoop g pats).2.includes = g.includes := by
  induction pats with
  | nil => intro g p hp _; simp at hp
  | cons ip rest ih =>
    intro g p hp hbad
    rw [compileLoop]
    cases hx : toFileIgnorePattern g.directory ip with
    | error e => exact ⟨⟨e, rfl⟩, rfl⟩
    | ok x =>
      simp only
      rcases List.mem_cons.mp hp with rfl | hrest
      · obtain ⟨e, he⟩ := hbad
        rw [hx] at he
        exact absurd he (by simp)
      · exact ih { g with ignorePatterns := g.ignorePatterns ++ [x] } p hrest hbad


theorem anyAccepts_eq (pats : List FileIgnorePattern) (P : Str) :
    anyAccepts pats P = (invertAccepts pats P || plainAccepts pats P) := by
  induction pats with
  | nil => rfl
  | cons p ps ih =>
    simp only [anyAccepts, invertAccepts, plainAccepts, List.any_cons] at ih ⊢
    rw [ih]
    cases p.Invert <;> cases accepts p.RegexPattern P <;> simp



/-! ### Line normalisation -/

theorem startsWith_hash (p : Str) : startsWith ['#'] p = true ↔ p = [] ∨ p = ['#'] := by
  cases p with
  | nil => simp [startsWith]
  | cons c cs =>
    cases cs with
    | nil =>
      simp only [startsWith, Bool.and_true, decide_eq_true_eq, List.cons.injEq, and_true,
        false_or, reduceCtorEq]
      exact eq_comm
    | cons d ds => simp [startsWith]

theorem dropWhile_eq_self_of_length {α : Type} (p : α → Bool) (l : List α)
    (h : l.length ≤ (l.dropWhile p).length) : l.dropWhile p = l :=
  (List.dropWhile_suffix p).eq_of_length (le_antisymm (List.dropWhile_suffix p).length_le h)

theorem TrimSpace_length_le (s : Str) : (TrimSpace s).length ≤ (s.dropWhile isSpace).length := by
  rw [TrimSpace, List.length_reverse]
  exact le_trans (List.dropWhile_suffix _).length_le (by simp)

/-- A text that trimming leaves as it is neither begins nor ends with white
space. -/
theorem TrimSpace_fixed {b : Str} (h : TrimSpace b = b) :
    b.dropWhile isSpace = b ∧ b.reverse.dropWhile isSpace = b.reverse := by
  have h1 : b.dropWhile isSpace = b := by
    apply dropWhile_eq_self_of_length
    have := TrimSpace_length_le b
    rw [h] at this
    exact this
  refine ⟨h1, ?_⟩
  rw [TrimSpace, h1] at h
  have := congrArg List.reverse h
  rwa [List.reverse_reverse] at this

theorem TrimSpace_mark (b : Str) (hb : b ≠ []) (h : TrimSpace b = b) :
    TrimSpace ('!' :: b) = '!' :: b := by
  obtain ⟨_, h2⟩ := TrimSpace_fixed h
  have hbang : isSpace '!' = false := by decide
  rw [TrimSpace, List.dropWhile_cons, hbang]
  simp only [Bool.false_eq_true, ↓reduceIte, List.reverse_cons]
  cases hr : b.reverse with
  | nil => exact absurd (List.reverse_eq_nil_iff.mp hr) hb
  | cons x r =>
    rw [hr] at h2
    have hx : isSpace x = false := by
      by_contra hx
      have hx' : isSpace x = true := by simpa using hx
      rw [List.dropWhile_cons, hx'] at h2
      simp only [↓reduceIte] at h2
      have := (List.dropWhile_suffix isSpace (l := r)).length_le
      rw [h2] at this
      simp at this
    rw [List.cons_append, List.dropWhile_cons, hx]
    simp only [Bool.false_eq_true, ↓reduceIte]
    rw [← List.cons_append, ← hr]
    simp

/-- The stack of `filepath.Clean` holds valid names on top of `..`
elements, and no `..` element when the path is rooted. -/
theorem cleanStep_shape (rooted : Bool) (stack : List Str) (c : Str) (hc : '/' ∉ c)
    (hs : ∃ (k : Nat) (names : List Str), stack = names ++ List.replicate k ['.', '.'] ∧
      (∀ n ∈ names, validName n = true) ∧ (rooted = true → k = 0)) :
    ∃ (k : Nat) (names : List Str),
      cleanStep rooted stack c = names ++ List.replicate k ['.', '.'] ∧
      (∀ n ∈ names, validName n = true) ∧ (rooted = true → k = 0) := by
  obtain ⟨k, names, hst, hv, hk⟩ := hs
  rw [cleanStep.eq_def]
  split
  · exact ⟨k, names, hst, hv, hk⟩
  · rename_i h1
    split
    · rename_i h2
      cases names with
      | nil =>
        simp only [List.nil_append] at hst
        cases k with
        | zero =>
          subst hst
          simp only [List.replicate_zero]
          cases rooted with
          | true => exact ⟨0, [], by simp, by simp, fun _ => rfl⟩
          | false => exact ⟨1, [], by simp [h2], by simp, by simp⟩
        | succ k1 =>
          subst hst
          have hr : rooted = false := by
            cases rooted with
            | true => exact absurd (hk rfl) (by simp)
            | false => rfl
          subst hr
          refine ⟨k1 + 2, [], ?_, by simp, by simp⟩
          simp [List.replicate_succ, h2]
      | cons top rest =>
        subst hst
        have htop : validName top = true := hv top (List.mem_cons_self _ _)
        have hne : top ≠ ['.', '.'] := (validName_iff.1 htop).2.2.2
        simp only [List.cons_append, hne, ↓reduceIte]
        exact ⟨k, rest, rfl, fun n hn => hv n (List.mem_cons_of_mem _ hn), hk⟩
    · rename_i h2
      refine ⟨k, c :: names, by simp [hst], ?_, hk⟩
      intro n hn
      rcases List.mem_cons.mp hn with rfl | hn
      · rw [validName_iff]
        exact ⟨fun h => h1 (Or.inl h), hc, fun h => h1 (Or.inr h), h2⟩
      · exact hv n hn

theorem cleanStack_shape (rooted : Bool) (comps : List Str) :
    ∀ (stack : List Str), (∀ c ∈ comps, '/' ∉ c) →
      (∃ (k : Nat) (names : List Str), stack = names ++ List.replicate k ['.', '.'] ∧
        (∀ n ∈ names, validName n = true) ∧ (rooted = true → k = 0)) →
      ∃ (k : Nat) (names : List Str),
        comps.foldl (cleanStep rooted) stack = names ++ List.replicate k ['.', '.'] ∧
        (∀ n ∈ names, validName n = true) ∧ (rooted = true → k = 0) := by
  induction comps with
  | nil => intro stack _ hs; simpa using hs
  | cons c cs ih =>
    intro stack hc hs
    rw [List.foldl_cons]
    exact ih _ (fun d hd => hc d (List.mem_cons_of_mem _ hd))
      (cleanStep_shape rooted stack c (hc c (List.mem_cons_self _ _)) hs)

theorem joinSep_head (xs : List Str) (hne : xs ≠ []) (h : ∀ x ∈ xs, x ≠ [] ∧ '/' ∉ x) :
    startsWith (joinSep ['/'] xs) ['/'] = false := by
  cases xs with
  | nil => exact absurd rfl hne
  | cons x rest =>
    obtain ⟨hx, hsl⟩ := h x (List.mem_cons_self _ _)
    cases x with
    | nil => exact absurd rfl hx
    | cons c cs =>
      have hc : c ≠ '/' := fun e => hsl (e ▸ List.mem_cons_self _ _)
      cases rest with
      | nil => simp [joinSep, startsWith, hc]
      | cons y ys => simp [joinSep, startsWith, hc]

/-- The clean form of a path, as `filepath.Clean` builds it: `..` elements,
none when the path is rooted, then valid names. -/
theorem Clean_shape (c0 : Char) (tl : Str) :
    ∃ (k : Nat) (names : List Str), (∀ n ∈ names, validName n = true) ∧
      (c0 = '/' → k = 0) ∧
      Clean (c0 :: tl) =
        if c0 = '/' then '/' :: joinSep ['/'] (List.replicate k ['.', '.'] ++ names)
        else if k + names.length = 0 then ['.']
        else joinSep ['/'] (List.replicate k ['.', '.'] ++ names) := by
  obtain ⟨k, rnames, hst, hv, hk⟩ := cleanStack_shape (decide (c0 = '/'))
    (splitOn '/' (c0 :: tl)) [] (splitOn_not_mem '/' _) ⟨0, [], by simp, by simp, fun _ => rfl⟩
  refine ⟨k, rnames.reverse, fun n hn => hv n (List.mem_reverse.mp hn),
    fun h => hk (by simpa using h), ?_⟩
  have hrev : ((splitOn '/' (c0 :: tl)).foldl (cleanStep (decide (c0 = '/'))) []).reverse =
      List.replicate k ['.', '.'] ++ rnames.reverse := by
    rw [hst, List.reverse_append, List.reverse_replicate]
  have hall : ∀ x ∈ List.replicate k ['.', '.'] ++ rnames.reverse, x ≠ [] := by
    intro x hx
    rcases List.mem_append.mp hx with h | h
    · rw [(List.mem_replicate.mp h).2]; simp
    · exact (validName_iff.1 (hv x (List.mem_reverse.mp h))).1
  rw [Clean_cons, hrev]
  by_cases h0 : c0 = '/'
  · simp [h0]
  · simp only [h0, decide_False, Bool.false_eq_true, ↓reduceIte]
    have hiff := joinSep_nil_iff_of_nonempty _ hall
    by_cases hz : k + rnames.reverse.length = 0
    · have hk0 : k = 0 := by omega
      have hn0 : rnames.reverse = [] := List.length_eq_zero.mp (by omega)
      simp [hk0, hn0, joinSep]
    · have hne : List.replicate k ['.', '.'] ++ rnames.reverse ≠ [] := by
        intro hnil
        have := congrArg List.length hnil
        rw [List.length_append, List.length_replicate, List.length_nil] at this
        exact hz this
      have hj : joinSep ['/'] (List.replicate k ['.', '.'] ++ rnames.reverse) ≠ [] :=
        fun h => hne (hiff.1 h)
      rw [if_neg hj, if_neg hz]

/-- The normal form of a body is a path in clean relative form. -/
theorem cleanRelative_shape (b : Str) (hb : b ≠ []) : IsCleanRelative (cleanRelative b) := by
  cases b with
  | nil => exact absurd rfl hb
  | cons c0 tl =>
    obtain ⟨k, names, hv, hk, hclean⟩ := Clean_shape c0 tl
    have hall : ∀ x ∈ List.replicate k ['.', '.'] ++ names, x ≠ [] ∧ '/' ∉ x := by
      intro x hx
      rcases List.mem_append.mp hx with h | h
      · rw [(List.mem_replicate.mp h).2]; simp
      · exact ⟨(validName_iff.1 (hv x h)).1, (validName_iff.1 (hv x h)).2.1⟩
    rw [cleanRelative, hclean]
    by_cases h0 : c0 = '/'
    · have hk0 := hk h0
      subst hk0
      simp only [h0, ↓reduceIte, List.replicate_zero, List.nil_append]
      by_cases hn : names = []
      · subst hn
        left
        simp [joinSep]
      · right; right
        have hbody : joinSep ['/'] names ≠ [] := by
          rw [ne_eq, joinSep_nil_iff_of_nonempty names (fun x hx => (validName_iff.1 (hv x hx)).1)]
          exact hn
        have hlen : 1 < ('/' :: joinSep ['/'] names).length := by
          have := List.length_pos.mpr hbody
          simp; omega
        refine ⟨0, names, by simpa using List.length_pos.mpr hn, hv, ?_⟩
        simp [hlen, startsWith, trimStart, hbody]
    · simp only [h0, ↓reduceIte]
      by_cases hz : k + names.length = 0
      · right; left
        simp [hz, startsWith]
      · right; right
        have hne : List.replicate k ['.', '.'] ++ names ≠ [] := by
          intro hnil
          have := congrArg List.length hnil
          rw [List.length_append, List.length_replicate, List.length_nil] at this
          exact hz this
        refine ⟨k, names, by omega, hv, ?_⟩
        simp only [hz, ↓reduceIte]
        rw [joinSep_head _ hne hall]
        simp

/-- What the line loop makes of a line given by its body, and of the same
body after the mark of an inverting pattern. -/
theorem normaliseLine_body (first : Bool) (b : Str) (hb : b ≠ []) (htrim : TrimSpace b = b)
    (hmark : startsWith b invertMark = false) (hhash : b ≠ ['#'])
    (hbom : first = true → startsWith b [bomChar] = false) :
    normaliseLine first b = some (cleanRelative b) ∧
      normaliseLine first ('!' :: b) = some ('!' :: cleanRelative b) := by
  have hlen : 0 < b.length := List.length_pos.mpr hb
  constructor
  · have h1 : (if first = true then trimStart b [bomChar] else b) = b := by
      cases first with
      | false => rfl
      | true => simp [trimStart, hbom rfl]
    have h2 : startsWith ['#'] b = false := by
      rw [Bool.eq_false_iff, ne_eq, startsWith_hash]
      exact fun h => h.elim hb hhash
    simp only [normaliseLine, h1, htrim, h2, hb, hmark, hlen, cleanRelative]
    simp [hb]
  · have h1 : (if first = true then trimStart ('!' :: b) [bomChar] else '!' :: b) = '!' :: b := by
      cases first with
      | false => rfl
      | true =>
        have : startsWith ('!' :: b) [bomChar] = false := by
          simp [startsWith]; decide
        simp [trimStart, this]
    have h2 : startsWith ['#'] ('!' :: b) = false := by
      rw [Bool.eq_false_iff, ne_eq, startsWith_hash]
      simp
    have h3 : startsWith ('!' :: b) invertMark = true := by simp [startsWith, invertMark]
    have h4 : trimStart ('!' :: b) invertMark = b := by
      rw [trimStart, if_pos h3]
      rfl
    simp only [normaliseLine, h1, TrimSpace_mark b hb htrim, h2, h3, h4, hlen, cleanRelative]
    simp [invertMark, hb]


/-! ### The normal form in the words of the specification -/

theorem foldl_cleanStep_filter (rooted : Bool) (comps : List Str) :
    ∀ stack : List Str,
      comps.foldl (cleanStep rooted) stack =
        (comps.filter fun s => decide (s ≠ [] ∧ s ≠ ['.'])).foldl (cleanStep rooted) stack := by
  induction comps with
  | nil => intro stack; rfl
  | cons c cs ih =>
    intro stack
    by_cases hc : c ≠ [] ∧ c ≠ ['.']
    · rw [List.filter_cons_of_pos (by simpa using hc), List.foldl_cons, List.foldl_cons, ih]
    · rw [List.filter_cons_of_neg (by simpa using hc), List.foldl_cons, ← ih]
      have hskip : cleanStep rooted stack c = stack := by
        have : c = [] ∨ c = ['.'] := by
          by_contra h
          rw [not_or] at h
          exact hc h
        rw [cleanStep.eq_def, if_pos this]
      rw [hskip]

theorem cleanStep_up_name (rooted : Bool) (stack : List Str) {x : Str}
    (hx : validName x = true) : cleanStep rooted (x :: stack) ['.', '.'] = stack := by
  have hne : x ≠ ['.', '.'] := (validName_iff.1 hx).2.2.2
  simp [cleanStep, hne]

/-- The left-to-right stack of `filepath.Clean` against the resolution read
from the right: what stays, on top of the stack after as many `..` steps as
found nothing to remove further right. -/
theorem foldl_cleanStep_resolveUp (rooted : Bool) (xs : List Str)
    (hxs : ∀ x ∈ xs, x = ['.', '.'] ∨ validName x = true) :
    ∀ stack : List Str,
      xs.foldl (cleanStep rooted) stack =
        (resolveUp xs).1.reverse ++
          (fun s => cleanStep rooted s ['.', '.'])^[(resolveUp xs).2] stack := by
  induction xs with
  | nil => intro stack; simp [resolveUp]
  | cons x rest ih =>
    intro stack
    have hrest := ih (fun y hy => hxs y (List.mem_cons_of_mem _ hy))
    rw [List.foldl_cons, hrest, resolveUp]
    by_cases hx : x = ['.', '.']
    · subst hx
      simp only [↓reduceIte, Function.iterate_succ, Function.comp_apply]
    · have hv : validName x = true := (hxs x (List.mem_cons_self _ _)).resolve_left hx
      rw [cleanStep_valid rooted stack hv]
      simp only [hx, ↓reduceIte]
      by_cases hk : 0 < (resolveUp rest).2
      · obtain ⟨k, hk1⟩ : ∃ k, (resolveUp rest).2 = k + 1 := ⟨(resolveUp rest).2 - 1, by omega⟩
        rw [if_pos hk, hk1]
        simp only [Function.iterate_succ, Function.comp_apply,
          cleanStep_up_name rooted stack hv, Nat.add_sub_cancel]
      · have hk0 : (resolveUp rest).2 = 0 := by omega
        rw [if_neg hk, hk0]
        simp

theorem iterate_up_nil (rooted : Bool) (k : Nat) :
    (fun s => cleanStep rooted s ['.', '.'])^[k] [] =
      if rooted = true then [] else List.replicate k ['.', '.'] := by
  cases rooted with
  | true =>
    induction k with
    | zero => rfl
    | succ k ih =>
      rw [Function.iterate_succ_apply]
      simpa [cleanStep] using ih
  | false =>
    have key : ∀ (k j : Nat), (fun s => cleanStep false s ['.', '.'])^[k]
        (List.replicate j ['.', '.']) = List.replicate (j + k) ['.', '.'] := by
      intro k
      induction k with
      | zero => intro j; rfl
      | succ k ih =>
        intro j
        rw [Function.iterate_succ_apply]
        have hstep : cleanStep false (List.replicate j ['.', '.']) ['.', '.'] =
            List.replicate (j + 1) ['.', '.'] := by
          cases j with
          | zero => simp [cleanStep]
          | succ j => simp [cleanStep, List.replicate_succ]
        rw [hstep, ih (j + 1)]
        congr 1
        omega
    have := key k 0
    simpa using this

theorem specSegments_mem (body : Str) :
    ∀ x ∈ specSegments body, x = ['.', '.'] ∨ validName x = true := by
  intro x hx
  rw [specSegments, List.mem_filter] at hx
  obtain ⟨hmem, hkeep⟩ := hx
  have hk : x ≠ [] ∧ x ≠ ['.'] := by simpa using hkeep
  by_cases hdd : x = ['.', '.']
  · exact Or.inl hdd
  · right
    rw [validName_iff]
    exact ⟨hk.1, splitOn_not_mem '/' body x hmem, hk.2, hdd⟩

theorem resolveUp_valid (xs : List Str)
    (hxs : ∀ x ∈ xs, x = ['.', '.'] ∨ validName x = true) :
    ∀ y ∈ (resolveUp xs).1, validName y = true := by
  induction xs with
  | nil => intro y hy; simp [resolveUp] at hy
  | cons x rest ih =>
    intro y hy
    have hrest := ih (fun z hz => hxs z (List.mem_cons_of_mem _ hz))
    rw [resolveUp] at hy
    by_cases hx : x = ['.', '.']
    · simp only [hx, ↓reduceIte] at hy
      exact hrest y hy
    · simp only [hx, ↓reduceIte] at hy
      by_cases hk : 0 < (resolveUp rest).2
      · simp only [hk, ↓reduceIte] at hy
        exact hrest y hy
      · simp only [hk, ↓reduceIte] at hy
        rcases List.mem_cons.mp hy with rfl | hy
        · exact (hxs _ (List.mem_cons_self _ _)).resolve_left hx
        · exact hrest y hy

/-- The elements `filepath.Clean` joins are those the specification names. -/
theorem Clean_stack_spec (c0 : Char) (tl : Str) :
    ((splitOn '/' (c0 :: tl)).foldl (cleanStep (decide (c0 = '/'))) []).reverse =
      (if c0 = '/' then [] else
          List.replicate (resolveUp (specSegments (c0 :: tl))).2 ['.', '.']) ++
        (resolveUp (specSegments (c0 :: tl))).1 := by
  rw [foldl_cleanStep_filter, ← specSegments,
    foldl_cleanStep_resolveUp _ _ (specSegments_mem _), iterate_up_nil, List.reverse_append,
    List.reverse_reverse]
  by_cases h0 : c0 = '/'
  · simp [h0]
  · simp [h0, List.reverse_replicate]

/-- The normal form the code computes is the normal form in the words of the
specification. -/
theorem cleanRelative_eq_spec (b : Str) (hb : b ≠ []) : cleanRelative b = specNormalForm b := by
  cases b with
  | nil => exact absurd rfl hb
  | cons c0 tl =>
    have hstack := Clean_stack_spec c0 tl
    have hvalid := resolveUp_valid _ (specSegments_mem (c0 :: tl))
    have hall : ∀ x ∈ (if c0 = '/' then [] else
          List.replicate (resolveUp (specSegments (c0 :: tl))).2 ['.', '.']) ++
        (resolveUp (specSegments (c0 :: tl))).1, x ≠ [] ∧ '/' ∉ x := by
      intro x hx
      rcases List.mem_append.mp hx with h | h
      · split at h
        · simp at h
        · rw [(List.mem_replicate.mp h).2]; simp
      · exact ⟨(validName_iff.1 (hvalid x h)).1, (validName_iff.1 (hvalid x h)).2.1⟩
    have hrooted : startsWith (c0 :: tl) ['/'] = decide (c0 = '/') := by
      simp [startsWith]
    rw [cleanRelative, specNormalForm, Clean_cons, hstack, hrooted]
    generalize hsegs : ((if c0 = '/' then [] else
          List.replicate (resolveUp (specSegments (c0 :: tl))).2 ['.', '.']) ++
        (resolveUp (specSegments (c0 :: tl))).1) = segs at hall
    have hsegs' : ((if decide (c0 = '/') = true then [] else
          List.replicate (resolveUp (specSegments (c0 :: tl))).2 ['.', '.']) ++
        (resolveUp (specSegments (c0 :: tl))).1) = segs := by
      rw [← hsegs]; by_cases h0 : c0 = '/' <;> simp [h0]
    simp only [hsegs']
    have hnil := joinSep_nil_iff_of_nonempty segs (fun x hx => (hall x hx).1)
    by_cases h0 : c0 = '/'
    · simp only [h0, decide_True, ↓reduceIte]
      by_cases hs : segs = []
      · subst hs
        simp [joinSep]
      · have hbody : joinSep ['/'] segs ≠ [] := fun h => hs (hnil.1 h)
        have hlen : 1 < ('/' :: joinSep ['/'] segs).length := by
          have := List.length_pos.mpr hbody
          simp; omega
        simp [hlen, startsWith, trimStart, hbody, hs]
    · simp only [h0, decide_False, Bool.false_eq_true, ↓reduceIte]
      by_cases hs : segs = []
      · subst hs
        simp [joinSep, startsWith]
      · have hbody : joinSep ['/'] segs ≠ [] := fun h => hs (hnil.1 h)
        rw [if_neg hbody, joinSep_head segs hs hall]
        simp [hs]



/-! ### A second walk over the same tree -/

theorem appendIfNotExist_of_mem {incl : List Str} {r : Str} (h : r ∈ incl) :
    appendIfNotExist incl r = incl := by
  simp [appendIfNotExist, h]

theorem setInsert_of_mem {s : List Str} {r : Str} (h : r ∈ s) : setInsert s r = s := by
  simp [setInsert, h]

/-- Appending matches that are all in the list already changes nothing. -/
theorem appendMatches_stable (D : Str) (ms : List Str) :
    ∀ (incl incl2 : List Str), (∀ x ∈ (appendMatches D ms incl).1, x ∈ incl2) →
      appendMatches D ms incl2 = (incl2, (appendMatches D ms incl).2) := by
  induction ms with
  | nil => intro incl incl2 _; simp [appendMatches]
  | cons m ms ih =>
    intro incl incl2 h
    rw [appendMatches] at h
    rw [appendMatches, appendMatches]
    cases hrel : Rel D m with
    | error e => simp
    | ok rel =>
      rw [hrel] at h
      simp only at h ⊢
      have hmem : rel ∈ incl2 :=
        h rel (appendMatches_mono D ms _ rel ((mem_appendIfNotExist _ _ _).2 (Or.inr rfl)))
      rw [appendIfNotExist_of_mem hmem]
      exact ih _ incl2 h

theorem ite_loopState (c : Bool) (A B : LoopState) (incl2 : List Str) :
    (if c = true then (⟨A.isExcluded, A.isTransitive, incl2⟩ : LoopState)
      else ⟨B.isExcluded, B.isTransitive, incl2⟩) =
      ⟨(if c = true then A else B).isExcluded, (if c = true then A else B).isTransitive,
        incl2⟩ := by
  cases c <;> rfl

/-- The loop of `scanDir` over the patterns, run again on an include list
that holds what the first run left and on an excluded-directory set that
agrees on the parent of the path: same flags, same error, nothing added. -/
theorem scanPatterns_stable (D : Str) (X X2 : List Str) (P : Str) (d : Dirent)
    (hX : Dir P ∈ X2 ↔ Dir P ∈ X) (pats : List FileIgnorePattern) :
    ∀ (ls : LoopState) (incl2 : List Str),
      (∀ x ∈ (scanPatterns D X P d pats ls).1.includes, x ∈ incl2) →
      scanPatterns D X2 P d pats ⟨ls.isExcluded, ls.isTransitive, incl2⟩ =
        (⟨(scanPatterns D X P d pats ls).1.isExcluded,
          (scanPatterns D X P d pats ls).1.isTransitive, incl2⟩,
          (scanPatterns D X P d pats ls).2) := by
  induction pats with
  | nil => intro ls incl2 _; simp [scanPatterns]
  | cons p rest ih =>
    intro ls incl2 h
    rw [scanPatterns] at h
    rw [scanPatterns, scanPatterns]
    by_cases hc : (!p.Invert) = true ∧ Dir P ∈ X
    · have hc2 : (!p.Invert) = true ∧ Dir P ∈ X2 := ⟨hc.1, hX.2 hc.2⟩
      rw [if_pos hc] at h
      rw [if_pos hc, if_pos hc2]
      exact ih { ls with isExcluded := true } incl2 h
    · have hc2 : ¬ ((!p.Invert) = true ∧ Dir P ∈ X2) := fun hh => hc ⟨hh.1, hX.1 hh.2⟩
      rw [if_neg hc] at h
      rw [if_neg hc, if_neg hc2]
      simp only at h ⊢
      by_cases hne : FindAllString p.RegexPattern P ≠ []
      · by_cases hinv : p.Invert = true
        · have hm : FindAllString p.RegexPattern P ≠ [] ∧ p.Invert = true := ⟨hne, hinv⟩
          rw [if_pos hm, if_pos hne] at h
          rw [if_pos hm, if_pos hne, if_pos hm, if_pos hne]
          simp only at h ⊢
          cases ha : appendMatches D (FindAllString p.RegexPattern P) ls.includes with
          | mk incl1 oe =>
            rw [ha] at h
            simp only at h
            have hsub : ∀ x ∈ incl1, x ∈ incl2 := by
              intro x hx
              cases oe with
              | some e => exact h x hx
              | none =>
                apply h x
                apply scanPatterns_mono
                split <;> exact hx
            have hst := appendMatches_stable D (FindAllString p.RegexPattern P) ls.includes
              incl2 (by rw [ha]; exact hsub)
            rw [hst, ha]
            cases oe with
            | some e => rfl
            | none =>
              simp only at h ⊢
              have key := ih _ incl2 h
              rw [← ite_loopState] at key
              exact key
        · have hm : ¬ (FindAllString p.RegexPattern P ≠ [] ∧ p.Invert = true) :=
            fun hh => hinv hh.2
          rw [if_neg hm, if_pos hne] at h
          rw [if_neg hm, if_pos hne, if_neg hm, if_pos hne]
          simp only at h ⊢
          have key := ih _ incl2 h
          rw [← ite_loopState] at key
          exact key
      · have hm : ¬ (FindAllString p.RegexPattern P ≠ [] ∧ p.Invert = true) :=
          fun hh => hne hh.1
        rw [if_neg hm, if_neg hne] at h
        rw [if_neg hm, if_neg hne, if_neg hm, if_neg hne]
        simp only at h ⊢
        have key := ih _ incl2 h
        rw [← ite_loopState] at key
        exact key

theorem scanDir_keeps_loop (g : Globals) (P : Str) (d : Dirent) (hroot : P ≠ g.directory)
    (hname : d.name ∉ defaultPatterns) :
    ∀ x ∈ (scanPatterns g.directory g.excludedDirs P d g.ignorePatterns
        ⟨false, false, g.includes⟩).1.includes, x ∈ (scanDir g P d).2.includes := by
  intro x hx
  rw [scanDir]
  simp only [hroot, ↓reduceIte, hname]
  cases hsp : scanPatterns g.directory g.excludedDirs P d g.ignorePatterns
    ⟨false, false, g.includes⟩ with
  | mk ls oe =>
    rw [hsp] at hx
    cases oe with
    | some e => exact hx
    | none =>
      simp only
      by_cases hex : ls.isExcluded = true
      · simp only [hex, ↓reduceIte]
        split <;> exact hx
      · simp only [hex, Bool.false_eq_true, ↓reduceIte]
        cases hrel : Rel g.directory P with
        | error e => exact hx
        | ok rel => exact (mem_appendIfNotExist _ _ _).2 (Or.inl hx)

/-- The callback run again in a later state that holds what the first run
left and agrees on the parent of the path: same signal, nothing changes. -/
theorem scanDir_stable (g g2 : Globals) (P : Str) (d : Dirent)
    (hl : Later (scanDir g P d).2 g2)
    (hX : Dir P ∈ g2.excludedDirs → Dir P ∈ g.excludedDirs) :
    scanDir g2 P d = ((scanDir g P d).1, g2) := by
  have hl0 := scanDir_later g P d
  have hdir : g2.directory = g.directory := hl.1.trans hl0.1
  have hpats : g2.ignorePatterns = g.ignorePatterns := hl.2.1.trans hl0.2.1
  have hXiff : Dir P ∈ g2.excludedDirs ↔ Dir P ∈ g.excludedDirs :=
    ⟨hX, fun h => hl.2.2.2.2 _ (hl0.2.2.2.2 _ h)⟩
  obtain ⟨d2, i2, p2, r2, x2⟩ := g2
  simp only at hdir hpats hXiff
  subst hdir hpats
  by_cases hroot : P = g.directory
  · simp [scanDir, hroot]
  by_cases hname : d.name ∈ defaultPatterns
  · simp [scanDir, hroot, hname]
  have hkeep := scanDir_keeps_loop g P d hroot hname
  have hst := scanPatterns_stable g.directory g.excludedDirs x2 P d hXiff
    g.ignorePatterns ⟨false, false, g.includes⟩ i2
    (fun x hx => hl.2.2.2.1 x (hkeep x hx))
  rw [scanDir] at hl
  rw [scanDir, scanDir]
  simp only [hroot, ↓reduceIte, hname] at hl ⊢
  rw [hst]
  cases hsp : scanPatterns g.directory g.excludedDirs P d g.ignorePatterns
    ⟨false, false, g.includes⟩ with
  | mk ls oe =>
    rw [hsp] at hl
    cases oe with
    | some e => rfl
    | none =>
      simp only at hl ⊢
      by_cases hex : ls.isExcluded = true
      · simp only [hex, ↓reduceIte] at hl ⊢
        have hins : (if d.isDir = true then setInsert x2 P else x2) = x2 := by
          by_cases hd : d.isDir = true
          · simp only [hd, ↓reduceIte]
            apply setInsert_of_mem
            have hP : P ∈ (if (d.isDir && !ls.isTransitive) = true then
                (Signal.skipThis, { g with
                  includes := ls.includes
                  excludedDirs := if d.isDir = true then setInsert g.excludedDirs P
                    else g.excludedDirs })
                else (Signal.ok, { g with
                  includes := ls.includes
                  excludedDirs := if d.isDir = true then setInsert g.excludedDirs P
                    else g.excludedDirs })).2.excludedDirs := by
              split <;> simp [hd, mem_setInsert]
            exact hl.2.2.2.2 P hP
          · simp [hd]
        rw [hins]
        split <;> rfl
      · simp only [hex, Bool.false_eq_true, ↓reduceIte] at hl ⊢
        cases hrel : Rel g.directory P with
        | error e => rfl
        | ok rel =>
          rw [hrel] at hl
          simp only at hl ⊢
          have hmem : rel ∈ i2 :=
            hl.2.2.2.1 rel ((mem_appendIfNotExist _ _ _).2 (Or.inr rfl))
          rw [appendIfNotExist_of_mem hmem]

theorem scanDir_excluded_sub (g : Globals) (P : Str) (d : Dirent) :
    ∀ x ∈ (scanDir g P d).2.excludedDirs, x ∈ g.excludedDirs ∨ x = P := by
  intro x hx
  rw [scanDir] at hx
  by_cases hroot : P = g.directory
  · rw [if_pos hroot] at hx; exact Or.inl hx
  rw [if_neg hroot] at hx
  by_cases hname : d.name ∈ defaultPatterns
  · rw [if_pos hname] at hx; exact Or.inl hx
  rw [if_neg hname] at hx
  cases hsp : scanPatterns g.directory g.excludedDirs P d g.ignorePatterns
    ⟨false, false, g.includes⟩ with
  | mk ls oe =>
    rw [hsp] at hx
    cases oe with
    | some e => exact Or.inl hx
    | none =>
      simp only at hx
      by_cases hex : ls.isExcluded = true
      · simp only [hex, ↓reduceIte] at hx
        have hx' : x ∈ (if d.isDir = true then setInsert g.excludedDirs P
            else g.excludedDirs) := by
          split at hx <;> exact hx
        split at hx'
        · exact (mem_setInsert _ _ _).1 hx'
        · exact Or.inl hx'
      · simp only [hex, Bool.false_eq_true, ↓reduceIte] at hx
        cases hrel : Rel g.directory P with
        | error e => rw [hrel] at hx; exact Or.inl hx
        | ok rel => rw [hrel] at hx; exact Or.inl hx

theorem pathOf_append (D : Str) (ms qs : List Str) :
    pathOf D (ms ++ qs) = pathOf D ms ++ (qs.map fun n => '/' :: n).flatten := by
  simp [pathOf]

/-- A path further down is not the path of the directory above it. -/
theorem pathOf_below_ne (D : Str) (ms : List Str) (c : Str) (qs : List Str) :
    pathOf D (ms ++ c :: qs) ≠ pathOf D ms := by
  intro h
  have := congrArg List.length h
  rw [pathOf_append] at this
  simp at this

theorem takeWhile_notSep_seg (a : Str) (qs : List Str) (ha : '/' ∉ a) :
    (a ++ (qs.map fun n => '/' :: n).flatten).takeWhile notSep = a := by
  have hall : a.takeWhile notSep = a := by
    rw [List.takeWhile_eq_self_iff]
    intro c hc
    have : c ≠ '/' := fun e => ha (e ▸ hc)
    simp [notSep, isSep, this]
  cases qs with
  | nil => simpa using hall
  | cons q rest =>
    simp only [List.map_cons, List.flatten_cons, List.cons_append]
    rw [takeWhile_append_stop notSep a '/' _ notSep_sep, hall]

/-- The paths below two entries of one directory that bear different names
are different. -/
theorem pathOf_sibling_inj (D : Str) (ms : List Str) (a b : Str) (qs qs2 : List Str)
    (ha : '/' ∉ a) (hb : '/' ∉ b)
    (h : pathOf D (ms ++ [a] ++ qs) = pathOf D (ms ++ [b] ++ qs2)) : a = b := by
  rw [List.append_assoc, List.append_assoc, pathOf_append, pathOf_append] at h
  have h1 := List.append_cancel_left h
  simp only [List.singleton_append, List.map_cons, List.flatten_cons, List.cons_append,
    List.cons.injEq, true_and, List.nil_append] at h1
  have h2 := congrArg (List.takeWhile notSep) h1
  rwa [takeWhile_notSep_seg a qs ha, takeWhile_notSep_seg b qs2 hb] at h2

/-- The walk of an entry adds to the excluded-directory set only the path of
the entry and paths below it. -/
theorem walk_inserts_below (D : Str) (hD : goodDir D = true) (node : Node) (ms : List Str)
    (g : Globals) (hv : node.all validName = true) (hms : ∀ m ∈ ms, validName m = true) :
    ∀ x ∈ (walk g (pathOf D (ms ++ [node.name])) node).2.excludedDirs,
      x ∈ g.excludedDirs ∨ ∃ qs, x = pathOf D (ms ++ [node.name] ++ qs) := by
  refine walk_invariant D hD validName (fun _ h => h)
    (fun g1 => ∀ x ∈ g1.excludedDirs,
      x ∈ g.excludedDirs ∨ ∃ qs, x = pathOf D (ms ++ [node.name] ++ qs))
    (fun chain _ => ∃ qs, chain = ms ++ [node.name] ++ qs)
    ?_ ?_ ?_ node ms g hv hms (fun x hx => Or.inl hx) ⟨[], by simp⟩
  · intro g1 ms1 n isDir _ _ hI hA x hx
    rcases scanDir_excluded_sub g1 _ _ x hx with h | h
    · exact hI x h
    · obtain ⟨qs, hqs⟩ := hA
      exact Or.inr ⟨qs, by rw [h, hqs]⟩
  · intro g1 ms1 n c _ _ _ _ hA _
    obtain ⟨qs, hqs⟩ := hA
    exact ⟨qs ++ [c], by rw [hqs, List.append_assoc]⟩
  · intro _ _ _ hA _
    exact hA

/-- The walk of the entries of a directory adds to the excluded-directory set
only paths of these entries and paths below them. -/
theorem walkChildren_inserts_below (D : Str) (hD : goodDir D = true) :
    ∀ (kids : List Node) (ms : List Str) (g : Globals), kidsAll validName kids = true →
      (∀ m ∈ ms, validName m = true) →
      ∀ x ∈ (walkChildren g (pathOf D ms) kids).2.excludedDirs,
        x ∈ g.excludedDirs ∨ ∃ k ∈ kids, ∃ qs, x = pathOf D (ms ++ [k.name] ++ qs) := by
  intro kids
  induction kids with
  | nil => intro ms g _ _ x hx; rw [walkChildren] at hx; exact Or.inl hx
  | cons k ks ih =>
    intro ms g hv hms x hx
    simp only [kidsAll, Bool.and_eq_true] at hv
    have hk : validName k.name = true := Node.all_name validName k hv.1
    have hjoin : Join [pathOf D ms, k.name] = pathOf D (ms ++ [k.name]) :=
      Join_pathOf D ms k.name hD hms hk
    rw [walkChildren, hjoin] at hx
    have hwk := walk_inserts_below D hD k ms g hv.1 hms
    have hfirst : ∀ y ∈ (walk g (pathOf D (ms ++ [k.name])) k).2.excludedDirs,
        y ∈ g.excludedDirs ∨ ∃ k2 ∈ k :: ks, ∃ qs, y = pathOf D (ms ++ [k2.name] ++ qs) := by
      intro y hy
      rcases hwk y hy with h | ⟨qs, hqs⟩
      · exact Or.inl h
      · exact Or.inr ⟨k, List.mem_cons_self _ _, qs, hqs⟩
    cases hw : walk g (pathOf D (ms ++ [k.name])) k with
    | mk sig g1 =>
      rw [hw] at hx hfirst
      have hrest : x ∈ (walkChildren g1 (pathOf D ms) ks).2.excludedDirs →
          x ∈ g.excludedDirs ∨ ∃ k2 ∈ k :: ks, ∃ qs, x = pathOf D (ms ++ [k2.name] ++ qs) := by
        intro hx2
        rcases ih ms g1 hv.2 hms x hx2 with h | ⟨k2, hk2, qs, hqs⟩
        · exact hfirst x h
        · exact Or.inr ⟨k2, List.mem_cons_of_mem _ hk2, qs, hqs⟩
      cases sig with
      | ok => exact hrest hx
      | skipThis => exact hrest hx
      | err e => exact hfirst x hx


mutual
/-- The walk of an entry run again in a later state: when the later state
holds what the first walk left, agrees with the first state on the parent
directory and has no excluded directory at or below the entry beyond those
the first walk recorded, the second walk gives the same signal and changes
nothing. -/
theorem walk_stable (D : Str) (hD : goodDir D = true) :
    ∀ (node : Node) (ms : List Str) (g g2 : Globals), node.all validName = true →
      node.distinct = true → (∀ m ∈ ms, validName m = true) →
      Later (walk g (pathOf D (ms ++ [node.name])) node).2 g2 →
      (pathOf D ms ∈ g2.excludedDirs → pathOf D ms ∈ g.excludedDirs) →
      (∀ qs, pathOf D (ms ++ [node.name] ++ qs) ∈ g2.excludedDirs →
        pathOf D (ms ++ [node.name] ++ qs) ∈
          (walk g (pathOf D (ms ++ [node.name])) node).2.excludedDirs) →
      walk g2 (pathOf D (ms ++ [node.name])) node =
        ((walk g (pathOf D (ms ++ [node.name])) node).1, g2)
  | .file name, ms, g, g2, hv, _, hms, hl, hpar, _ => by
    have hn : validName name = true := by simpa [Node.all] using hv
    simp only [Node.name, walk] at hl ⊢
    exact scanDir_stable g g2 _ _ hl (by rw [Dir_pathOf D ms name hD hms hn]; exact hpar)
  | .dir name kids, ms, g, g2, hv, hdis, hms, hl, hpar, hsub => by
    simp only [Node.all, Bool.and_eq_true] at hv
    simp only [Node.distinct] at hdis
    simp only [Node.name] at hl hsub ⊢
    have hdirP : Dir (pathOf D (ms ++ [name])) = pathOf D ms := Dir_pathOf D ms name hD hms hv.1
    have hms1 : ∀ m ∈ ms ++ [name], validName m = true := by
      intro m hm
      rcases List.mem_append.mp hm with h | h
      · exact hms m h
      · rw [List.mem_singleton.mp h]; exact hv.1
    rw [walk] at hl hsub
    rw [walk, walk]
    cases hsd : scanDir g (pathOf D (ms ++ [name])) ⟨name, true⟩ with
    | mk sig g0 =>
      rw [hsd] at hl hsub
      have hsd0 : (scanDir g (pathOf D (ms ++ [name])) ⟨name, true⟩).2 = g0 := by rw [hsd]
      have hsig : (scanDir g (pathOf D (ms ++ [name])) ⟨name, true⟩).1 = sig := by rw [hsd]
      cases sig with
      | ok =>
        simp only at hl hsub ⊢
        have hl0 : Later g0 g2 := (walkChildren_later g0 _ kids).trans hl
        have hs2 := scanDir_stable g g2 (pathOf D (ms ++ [name])) ⟨name, true⟩
          (by rw [hsd0]; exact hl0) (by rw [hdirP]; exact hpar)
        rw [hs2, hsig]
        simp only
        refine walkChildren_stable D hD kids (ms ++ [name]) g0 g2 hv.2 hdis hms1 hl ?_ ?_
        · intro hP
          have h1 := hsub [] (by simpa using hP)
          rcases walkChildren_inserts_below D hD kids (ms ++ [name]) g0 hv.2 hms1 _ h1 with
            h | ⟨k, _, qs, hq⟩
          · simpa using h
          · rw [List.append_nil, List.append_assoc, List.singleton_append] at hq
            exact absurd hq.symm (pathOf_below_ne D (ms ++ [name]) k.name qs)
        · intro k _ qs hq
          have := hsub ([k.name] ++ qs) (by simpa [List.append_assoc] using hq)
          simpa [List.append_assoc] using this
      | skipThis =>
        simp only at hl ⊢
        have hs2 := scanDir_stable g g2 (pathOf D (ms ++ [name])) ⟨name, true⟩
          (by rw [hsd0]; exact hl) (by rw [hdirP]; exact hpar)
        rw [hs2, hsig]
      | err e =>
        simp only at hl ⊢
        have hs2 := scanDir_stable g g2 (pathOf D (ms ++ [name])) ⟨name, true⟩
          (by rw [hsd0]; exact hl) (by rw [hdirP]; exact hpar)
        rw [hs2, hsig]
/-- The same for the walk of the entries of a directory. -/
theorem walkChildren_stable (D : Str) (hD : goodDir D = true) :
    ∀ (kids : List Node) (ms : List Str) (g g2 : Globals), kidsAll validName kids = true →
      kidsDistinct kids = true → (∀ m ∈ ms, validName m = true) →
      Later (walkChildren g (pathOf D ms) kids).2 g2 →
      (pathOf D ms ∈ g2.excludedDirs → pathOf D ms ∈ g.excludedDirs) →
      (∀ k ∈ kids, ∀ qs, pathOf D (ms ++ [k.name] ++ qs) ∈ g2.excludedDirs →
        pathOf D (ms ++ [k.name] ++ qs) ∈ (walkChildren g (pathOf D ms) kids).2.excludedDirs) →
      walkChildren g2 (pathOf D ms) kids = ((walkChildren g (pathOf D ms) kids).1, g2)
  | [], ms, g, g2, _, _, _, _, _, _ => by
    simp [walkChildren]
  | k :: ks, ms, g, g2, hv, hdis, hms, hl, hpar, hsub => by
    simp only [kidsAll, Bool.and_eq_true] at hv
    simp only [kidsDistinct, Bool.and_eq_true, decide_eq_true_eq] at hdis
    have hk : validName k.name = true := Node.all_name validName k hv.1
    have hjoin : Join [pathOf D ms, k.name] = pathOf D (ms ++ [k.name]) :=
      Join_pathOf D ms k.name hD hms hk
    rw [walkChildren, hjoin] at hl hsub
    rw [walkChildren, walkChildren, hjoin]
    have hlk := walk_later g (pathOf D (ms ++ [k.name])) k
    cases hw : walk g (pathOf D (ms ++ [k.name])) k with
    | mk sk gk =>
      rw [hw] at hl hsub hlk
      have hw2 : (walk g (pathOf D (ms ++ [k.name])) k).2 = gk := by rw [hw]
      have hw1 : (walk g (pathOf D (ms ++ [k.name])) k).1 = sk := by rw [hw]
      have hrest : (∀ e, sk ≠ .err e) →
          Later (walkChildren gk (pathOf D ms) ks).2 g2 →
          (∀ k2 ∈ k :: ks, ∀ qs, pathOf D (ms ++ [k2.name] ++ qs) ∈ g2.excludedDirs →
            pathOf D (ms ++ [k2.name] ++ qs) ∈
              (walkChildren gk (pathOf D ms) ks).2.excludedDirs) →
          walk g2 (pathOf D (ms ++ [k.name])) k = (sk, g2) ∧
            walkChildren g2 (pathOf D ms) ks = ((walkChildren gk (pathOf D ms) ks).1, g2) := by
        intro _ hl1 hsub1
        constructor
        · have := walk_stable D hD k ms g g2 hv.1 hdis.1.1 hms
            (by rw [hw2]; exact (walkChildren_later gk _ ks).trans hl1) hpar
            (by
              intro qs hq
              rw [hw2]
              have h1 := hsub1 k (List.mem_cons_self _ _) qs hq
              rcases walkChildren_inserts_below D hD ks ms gk hv.2 hms _ h1 with
                h | ⟨k2, hk2, qs2, hq2⟩
              · exact h
              · have hk2v : validName k2.name = true :=
                  Node.all_name validName k2 (kidsAll_mem validName ks k2 hv.2 hk2)
                have hsame := pathOf_sibling_inj D ms k.name k2.name qs qs2
                  (validName_not_mem_sep hk) (validName_not_mem_sep hk2v) hq2
                exact absurd (List.mem_map.mpr ⟨k2, hk2, hsame.symm⟩) hdis.1.2)
          rw [this, hw1]
        · exact walkChildren_stable D hD ks ms gk g2 hv.2 hdis.2 hms hl1
            (fun h => hlk.2.2.2.2 _ (hpar h))
            (fun k2 hk2 qs hq => hsub1 k2 (List.mem_cons_of_mem _ hk2) qs hq)
      cases sk with
      | ok =>
        simp only at hl hsub ⊢
        obtain ⟨h1, h2⟩ := hrest (by simp) hl hsub
        rw [h1]
        exact h2
      | skipThis =>
        simp only at hl hsub ⊢
        obtain ⟨h1, h2⟩ := hrest (by simp) hl hsub
        rw [h1]
        exact h2
      | err e =>
        simp only at hl hsub ⊢
        have := walk_stable D hD k ms g g2 hv.1 hdis.1.1 hms (by rw [hw2]; exact hl) hpar
          (by
            intro qs hq
            rw [hw2]
            exact hsub k (List.mem_cons_self _ _) qs hq)
        rw [this, hw1]
end


/-- The scan of a tree under a clean base directory, in terms of the walk of
the entries of the base directory. -/
theorem Scan_full (g : Globals) (root : Node) (hD : goodDir g.directory = true) :
    Scan g root =
      match walkChildren g g.directory root.children with
      | (.err e, g1) => ((g1.includes, some e), g1)
      | (_, g1) => ((g1.includes, none), g1) := by
  have hclean := (goodDir_iff.1 hD).1
  rw [Scan]
  simp only [hclean]
  cases root with
  | file name =>
    simp [Node.rename, walk, scanDir, Node.children, walkChildren]
  | dir name kids =>
    simp only [Node.rename, walk, scanDir, ↓reduceIte, Node.children]

/-- A second scan of the same tree, started in the state the first scan
left, returns what the first scan returned and leaves the state as it is. -/
theorem Scan_twice (g : Globals) (root : Node) (hD : goodDir g.directory = true)
    (hv : kidsAll validName root.children = true)
    (hdis : kidsDistinct root.children = true) :
    Scan (Scan g root).2 root = Scan g root := by
  have hlater := walkChildren_later g g.directory root.children
  have hst := walkChildren_stable g.directory hD root.children [] g
    (walkChildren g g.directory root.children).2 hv hdis (by simp)
    (by rw [pathOf_nil]; exact Later.refl _)
    (by
      intro h
      rw [pathOf_nil] at h ⊢
      rcases walkChildren_inserts_below g.directory hD root.children [] g hv (by simp) _
        (by rw [pathOf_nil]; exact h) with h1 | ⟨k, _, qs, hq⟩
      · exact h1
      · rw [List.nil_append, List.singleton_append] at hq
        have := pathOf_below_ne g.directory [] k.name qs
        rw [List.nil_append, pathOf_nil] at this
        exact absurd hq.symm this)
    (fun _ _ _ h => by rw [pathOf_nil]; exact h)
  rw [pathOf_nil] at hst
  have hstate : (Scan g root).2 = (walkChildren g g.directory root.children).2 := by
    rw [Scan_full g root hD]
    cases hw : walkChildren g g.directory root.children with
    | mk sig g1 => cases sig <;> rfl
  have hdir : (walkChildren g g.directory root.children).2.directory = g.directory :=
    hlater.1
  rw [hstate, Scan_full _ root (by rw [hdir]; exact hD), hdir, hst, Scan_full g root hD]


/-! ### Entries an inverting pattern accepts -/

/-- What `scanDir` does with an entry that an inverting pattern accepts and
that is the parent chain of no inverting pattern. -/
theorem scanDir_inverted (g : Globals) (ms : List Str) (n : Str) (isDir : Bool)
    (hD : goodDir g.directory = true)
    (hanch : ∀ p ∈ g.ignorePatterns, p.Invert = true → isAnchored p.RegexPattern = true)
    (hms : ∀ m ∈ ms, validName m = true) (hn : validName n = true)
    (hdef : n ∉ defaultPatterns)
    (hinv : invertAccepts g.ignorePatterns (pathOf g.directory (ms ++ [n])) = true)
    (htr : transitiveAt g.directory g.ignorePatterns (pathOf g.directory (ms ++ [n])) = false) :
    scanDir g (pathOf g.directory (ms ++ [n])) ⟨n, isDir⟩ =
      (if isDir = true then .skipThis else .ok,
        { g with
          includes := appendIfNotExist g.includes (joinSep ['/'] (ms ++ [n]))
          excludedDirs :=
            if isDir = true then setInsert g.excludedDirs (pathOf g.directory (ms ++ [n]))
            else g.excludedDirs }) := by
  have hex : excludedAt g.ignorePatterns g.excludedDirs (pathOf g.directory (ms ++ [n])) =
      true := by
    simp only [excludedAt, hinv, Bool.true_or]
  rw [scanDir_at g ms n isDir hD hanch hms hn hdef, hex, hinv, htr]
  simp

theorem prefix_dropLast {α : Type} {qs ms : List α} (h : qs <+: ms) (hne : ms ≠ qs) :
    qs <+: ms.dropLast := by
  obtain ⟨t, rfl⟩ := h
  have ht : t ≠ [] := by
    intro h0
    exact hne (by rw [h0, List.append_nil])
  rw [List.dropLast_append_of_ne_nil _ ht]
  exact List.prefix_append _ _


/-! ## The claims: scenarios and counterexamples -/

/-- What the scan of the scenario returns. -/
theorem scenario_scan :
    freshScan "/proj" scenarioLines scenarioTree =
      (strs [".dockerignore", "README.md", "pom.xml", "src", "src/main", "src/main/java",
        "src/main/java/One.java", "target/foo-runner.jar", "tempABC"], none) := by
  decide!

/-- C1 (as stated) fails: the scan of the scenario does not return exactly
the expected include set with `tempABC` left out, because `tempABC` is in the
result. -/
theorem C1_counterexample :
    ¬ ((∀ r, r ∈ (freshScan "/proj" scenarioLines scenarioTree).1 ↔ r ∈ scenarioExpected) ∧
        "tempABC".toList ∉ (freshScan "/proj" scenarioLines scenarioTree).1) := by
  rw [scenario_scan]
  intro h
  exact h.2 (by decide!)

/-- C1 (amended): the scan of the scenario, started from clean state, returns
the expected include set together with `tempABC` (in walk order, without
error); `lib`, `lib/x` and `target/lib/one.jar` are not in it. -/
theorem C1_scenario_includes :
    (∀ r, r ∈ (freshScan "/proj" scenarioLines scenarioTree).1 ↔
        r ∈ scenarioExpected ∨ r = "tempABC".toList) ∧
      (freshScan "/proj" scenarioLines scenarioTree).2 = none ∧
      "lib".toList ∉ (freshScan "/proj" scenarioLines scenarioTree).1 ∧
      "lib/x".toList ∉ (freshScan "/proj" scenarioLines scenarioTree).1 ∧
      "target/lib/one.jar".toList ∉ (freshScan "/proj" scenarioLines scenarioTree).1 := by
  rw [scenario_scan]
  refine ⟨fun r => ?_, rfl, by decide!, by decide!, by decide!⟩
  simp only [scenarioExpected, strs, List.map, List.mem_cons, List.mem_singleton,
    List.not_mem_nil, or_false]
  tauto

/-- C3 fails on the code: with the ignore file `!vendor|zzz` the directory
`vendor` is skipped, as claimed, but the file `vendorX` is matched by the
inverting pattern on its first seven characters, and `scanDir` records the
matched text made relative to the base directory, `vendor`, where the entry
is `vendorX`.  The result of the scan holds the path `vendor` of the skipped
default directory, and it does not hold `vendorX`. -/
theorem C3_matched_text_is_recorded :
    scanDir (freshGlobals "/proj" ["!vendor|zzz"]) "/proj/vendor".toList
        ⟨"vendor".toList, true⟩ = (.skipThis, freshGlobals "/proj" ["!vendor|zzz"]) ∧
      (scanDir (freshGlobals "/proj" ["!vendor|zzz"]) "/proj/vendorX".toList
        ⟨"vendorX".toList, false⟩).2.includes = strs ["vendor"] ∧
      freshScan "/proj" ["!vendor|zzz"]
          (dirOf "proj" [dirOf "vendor" [fileOf "keep.txt"], fileOf "vendorX"]) =
        (strs ["vendor"], none) ∧
      "vendor".toList ∈
        (freshScan "/proj" ["!vendor|zzz"]
          (dirOf "proj" [dirOf "vendor" [fileOf "keep.txt"], fileOf "vendorX"])).1 := by
  decide!

/-- C4 (as stated) fails: with the patterns `target`, `!target` and
`!target/x` the directory `target` is matched by a non-inverting pattern and
is the parent chain of the inverting pattern `!target/x`; `scanDir` does not
skip it, but includes it. -/
theorem C4_counterexample :
    matcherAccepts "/proj".toList "target".toList "/proj/target".toList = true ∧
      (∃ p ∈ (freshGlobals "/proj" ["target", "!target", "!target/x"]).ignorePatterns,
        p.Invert = true ∧ p.Paths = some [ "target".toList ] ∧
        "/proj/target".toList = Join [ "/proj".toList, joinSep ['/'] [ "target".toList ] ]) ∧
      (scanDir (freshGlobals "/proj" ["target", "!target", "!target/x"])
        "/proj/target".toList ⟨"target".toList, true⟩).1 = .ok ∧
      "target".toList ∈
        (scanDir (freshGlobals "/proj" ["target", "!target", "!target/x"])
          "/proj/target".toList ⟨"target".toList, true⟩).2.includes := by
  decide!

/-- C5 fails on the code: with the ignore file `foo`, `!foo/bar/one.txt` the
directory `foo` is not marked transitive; `scanDir` returns the skip signal
for it and the scan result does not contain `foo/bar/one.txt`. -/
theorem C5_foo_is_skipped :
    (scanDir (freshGlobals "/proj" ["foo", "!foo/bar/one.txt"])
        "/proj/foo".toList ⟨"foo".toList, true⟩).1 = .skipThis ∧
      freshScan "/proj" ["foo", "!foo/bar/one.txt"]
        (dirOf "proj" [dirOf "foo" [dirOf "bar" [fileOf "one.txt"]]]) = ([], none) := by
  decide!

/-- C6 (as stated) fails: with the patterns `docs` and `!docs` the directory
`docs` is matched by a non-inverting pattern and is the parent chain of no
inverting pattern; `scanDir` prunes it but adds it to the include list.  The
default-named directory `vendor` is pruned without being recorded in the
excluded-directory set. -/
theorem C6_counterexample :
    matcherAccepts "/proj".toList "docs".toList "/proj/docs".toList = true ∧
      (∀ p ∈ (freshGlobals "/proj" ["docs", "!docs"]).ignorePatterns,
        p.Invert = true → p.Paths = none) ∧
      scanDir (freshGlobals "/proj" ["docs", "!docs"]) "/proj/docs".toList
          ⟨"docs".toList, true⟩ =
        (.skipThis, { freshGlobals "/proj" ["docs", "!docs"] with
          includes := [ "docs".toList ], excludedDirs := [ "/proj/docs".toList ] }) ∧
      scanDir (freshGlobals "/proj" ["docs", "!docs"]) "/proj/vendor".toList
          ⟨"vendor".toList, true⟩ =
        (.skipThis, freshGlobals "/proj" ["docs", "!docs"]) := by
  decide!

/-- C7 (as stated) fails: `*` compiles to `.*`, which does not cross a line
break, so with the patterns `*` and `!README.md` a file whose name holds a
line break is matched by no pattern and is included, though no inverting
pattern matches it. -/
theorem C7_counterexample :
    ['a', '\n', 'b'] ∈
        (freshScan "/proj" ["*", "!README.md"]
          (dirOf "proj" [fileOf "README.md", .file ['a', '\n', 'b']])).1 ∧
      ∀ p ∈ (freshGlobals "/proj" ["*", "!README.md"]).ignorePatterns,
        p.Invert = true →
          accepts p.RegexPattern ("/proj/".toList ++ ['a', '\n', 'b']) = false := by
  decide!

/-- C8 fails on the code: the comment line of the example is not skipped; it
is returned as a pattern, in front of `target`.  The only lines the comment
test drops are the empty line and the line `#`. -/
theorem C8_comment_line_is_kept :
    scanAndBuildPatternsList (.lines (strs ["# comment to scanner target", "target"])) =
        .ok (defaultPatterns ++ strs ["# comment to scanner target", "target"]) ∧
      ∀ pattern : Str, startsWith ['#'] pattern = true ↔ pattern = [] ∨ pattern = ['#'] := by
  refine ⟨by decide!, fun pattern => ?_⟩
  match pattern with
  | [] => simp [startsWith]
  | [c] => simp [startsWith, eq_comm]
  | c :: d :: rest => simp [startsWith]

/-- C9 fails on the code: for an ignore file whose only line is a comment,
`NewOrDefault` succeeds with four compiled patterns, the comment line being
the fourth, where the claim counts three.  Without comment lines the counts
are those of the claim: three patterns for an absent and for an empty ignore
file, nine for the six lines of the scenario, and three again when
`NewOrDefault` is called anew on an absent file. -/
theorem C9_comment_line_is_compiled :
    (NewOrDefault Globals.init "/proj".toList (.lines (strs ["# note"]))).1 =
        .ok .dockerIgnorer ∧
      (freshGlobals "/proj" ["# note"]).ignorePatterns.map (fun p => p.Pattern) =
        defaultPatterns ++ strs ["# note"] ∧
      (NewOrDefault Globals.init "/proj".toList .absent).1 = .ok .dockerIgnorer ∧
      (NewOrDefault Globals.init "/proj".toList .absent).2.ignorePatterns.map
        (fun p => p.Pattern) = defaultPatterns ∧
      (freshGlobals "/proj" []).ignorePatterns.map (fun p => p.Pattern) = defaultPatterns ∧
      (freshGlobals "/proj" scenarioLines).ignorePatterns.map (fun p => p.Pattern) =
        defaultPatterns ++ strs scenarioLines ∧
      (NewOrDefault (freshGlobals "/proj" scenarioLines) "/other".toList
        .absent).2.ignorePatterns.map (fun p => p.Pattern) = defaultPatterns := by
  decide!

/-- C10 (as stated) fails: the slash-free pattern `README.md` is matched by
`README.md` at the root and by no `README.md` further down.  What does hold
for the patterns `*.md` and `README.md` holds under a base directory whose
characters have no meaning in the expression syntax: under `/a+` the pattern
`*.md` does not accept `/a+/.md`, and under `/x|y` the pattern `README.md`
accepts `/x|y/docs/README.md`. -/
theorem C10_counterexample :
    matcherAccepts "/proj".toList "README.md".toList "/proj/README.md".toList = true ∧
      matcherAccepts "/proj".toList "README.md".toList
        "/proj/docs/README.md".toList = false ∧
      matcherAccepts "/a+".toList "*.md".toList ("/a+".toList ++ '/' :: ".md".toList) = false ∧
      matcherAccepts "/x|y".toList "README.md".toList
        ("/x|y".toList ++ '/' :: ("docs".toList ++ '/' :: "README.md".toList)) = true := by
  decide!

/-! ## The claims about the matcher -/

/-- C2 (as stated) fails under the base directory `/a+`, in which `+` has a
meaning in the expression syntax: for the pattern `b` the name `b` has the
length of the pattern and the character of the pattern at its one position,
and the matcher does not accept `/a+/b`. -/
theorem C2_counterexample :
    ("b".toList.length = "b".toList.length ∧
        ∀ pc ∈ List.zip "b".toList "b".toList,
          (pc.1 = '?' → pc.2 ≠ '/') ∧ (pc.1 ≠ '?' → pc.2 = pc.1)) ∧
      matcherAccepts "/a+".toList "b".toList ("/a+".toList ++ '/' :: "b".toList) = false :=
  ⟨⟨rfl, by decide⟩, by decide!⟩

/-- C2 (amended): under a base directory that holds none of the characters
`(`, `)`, `|`, `*`, `+`, `?`, `{`, `^`, `$`, `[` and the backslash, for a
pattern of letters, digits and `?` the matcher accepts a name under the base
directory exactly when the name has the length of the pattern, holds a
character other than the separator at every `?` and the pattern's character
everywhere else.  `temp?` does not match `tempABC`, and the scan of the test
scenario, whose ignore file holds `temp?`, includes `tempABC`. -/
theorem C2_question_mark_one_character (base pattern name : Str)
    (hbase : ∀ c ∈ base, basePlain c = true)
    (hpat : ∀ c ∈ pattern, isAlnum c = true ∨ c = '?') :
    (matcherAccepts base pattern (base ++ '/' :: name) = true ↔
        name.length = pattern.length ∧
          ∀ pc ∈ List.zip pattern name,
            (pc.1 = '?' → pc.2 ≠ '/') ∧ (pc.1 ≠ '?' → pc.2 = pc.1)) ∧
      matcherAccepts "/proj".toList "temp?".toList "/proj/tempABC".toList = false ∧
      "tempABC".toList ∈ (freshScan "/proj" scenarioLines scenarioTree).1 := by
  obtain ⟨ht, hstar⟩ := tame_of_alnum_or_quest pattern hpat
  refine ⟨?_, by decide!, by decide!⟩
  rw [matcherAccepts_tame base pattern name hbase ht]
  exact runSeq_quest _ pattern hstar name

/-- C2 (amended) at the pattern `a?c` under `/proj`: `abc` is accepted. -/
theorem C2_question_mark_witness :
    (matcherAccepts "/proj".toList "a?c".toList ("/proj".toList ++ '/' :: "abc".toList) = true ↔
        "abc".toList.length = "a?c".toList.length ∧
          ∀ pc ∈ List.zip "a?c".toList "abc".toList,
            (pc.1 = '?' → pc.2 ≠ '/') ∧ (pc.1 ≠ '?' → pc.2 = pc.1)) ∧
      matcherAccepts "/proj".toList "temp?".toList "/proj/tempABC".toList = false ∧
      "tempABC".toList ∈ (freshScan "/proj" scenarioLines scenarioTree).1 :=
  C2_question_mark_one_character "/proj".toList "a?c".toList "abc".toList
    (by decide) (by decide)

/-- C10 (amended): under a base directory that holds none of the characters
`(`, `)`, `|`, `*`, `+`, `?`, `{`, `^`, `$`, `[` and the backslash, a
slash-free pattern matches at any depth when it begins with `*`: for a
pattern `*v`, `v` made of literally matched characters, a matcher that
accepts `base/n` accepts `base/d/n` for every directory prefix `d` without a
line break (and it accepts `base/v`).  A slash-free pattern made of literally
matched characters only is matched by the path `base/v` and by no path
further down. -/
theorem C10_leading_star_any_depth (base v n d : Str)
    (hbase : ∀ c ∈ base, basePlain c = true)
    (hv : ∀ c ∈ v, literalChar c = true) (hslash : '/' ∉ v) (hd : '\n' ∉ d) :
    (matcherAccepts base ('*' :: v) (base ++ '/' :: n) = true →
        matcherAccepts base ('*' :: v) (base ++ '/' :: (d ++ '/' :: n)) = true) ∧
      matcherAccepts base ('*' :: v) (base ++ '/' :: v) = true ∧
      matcherAccepts base v (base ++ '/' :: v) = true ∧
      matcherAccepts base v (base ++ '/' :: (d ++ '/' :: n)) = false := by
  refine ⟨fun h => ?_,
    (matcherAccepts_star_literal base v v hbase hv).2 ⟨[], by simp, by simp⟩,
    (matcherAccepts_literal base v v hbase hv).2 rfl, ?_⟩
  · obtain ⟨w, hw, hnl⟩ := (matcherAccepts_star_literal base v n hbase hv).1 h
    refine (matcherAccepts_star_literal base v _ hbase hv).2 ⟨d ++ '/' :: w, by simp [hw], ?_⟩
    simp only [List.mem_append, List.mem_cons, not_or]
    exact ⟨hd, by decide, hnl⟩
  · rw [Bool.eq_false_iff]
    intro h
    have := (matcherAccepts_literal base v _ hbase hv).1 h
    exact hslash (this ▸ by simp)

/-- C10 (amended) at the pattern `*.md`: `a.md` and `docs/deep/a.md`. -/
theorem C10_leading_star_witness :
    (matcherAccepts "/proj".toList ('*' :: ".md".toList)
          ("/proj".toList ++ '/' :: "a.md".toList) = true →
        matcherAccepts "/proj".toList ('*' :: ".md".toList)
          ("/proj".toList ++ '/' :: ("docs/deep".toList ++ '/' :: "a.md".toList)) = true) ∧
      matcherAccepts "/proj".toList ('*' :: ".md".toList)
        ("/proj".toList ++ '/' :: ".md".toList) = true ∧
      matcherAccepts "/proj".toList ".md".toList ("/proj".toList ++ '/' :: ".md".toList) = true ∧
      matcherAccepts "/proj".toList ".md".toList
        ("/proj".toList ++ '/' :: ("docs/deep".toList ++ '/' :: "a.md".toList)) = false :=
  C10_leading_star_any_depth "/proj".toList ".md".toList "a.md".toList "docs/deep".toList
    (by decide) (by decide) (by decide) (by decide)

/-! ## The claims about `*`, `**`, literal characters and anchoring -/


/-- C11 (as stated) fails at the pattern `a*b` under `/proj`: the name made of
`a`, a line break and `b` begins with `a`, ends with `b` and has three
characters, and the matcher does not accept it.  It fails also under the base
directory `/a+`, in which `+` has a meaning in the expression syntax: the name
`ab` begins with `a`, ends with `b` and has two characters, and the matcher
does not accept `/a+/ab`. -/
theorem C11_counterexample :
    "a".toList <+: "a\nb".toList ∧ "b".toList <:+ "a\nb".toList ∧
      "a".toList.length + "b".toList.length ≤ "a\nb".toList.length ∧
      matcherAccepts "/proj".toList "a*b".toList
        ("/proj".toList ++ '/' :: "a\nb".toList) = false ∧
      "a".toList <+: "ab".toList ∧ "b".toList <:+ "ab".toList ∧
      "a".toList.length + "b".toList.length ≤ "ab".toList.length ∧
      matcherAccepts "/a+".toList "a*b".toList ("/a+".toList ++ '/' :: "ab".toList) = false := by
  decide!

/-- C12 (as stated) fails at the pattern `a/**` under `/proj`: the path
`a/x`, line break, `y` begins with `a/` and the matcher does not accept it.
It fails also under the base directory `/a+`, in which `+` has a meaning in
the expression syntax: there `a/**` does not accept `a/x`, which begins with
`a/`, and `a/**/b` does not accept `a/b`. -/
theorem C12_counterexample :
    "a/".toList <+: "a/x\ny".toList ∧
      matcherAccepts "/proj".toList "a/**".toList
        ("/proj".toList ++ '/' :: "a/x\ny".toList) = false ∧
      "a/".toList <+: "a/x".toList ∧
      matcherAccepts "/a+".toList "a/**".toList ("/a+".toList ++ '/' :: "a/x".toList) = false ∧
      matcherAccepts "/a+".toList "a/**/b".toList ("/a+".toList ++ '/' :: "a/b".toList) = false := by
  decide!

/-- C13 (as stated) fails at the pattern `a+b`, which holds no `*`, no `?`
and no backslash: under `/proj` the matcher does not accept `/proj/a+b` and
accepts `/proj/aab`; and the pattern `(` does not compile at all. -/
theorem C13_counterexample :
    matcherAccepts "/proj".toList "a+b".toList "/proj/a+b".toList = false ∧
      matcherAccepts "/proj".toList "a+b".toList "/proj/aab".toList = true ∧
      asRegExp "/proj".toList "(".toList = .error (.regexSyntax "missing closing )") := by
  decide!

/-- C14 (as stated) fails at the pattern `a|b` under `/proj`: the matcher
accepts `/tmp/b`, a path outside the base directory, on its last character,
and `/proj/a/more` on the part `/proj/a`; and under the base directory
`/pro.j` the pattern `a` accepts `/proxj/a`. -/
theorem C14_counterexample :
    (asRegExp "/proj".toList "a|b".toList).map
        (fun re => (FindAllString re "/tmp/b".toList, FindAllString re "/proj/a/more".toList)) =
      .ok (["b".toList], ["/proj/a".toList]) ∧
    matcherAccepts "/pro.j".toList "a".toList "/proxj/a".toList = true := by
  decide!


/-- C11 (amended): `*` matches zero or more characters other than a line
break, path separators included.  Under a base directory that holds none of
the characters `(`, `)`, `|`, `*`, `+`, `?`, `{`, `^`, `$`, `[` and the
backslash, for every pattern `u*v` with `u` and `v` made of literally matched
characters (letters, digits and separators are such, and so are `-` and the
escaped `.`), the matcher accepts `base/s` exactly when `s` begins with `u`,
ends with `v`, is at least as long as `u` and `v` together and holds no line
break in between. -/
theorem C11_star_crosses_separators (base u v s : Str)
    (hbase : ∀ c ∈ base, basePlain c = true)
    (hu : ∀ c ∈ u, literalChar c = true) (hv : ∀ c ∈ v, literalChar c = true) :
    matcherAccepts base (u ++ '*' :: v) (base ++ '/' :: s) = true ↔
      u <+: s ∧ v <:+ s ∧ u.length + v.length ≤ s.length ∧
        '\n' ∉ (s.drop u.length).take (s.length - u.length - v.length) := by
  rw [matcherAccepts_infix_star base u v s hbase hu hv]
  exact prefix_suffix_iff u v s (fun w => '\n' ∉ w)

/-- C11 (amended) at `target/*-runner.jar` under `/proj`:
the path `target/a/b/x-runner.jar` is accepted, and so is the path with
nothing between `target`, the separator and `-runner.jar`. -/
theorem C11_star_witness :
    matcherAccepts "/proj".toList ("target/".toList ++ '*' :: "-runner.jar".toList)
        ("/proj".toList ++ '/' :: "target/a/b/x-runner.jar".toList) = true ∧
      matcherAccepts "/proj".toList ("target/".toList ++ '*' :: "-runner.jar".toList)
        ("/proj".toList ++ '/' :: "target/-runner.jar".toList) = true :=
  ⟨(C11_star_crosses_separators "/proj".toList "target/".toList "-runner.jar".toList
      "target/a/b/x-runner.jar".toList (by decide) (by decide) (by decide)).2
      ⟨by decide, by decide, by decide, by decide⟩,
   (C11_star_crosses_separators "/proj".toList "target/".toList "-runner.jar".toList
      "target/-runner.jar".toList (by decide) (by decide) (by decide)).2
      ⟨by decide, by decide, by decide, by decide⟩⟩

/-- C12 (amended): the two rules for `**`, for literally matched `u` and
`v`, under a base directory that holds none of the characters `(`, `)`, `|`,
`*`, `+`, `?`, `{`, `^`, `$`, `[` and the backslash.  A `**` followed by a separator and more pattern text is translated to
the optional group `(.*/)?`: `u**/v` accepts `base/s` exactly when `s` is
`u` followed by `v`, or `u`, a stretch without a line break, a separator and
`v`.  A `**` at the end of the pattern is translated to `.*`: `u**` accepts
`base/s` exactly when `s` begins with `u` and holds no line break after
it. -/
theorem C12_double_star_rules (base u v s : Str)
    (hbase : ∀ c ∈ base, basePlain c = true)
    (hu : ∀ c ∈ u, literalChar c = true) (hv : ∀ c ∈ v, literalChar c = true)
    (hne : v ≠ []) :
    asRegExpLoop (u ++ '*' :: '*' :: '/' :: v) =
        asRegExpLoop u ++ "(.*/)?".toList ++ asRegExpLoop v ∧
      (matcherAccepts base (u ++ '*' :: '*' :: '/' :: v) (base ++ '/' :: s) = true ↔
        s = u ++ v ∨ ∃ w, s = u ++ w ++ '/' :: v ∧ '\n' ∉ w) ∧
      asRegExpLoop (u ++ ['*', '*']) = asRegExpLoop u ++ ".*".toList ∧
      (matcherAccepts base (u ++ ['*', '*']) (base ++ '/' :: s) = true ↔
        u <+: s ∧ '\n' ∉ s.drop u.length) := by
  refine ⟨?_, matcherAccepts_starStar_sep base u v s hbase hu hv hne, ?_, ?_⟩
  · rw [asRegExpLoop_literal_append u _ hu]
    cases v with
    | nil => exact absurd rfl hne
    | cons e rest => rw [asRegExpLoop_starStar_sep]; simp
  · rw [asRegExpLoop_literal_append u _ hu, asRegExpLoop_starStar_end]; rfl
  · rw [matcherAccepts_starStar_end base u s hbase hu]
    constructor
    · rintro ⟨w, rfl, hnl⟩
      exact ⟨⟨w, rfl⟩, by simpa using hnl⟩
    · rintro ⟨⟨w, rfl⟩, hnl⟩
      exact ⟨w, rfl, by simpa using hnl⟩

/-- C12 (amended) at `a/**/b` and `a/**` under `/proj`: `a/**/b` is matched
by `a/b` and by `a/x/y/b` and not by `a/xb`; `a/**` is matched by
`a/x/y`. -/
theorem C12_double_star_witness :
    matcherAccepts "/proj".toList ("a/".toList ++ '*' :: '*' :: '/' :: "b".toList)
        ("/proj".toList ++ '/' :: "a/b".toList) = true ∧
      matcherAccepts "/proj".toList ("a/".toList ++ '*' :: '*' :: '/' :: "b".toList)
        ("/proj".toList ++ '/' :: "a/x/y/b".toList) = true ∧
      ¬ matcherAccepts "/proj".toList ("a/".toList ++ '*' :: '*' :: '/' :: "b".toList)
        ("/proj".toList ++ '/' :: "a/xb".toList) = true ∧
      matcherAccepts "/proj".toList ("a/".toList ++ ['*', '*'])
        ("/proj".toList ++ '/' :: "a/x/y".toList) = true :=
  ⟨(C12_double_star_rules "/proj".toList "a/".toList "b".toList "a/b".toList
      (by decide) (by decide) (by decide) (by decide)).2.1.2 (Or.inl (by decide)),
   (C12_double_star_rules "/proj".toList "a/".toList "b".toList "a/x/y/b".toList
      (by decide) (by decide) (by decide) (by decide)).2.1.2
      (Or.inr ⟨"x/y".toList, by decide, by decide⟩),
   fun h => by
     rcases (C12_double_star_rules "/proj".toList "a/".toList "b".toList "a/xb".toList
       (by decide) (by decide) (by decide) (by decide)).2.1.1 h with h1 | ⟨w, hw, _⟩
     · exact absurd h1 (by decide)
     · have h2 : "xb".toList = w ++ '/' :: "b".toList := by simpa using hw
       have h3 : '/' ∈ "xb".toList := by rw [h2]; simp
       exact absurd h3 (by decide),
   (C12_double_star_rules "/proj".toList "a/".toList "b".toList "a/x/y".toList
      (by decide) (by decide) (by decide) (by decide)).2.2.2.2 ⟨by decide, by decide⟩⟩

/-- C13 (amended): a pattern made of literally matched characters only
(characters to which the expression syntax gives no meaning, and `.` and
`$`, which are escaped) is matched by exactly one path, `base/pattern`, under
a base directory of plain characters. -/
theorem C13_literal_pattern_one_path (base pattern path : Str)
    (hbase : ∀ c ∈ base, regexPlain c = true)
    (hpat : ∀ c ∈ pattern, literalChar c = true) :
    matcherAccepts base pattern path = true ↔ path = base ++ '/' :: pattern :=
  matcherAccepts_literal_only base pattern path hbase hpat

/-- C13 (amended) at the pattern `a.b` under `/proj`: `a.b` is matched and
`axb` is not. -/
theorem C13_literal_witness :
    matcherAccepts "/proj".toList "a.b".toList "/proj/a.b".toList = true ∧
      ¬ matcherAccepts "/proj".toList "a.b".toList "/proj/axb".toList = true :=
  ⟨(C13_literal_pattern_one_path "/proj".toList "a.b".toList "/proj/a.b".toList
      (by decide) (by decide)).2 (by decide),
   fun h => absurd ((C13_literal_pattern_one_path "/proj".toList "a.b".toList
      "/proj/axb".toList (by decide) (by decide)).1 h) (by decide)⟩

/-- C14 (amended): for every base directory of plain characters and every
pattern made of literally matched characters, `?` and `*`, the pattern
compiles and its matcher is anchored to the full path under the base
directory: a path it accepts is the base directory, a separator and a
suffix, and the only match in it is the whole path. -/
theorem C14_matcher_is_anchored (base pattern : Str)
    (hbase : ∀ c ∈ base, regexPlain c = true) (hpat : glob pattern = true) :
    ∃ re, asRegExp base pattern = .ok re ∧
      ∀ path, accepts re path = true →
        (∃ suffix, path = base ++ '/' :: suffix) ∧ FindAllString re path = [path] := by
  refine ⟨_, asRegExp_glob base pattern (basePlain_of_plain hbase) hpat, fun path hacc => ?_⟩
  have hm : matcherAccepts base pattern path = true := by
    rw [matcherAccepts, asRegExp_glob base pattern (basePlain_of_plain hbase) hpat]
    exact hacc
  obtain ⟨name, hname, _⟩ := (matcherAccepts_glob base pattern path hbase hpat).1 hm
  refine ⟨⟨name, hname⟩, ?_⟩
  have hrun := (accepts_anchored (anchored_glob base pattern) path).1 hacc
  rw [FindAllString_anchored (anchored_glob base pattern), if_neg hrun]

/-- C14 (amended) at the pattern `*.md` under `/proj`: the only match in
`/proj/docs/a.md` is the whole path. -/
theorem C14_anchored_witness :
    (asRegExp "/proj".toList "*.md".toList).map
        (fun re => FindAllString re "/proj/docs/a.md".toList) =
      .ok ["/proj/docs/a.md".toList] := by
  obtain ⟨re, hre, h⟩ :=
    C14_matcher_is_anchored "/proj".toList "*.md".toList (by decide) (by decide)
  have hm : matcherAccepts "/proj".toList "*.md".toList "/proj/docs/a.md".toList = true := by
    decide!
  rw [matcherAccepts, hre] at hm
  rw [hre]
  simp only [Except.map, (h _ hm).2]


/-! ## The claims about the walk -/

/-- The skip of the default names: `scanDir` returns the skip signal and
leaves the variables unchanged for every entry, other than the base directory,
that bears a default name, whatever the patterns; the walk of such an entry
changes nothing.  In a scan from a clean include list, under a clean base
directory, over entries with valid names and with inverting patterns whose
matchers are anchored (so that the matched text is the path of the entry), no
path of the result has a default name among its elements. -/
theorem default_names_are_skipped (g : Globals) (P : Str) (node : Node)
    (g0 : Globals) (root : Node)
    (hP : P ≠ g.directory) (hname : node.name ∈ defaultPatterns)
    (hD : goodDir g0.directory = true)
    (hanch : ∀ p ∈ g0.ignorePatterns, p.Invert = true → isAnchored p.RegexPattern = true)
    (hclean : g0.includes = []) (hv : kidsAll validName root.children = true) :
    scanDir g P ⟨node.name, node.isDir⟩ = (.skipThis, g) ∧
      walk g P node = (.skipThis, g) ∧
      ∀ r ∈ (Scan g0 root).1.1, ∀ c ∈ splitOn '/' r, c ∉ defaultPatterns := by
  have hsd := scanDir_default g P ⟨node.name, node.isDir⟩ hP hname
  refine ⟨hsd, ?_, ?_⟩
  · cases node with
    | file n => simpa [walk, Node.name, Node.isDir] using hsd
    | dir n kids =>
      simp only [Node.name, Node.isDir] at hsd
      simp [walk, hsd]
  · intro r hr
    obtain ⟨ms, hms, hne, hreq, hok⟩ := scan_includes_of g0.directory g0.ignorePatterns
      validName (fun _ h => h) hD hanch (fun ms => ∀ m ∈ ms, m ∉ defaultPatterns)
      (fun ms _ => ∀ m ∈ ms.dropLast, m ∉ defaultPatterns)
      (by
        intro g ms n isDir _ _ _ _ hdef hA _ _ m hm
        rcases List.mem_append.mp hm with h | h
        · exact hA m (by simpa using h)
        · rw [List.mem_singleton.mp h]; exact hdef)
      (by
        intro g ms n c hg1 _ _ _ _ hA hok m hm
        have hnd := scanDir_ok_not_default g _ _ (hg1 ▸ pathOf_ne_base g0.directory ms n) hok
        simp only [List.dropLast_concat] at hm
        rcases List.mem_append.mp hm with h | h
        · exact hA m (by simpa using h)
        · rw [List.mem_singleton.mp h]; exact hnd)
      (fun _ _ _ h _ => h) g0 root rfl rfl hclean (by simp) hv r hr
    rw [hreq, splitOn_joinSep ms hne (fun m hm => validName_not_mem_sep (hms m hm))]
    exact hok



/-- C4 (amended): a directory, other than the base directory and not bearing
a default name, that a non-inverting pattern accepts, that no inverting
pattern accepts and whose path is the base directory joined with the parent
chain of an inverting pattern is still descended into: `scanDir` does not
return the skip signal for it, leaves the include list alone and records it
as excluded.  When the walk reaches it, each direct child (not bearing a
default name) that an inverting pattern accepts is put in the include list
and stays there; in a scan from a clean include list a direct child of it is
in the result only if an inverting pattern accepts the child.  (Clean base
directory, valid entry names, anchored inverting patterns.) -/
theorem C4_transitive_directory_is_descended (g g0 : Globals) (root : Node)
    (ms : List Str) (t : Str) (kids : List Node)
    (hD : goodDir g.directory = true)
    (hanch : ∀ p ∈ g.ignorePatterns, p.Invert = true → isAnchored p.RegexPattern = true)
    (hms : ∀ m ∈ ms, validName m = true) (ht : validName t = true)
    (hdef : t ∉ defaultPatterns) (hkids : kidsAll validName kids = true)
    (hplain : plainAccepts g.ignorePatterns (pathOf g.directory (ms ++ [t])) = true)
    (hinv : invertAccepts g.ignorePatterns (pathOf g.directory (ms ++ [t])) = false)
    (htrans : transitiveAt g.directory g.ignorePatterns
      (pathOf g.directory (ms ++ [t])) = true)
    (hg0d : g0.directory = g.directory) (hg0p : g0.ignorePatterns = g.ignorePatterns)
    (hclean : g0.includes = []) (hv : kidsAll validName root.children = true) :
    scanDir g (pathOf g.directory (ms ++ [t])) ⟨t, true⟩ =
        (.ok, { g with
          excludedDirs := setInsert g.excludedDirs (pathOf g.directory (ms ++ [t])) }) ∧
      (∀ k ∈ kids, k.name ∉ defaultPatterns →
        invertAccepts g.ignorePatterns (pathOf g.directory (ms ++ [t] ++ [k.name])) = true →
        ∀ g1, Later (walk g (pathOf g.directory (ms ++ [t])) (.dir t kids)).2 g1 →
          joinSep ['/'] (ms ++ [t] ++ [k.name]) ∈ g1.includes) ∧
      (∀ c, validName c = true →
        joinSep ['/'] (ms ++ [t] ++ [c]) ∈ (Scan g0 root).1.1 →
        invertAccepts g.ignorePatterns (pathOf g.directory (ms ++ [t] ++ [c])) = true) := by
  have hchain : ∀ m ∈ ms ++ [t], validName m = true := by
    intro m hm
    rcases List.mem_append.mp hm with h | h
    · exact hms m h
    · rw [List.mem_singleton.mp h]; exact ht
  have hT : ∀ g' : Globals, g'.directory = g.directory →
      g'.ignorePatterns = g.ignorePatterns →
      scanDir g' (pathOf g.directory (ms ++ [t])) ⟨t, true⟩ =
        (.ok, { g' with
          excludedDirs := setInsert g'.excludedDirs (pathOf g.directory (ms ++ [t])) }) := by
    intro g' h1 h2
    rw [scanDir_pruned g' _ t true (h1 ▸ pathOf_ne_base _ _ _) hdef (by rw [h2]; exact hplain)
      (by rw [h2]; exact hinv), h1, h2, htrans]
    simp
  refine ⟨hT g rfl rfl, ?_, ?_⟩
  · intro k hk hkdef hkinv g1 hg1
    have hkv := Node.all_name validName k (kidsAll_mem validName kids k hkids hk)
    rw [walk, hT g rfl rfl] at hg1
    simp only at hg1
    obtain ⟨g2, hl2, hfin⟩ := walkChildren_reaches g.directory g.ignorePatterns hD hanch
      (ms ++ [t]) hchain k kids
      { g with excludedDirs := setInsert g.excludedDirs (pathOf g.directory (ms ++ [t])) }
      rfl rfl hkids hk
    have hd2 : g2.directory = g.directory := hl2.1
    have hp2 : g2.ignorePatterns = g.ignorePatterns := hl2.2.1
    have hspec := scanDir_at g2 (ms ++ [t]) k.name k.isDir (hd2 ▸ hD) (hp2 ▸ hanch) hchain hkv
      hkdef
    rw [hd2, hp2] at hspec
    have hex : excludedAt g.ignorePatterns g2.excludedDirs
        (pathOf g.directory (ms ++ [t] ++ [k.name])) = true := by
      simp only [excludedAt, hkinv, Bool.true_or]
    rw [hex, hkinv] at hspec
    simp only [↓reduceIte] at hspec
    have hin : joinSep ['/'] (ms ++ [t] ++ [k.name]) ∈
        (scanDir g2 (pathOf g.directory (ms ++ [t] ++ [k.name])) ⟨k.name, k.isDir⟩).2.includes := by
      rw [hspec]
      exact (mem_appendIfNotExist _ _ _).2 (Or.inr rfl)
    exact hg1.2.2.2.1 _ (hfin.2.2.2.1 _ ((walk_after_scanDir g2 _ k).2.2.2.1 _ hin))
  · intro c hc hr
    obtain ⟨cs, hcs, hne, hreq, hok⟩ := scan_includes_of g.directory g.ignorePatterns
      validName (fun _ h => h) hD hanch
      (fun cs => invertAccepts g.ignorePatterns (pathOf g.directory cs) = true ∨
        cs.dropLast ≠ ms ++ [t])
      (fun cs g' => cs.dropLast = ms ++ [t] → pathOf g.directory (ms ++ [t]) ∈ g'.excludedDirs)
      (by
        intro g' ms' n isDir h1 h2 hms' hn hndef hA hnew hold
        rw [List.dropLast_concat] at hA
        by_cases heq : ms' = ms ++ [t]
        · left
          have hspec := scanDir_at g' ms' n isDir (h1 ▸ hD) (h2 ▸ hanch) hms' hn hndef
          rw [h1, h2] at hspec
          have hdir : Dir (pathOf g.directory (ms' ++ [n])) ∈ g'.excludedDirs := by
            rw [Dir_pathOf g.directory ms' n hD hms' hn, heq]
            exact hA heq
          have hex : excludedAt g.ignorePatterns g'.excludedDirs
              (pathOf g.directory (ms' ++ [n])) = true := by
            simp [excludedAt, hdir, hasPlain_of_plainAccepts hplain]
          rw [hspec, hex] at hnew
          simp only [↓reduceIte] at hnew
          by_contra hni
          simp only [hni, Bool.false_eq_true, ↓reduceIte] at hnew
          exact hold hnew
        · right
          rw [List.dropLast_concat]
          exact heq)
      (by
        intro g' ms' n c' h1 h2 _ _ _ _ hok heq
        rw [List.dropLast_concat] at heq
        obtain ⟨hm, hn⟩ := List.append_inj' heq rfl
        have hn' : n = t := by simpa using hn
        subst hm hn'
        rw [hT g' h1 h2]
        exact (mem_setInsert _ _ _).2 (Or.inr rfl))
      (fun g' g1 cs hA hl heq => hl.2.2.2.2 _ (hA heq))
      g0 root hg0d hg0p hclean (by intro c' _ h; simp at h) hv _ hr
    have hcv : ∀ m ∈ ms ++ [t] ++ [c], validName m = true := by
      intro m hm
      rcases List.mem_append.mp hm with h | h
      · exact hchain m h
      · rw [List.mem_singleton.mp h]; exact hc
    have := joinSep_inj hcv (by simp) hcs hne hreq
    subst this
    rcases hok with h | h
    · exact h
    · exact absurd (List.dropLast_concat) h

/-- C6 (amended): a directory, other than the base directory and not bearing
a default name, that a non-inverting pattern accepts, that no inverting
pattern accepts and that is the parent chain of no inverting pattern is
pruned: `scanDir` records it in the excluded-directory set, leaves the
include list alone and returns the skip signal.  In a scan from a clean
include list (clean base directory, valid entry names, anchored inverting
patterns) neither a path with these properties nor a path beneath it is in
the result. -/
theorem C6_matched_directory_is_pruned (g : Globals) (Q name : Str)
    (g0 : Globals) (root : Node) (qs : List Str)
    (hQ : Q ≠ g.directory) (hname : name ∉ defaultPatterns)
    (hplain : plainAccepts g.ignorePatterns Q = true)
    (hinv : invertAccepts g.ignorePatterns Q = false)
    (htrans : transitiveAt g.directory g.ignorePatterns Q = false)
    (hD : goodDir g0.directory = true)
    (hanch : ∀ p ∈ g0.ignorePatterns, p.Invert = true → isAnchored p.RegexPattern = true)
    (hclean : g0.includes = []) (hv : kidsAll validName root.children = true)
    (hqs : ∀ m ∈ qs, validName m = true) (hqne : qs ≠ [])
    (hplain0 : plainAccepts g0.ignorePatterns (pathOf g0.directory qs) = true)
    (hinv0 : invertAccepts g0.ignorePatterns (pathOf g0.directory qs) = false)
    (htrans0 : transitiveAt g0.directory g0.ignorePatterns (pathOf g0.directory qs) = false) :
    scanDir g Q ⟨name, true⟩ =
        (.skipThis, { g with excludedDirs := setInsert g.excludedDirs Q }) ∧
      ∀ r ∈ (Scan g0 root).1.1,
        r ≠ joinSep ['/'] qs ∧ ¬ (joinSep ['/'] qs ++ ['/']) <+: r := by
  refine ⟨by rw [scanDir_pruned g Q name true hQ hname hplain hinv]; simp [htrans], ?_⟩
  intro r hr
  have hatQ : ∀ (g : Globals) (ms : List Str) (n : Str) (isDir : Bool),
      g.directory = g0.directory → g.ignorePatterns = g0.ignorePatterns →
      n ∉ defaultPatterns → ms ++ [n] = qs →
      scanDir g (pathOf g0.directory (ms ++ [n])) ⟨n, isDir⟩ =
        (if isDir = true then .skipThis else .ok,
          { g with excludedDirs :=
              if isDir = true then setInsert g.excludedDirs (pathOf g0.directory (ms ++ [n]))
              else g.excludedDirs }) := by
    intro g ms n isDir hg1 hg2 hdef heq
    rw [scanDir_pruned g _ n isDir (hg1 ▸ pathOf_ne_base _ _ _) hdef
      (by rw [hg2, heq]; exact hplain0) (by rw [hg2, heq]; exact hinv0)]
    rw [hg1, hg2, heq, htrans0]
    simp
  obtain ⟨ms, hms, hne, hreq, hok⟩ := scan_includes_of g0.directory g0.ignorePatterns
    validName (fun _ h => h) hD hanch (fun ms => ¬ qs <+: ms)
    (fun ms _ => ¬ qs <+: ms.dropLast)
    (by
      intro g ms n isDir hg1 hg2 _ _ hdef hA hnew hold hpre
      rw [List.dropLast_concat] at hA
      rcases List.prefix_concat_iff.mp hpre with h | h
      · rw [hatQ g ms n isDir hg1 hg2 hdef h.symm] at hnew
        exact hold hnew
      · exact hA h)
    (by
      intro g ms n c hg1 hg2 _ _ _ hA hok hpre
      rw [List.dropLast_concat] at hA hpre
      have hnd := scanDir_ok_not_default g _ _ (hg1 ▸ pathOf_ne_base g0.directory ms n) hok
      rcases List.prefix_concat_iff.mp hpre with h | h
      · rw [hatQ g ms n true hg1 hg2 hnd h.symm] at hok
        simp at hok
      · exact hA h)
    (fun _ _ _ h _ => h) g0 root rfl rfl hclean (by intro c _; simpa using hqne) hv r hr
  subst hreq
  refine ⟨fun h => hok ?_, fun h => hok ?_⟩
  · rw [joinSep_inj hms hne hqs hqne h]
  · exact prefix_of_joinSep_prefix hms hne hqs hqne h



/-- C7 (amended): when the pattern list holds the compiled pattern `*`, in a
scan from a clean include list under a clean base directory of plain
characters, over entries whose names are valid and hold no line break and
with anchored inverting patterns, every path of the result is accepted by the
matcher of some inverting pattern. -/
theorem C7_star_leaves_only_inversions (g0 : Globals) (root : Node)
    (star : FileIgnorePattern)
    (hD : goodDir g0.directory = true) (hplainD : ∀ c ∈ g0.directory, basePlain c = true)
    (hstar : toFileIgnorePattern g0.directory ['*'] = .ok star)
    (hmem : star ∈ g0.ignorePatterns)
    (hanch : ∀ p ∈ g0.ignorePatterns, p.Invert = true → isAnchored p.RegexPattern = true)
    (hclean : g0.includes = [])
    (hv : kidsAll (fun n => validName n && !n.contains '\n') root.children = true) :
    ∀ r ∈ (Scan g0 root).1.1,
      ∃ p ∈ g0.ignorePatterns, p.Invert = true ∧
        accepts p.RegexPattern (Join [g0.directory, r]) = true := by
  intro r hr
  obtain ⟨hsinv, hsacc⟩ := star_pattern g0.directory star hplainD hstar
  obtain ⟨ms, hms, hne, hreq, hok⟩ := scan_includes_of g0.directory g0.ignorePatterns
    (fun n => validName n && !n.contains '\n') (fun n h => (lineName_valid n h).1) hD hanch
    (fun ms => invertAccepts g0.ignorePatterns (pathOf g0.directory ms) = true)
    (fun _ _ => True)
    (by
      intro g ms n isDir hg1 hg2 hms hn hdef _ hnew hold
      have hchain : ∀ m ∈ ms ++ [n], (validName m && !m.contains '\n') = true := by
        intro m hm
        rcases List.mem_append.mp hm with h | h
        · exact hms m h
        · rw [List.mem_singleton.mp h]; exact hn
      have hplain : plainAccepts g0.ignorePatterns (pathOf g0.directory (ms ++ [n])) = true := by
        simp only [plainAccepts, List.any_eq_true, Bool.and_eq_true, Bool.not_eq_true']
        refine ⟨star, hmem, hsinv, ?_⟩
        rw [pathOf_eq_rel _ _ (by simp)]
        exact hsacc _ (not_mem_joinSep '\n' (by decide) _
          (fun m hm => (lineName_valid m (hchain m hm)).2))
      have hex := excludedAt_of_plainAccepts g.excludedDirs hplain
      have hspec := scanDir_at g ms n isDir (hg1 ▸ hD) (hg2 ▸ hanch)
        (fun m hm => (lineName_valid m (hms m hm)).1) (lineName_valid n hn).1 hdef
      rw [hg1, hg2] at hspec
      rw [hspec, hex] at hnew
      simp only [↓reduceIte] at hnew
      by_contra hni
      simp only [hni, Bool.false_eq_true, ↓reduceIte] at hnew
      exact hold hnew)
    (fun _ _ _ _ _ _ _ _ _ _ _ => trivial)
    (fun _ _ _ _ _ => trivial) g0 root rfl rfl hclean (fun _ _ => trivial) hv r hr
  rw [hreq, Join_rel g0.directory ms hD hne (fun m hm => (lineName_valid m (hms m hm)).1)]
  simp only [invertAccepts, List.any_eq_true, Bool.and_eq_true] at hok
  exact hok

/-! ## The claims about pattern order, repeated scans, normalisation and errors -/

/-- C15: the order of the patterns is significant.  The ignore files with
the lines `!proj/a`, `!x|/proj/a` and with the same lines the other way
round, scanned from clean state over a tree whose base directory `/proj`
holds `proj/a`, return different lists: both inverting patterns match the
entry `/proj/proj/a`, the first on the whole path and the second on its part
`/proj/a`, and `scanDir` appends what each matched in the order of the
patterns. -/
theorem C15_order_is_significant :
    ∃ (l1 l2 : List String) (tree : Node), l1.Perm l2 ∧
      freshScan "/proj" l1 tree = (strs ["proj", "proj/a", "a"], none) ∧
      freshScan "/proj" l2 tree = (strs ["proj", "a", "proj/a"], none) ∧
      freshScan "/proj" l1 tree ≠ freshScan "/proj" l2 tree :=
  ⟨["!proj/a", "!x|/proj/a"], ["!x|/proj/a", "!proj/a"], nestedTree,
    List.Perm.swap _ _ _, by decide!, by decide!, by decide!⟩

/-- C16: scanning is idempotent.  For every state of the scanner (any
pattern list, any include list and excluded-directory set carried over) with
a clean base directory, and every tree whose entries bear valid names,
different within one directory, a second `Scan` over the same tree returns
the same ordered list and the same error as the first, and leaves the
variables as the first scan left them. -/
theorem C16_scan_is_idempotent (g : Globals) (root : Node)
    (hD : goodDir g.directory = true)
    (hv : kidsAll validName root.children = true)
    (hdis : kidsDistinct root.children = true) :
    (Scan (Scan g root).2 root).1.1 = (Scan g root).1.1 ∧
      (Scan (Scan g root).2 root).1.2 = (Scan g root).1.2 ∧
      (Scan (Scan g root).2 root).2 = (Scan g root).2 := by
  rw [Scan_twice g root hD hv hdis]
  exact ⟨rfl, rfl, rfl⟩

/-- C16 in the scenario of the specification: both scans return the same
nine paths in the same order. -/
theorem C16_idempotent_witness :
    (Scan (Scan (freshGlobals "/proj" scenarioLines) scenarioTree).2 scenarioTree).1.1 =
        (Scan (freshGlobals "/proj" scenarioLines) scenarioTree).1.1 ∧
      (Scan (Scan (freshGlobals "/proj" scenarioLines) scenarioTree).2 scenarioTree).1.2 =
        (Scan (freshGlobals "/proj" scenarioLines) scenarioTree).1.2 ∧
      (Scan (Scan (freshGlobals "/proj" scenarioLines) scenarioTree).2 scenarioTree).2 =
        (Scan (freshGlobals "/proj" scenarioLines) scenarioTree).2 :=
  C16_scan_is_idempotent (freshGlobals "/proj" scenarioLines) scenarioTree
    (by decide!) (by decide!) (by decide!)

/-- C17: `NewOrDefault` does not empty the excluded-directory set.  After a
scan of `/proj` with the ignore file `lib` over a tree that holds `lib/x`, a
second `NewOrDefault` on `/proj` with an empty ignore file leaves `/proj/lib`
in the set, and the scan that follows returns `lib` without `lib/x`; in a
fresh process the same `NewOrDefault` and scan return `lib` and `lib/x`. -/
theorem C17_excluded_dirs_survive :
    (NewOrDefault (Scan (freshGlobals "/proj" ["lib"]) libTree).2 "/proj".toList
        (.lines [])).2.excludedDirs = strs ["/proj/lib"] ∧
      (NewOrDefault (Scan (freshGlobals "/proj" ["lib"]) libTree).2 "/proj".toList
        (.lines [])).2.includes = [] ∧
      (Scan (NewOrDefault (Scan (freshGlobals "/proj" ["lib"]) libTree).2 "/proj".toList
        (.lines [])).2 libTree).1 = (strs ["lib"], none) ∧
      freshScan "/proj" [] libTree = (strs ["lib", "lib/x"], none) := by
  decide!

/-- C18: line normalisation maps a pattern to its clean relative form and
keeps the inversion marker.  For every non-empty body `b` (the text of a
pattern line after the optional marker: no white space around it, it begins
neither with the marker nor with the comment sign and, on the first line, not
with a byte order mark), the lines `b` and `!b` normalise to `c` and `!c`,
where `c` is the normal form of `b` in the words of the specification: `b`
cut at the separators, without its empty and `.` elements (duplicate, leading
and trailing separators), without the `..` elements that have an element
before them to remove, joined again by single separators.  This `c` is the
root, the working directory, or elements none of which is empty or `.`, with
`..` elements in front only. -/
theorem C18_line_normalisation (first : Bool) (b : Str) (hb : b ≠ [])
    (htrim : TrimSpace b = b) (hmark : startsWith b invertMark = false)
    (hhash : startsWith b ['#'] = false)
    (hbom : first = true → startsWith b [bomChar] = false) :
    normaliseLine first b = some (specNormalForm b) ∧
      normaliseLine first ('!' :: b) = some ('!' :: specNormalForm b) ∧
      IsCleanRelative (specNormalForm b) := by
  have hne : b ≠ ['#'] := by
    intro h
    rw [h] at hhash
    exact absurd hhash (by decide)
  rw [← cleanRelative_eq_spec b hb]
  exact ⟨(normaliseLine_body first b hb htrim hmark hne hbom).1,
    (normaliseLine_body first b hb htrim hmark hne hbom).2,
    cleanRelative_shape b hb⟩

/-- C18 at the spellings of the claim: `/foo`, `./foo`, `foo//` and
`foo/bar/..` all normalise to `foo`, and `!/foo` to `!foo`; and
`a/./b//../c/` normalises to `a/c`. -/
theorem C18_normalisation_witness :
    normaliseLine true "/foo".toList = some "foo".toList ∧
      normaliseLine false "./foo".toList = some "foo".toList ∧
      normaliseLine false "foo//".toList = some "foo".toList ∧
      normaliseLine false "foo/bar/..".toList = some "foo".toList ∧
      normaliseLine false ('!' :: "/foo".toList) = some ('!' :: "foo".toList) ∧
      normaliseLine false "a/./b//../c/".toList = some "a/c".toList :=
  ⟨(C18_line_normalisation true "/foo".toList (by decide) (by decide) (by decide) (by decide)
      (fun _ => by decide)).1.trans (congrArg some (by decide)),
   (C18_line_normalisation false "./foo".toList (by decide) (by decide) (by decide) (by decide)
      (fun h => absurd h (by decide))).1.trans (congrArg some (by decide)),
   (C18_line_normalisation false "foo//".toList (by decide) (by decide) (by decide) (by decide)
      (fun h => absurd h (by decide))).1.trans (congrArg some (by decide)),
   (C18_line_normalisation false "foo/bar/..".toList (by decide) (by decide) (by decide)
      (by decide) (fun h => absurd h (by decide))).1.trans (congrArg some (by decide)),
   (C18_line_normalisation false "/foo".toList (by decide) (by decide) (by decide) (by decide)
      (fun h => absurd h (by decide))).2.1.trans (congrArg some (by decide)),
   (C18_line_normalisation false "a/./b//../c/".toList (by decide) (by decide) (by decide)
      (by decide) (fun h => absurd h (by decide))).1.trans (congrArg some (by decide))⟩

/-- C19: when a pattern of the list, default or from the ignore file, does
not compile, `NewOrDefault` returns an error, hence no scanner; the include
list it leaves is empty, and the command returns without a scan: it prints
nothing and the include list is still empty. -/
theorem C19_compile_failure_fails_whole (g : Globals) (dir : Str) (file : IgnoreFile)
    (root : Node) (pats : List Str) (p : Str)
    (hfile : scanAndBuildPatternsList file = .ok pats) (hp : p ∈ pats)
    (hbad : ∃ e, toFileIgnorePattern dir p = .error e) :
    (∃ e, (NewOrDefault g dir file).1 = .error e) ∧
      (∀ k, (NewOrDefault g dir file).1 ≠ .ok k) ∧
      (NewOrDefault g dir file).2.includes = [] ∧
      (commandScanDir g dir file root).1 = none ∧
      (commandScanDir g dir file root).2.includes = [] := by
  have hc := compileLoop_error pats
    { g with includes := [], ignorePatterns := [], directory := dir,
             rawPatterns := g.rawPatterns ++ pats } p hp hbad
  have hN : NewOrDefault g dir file = compileLoop
      { g with includes := [], ignorePatterns := [], directory := dir,
               rawPatterns := g.rawPatterns ++ pats } pats := by
    rw [NewOrDefault]
    simp only [hfile]
  obtain ⟨⟨e, he⟩, hincl⟩ := hc
  rw [← hN] at he hincl
  refine ⟨⟨e, he⟩, fun k hk => ?_, hincl, ?_, ?_⟩
  · rw [he] at hk; exact absurd hk (by simp)
  · rw [commandScanDir]
    cases hr : NewOrDefault g dir file with
    | mk r g1 =>
      rw [hr] at he
      simp only at he
      subst he
      rfl
  · rw [commandScanDir]
    cases hr : NewOrDefault g dir file with
    | mk r g1 =>
      rw [hr] at he hincl
      simp only at he hincl
      subst he
      exact hincl

/-- C19 at the ignore file with the lines `lib` and `(b` under `/proj`: the
second line does not compile. -/
theorem C19_compile_failure_witness :
    (∃ e, (NewOrDefault Globals.init "/proj".toList (.lines (strs ["lib", "(b"]))).1 =
        .error e) ∧
      (∀ k, (NewOrDefault Globals.init "/proj".toList (.lines (strs ["lib", "(b"]))).1 ≠
        .ok k) ∧
      (NewOrDefault Globals.init "/proj".toList (.lines (strs ["lib", "(b"]))).2.includes = [] ∧
      (commandScanDir Globals.init "/proj".toList (.lines (strs ["lib", "(b"])) libTree).1 =
        none ∧
      (commandScanDir Globals.init "/proj".toList (.lines (strs ["lib", "(b"]))
        libTree).2.includes = [] :=
  C19_compile_failure_fails_whole Globals.init "/proj".toList (.lines (strs ["lib", "(b"]))
    libTree (defaultPatterns ++ strs ["lib", "(b"]) "(b".toList (by decide!) (by decide)
    ⟨.regexSyntax "missing closing )", by decide!⟩


/-- C20 fails on the code: with the ignore file `!keep|zzz` (after the
default patterns, which do not invert) the entry `keeper` is matched by the
inverting pattern, on its part `/proj/keep`; `scanDir` records the matched
text made relative to the base directory, `keep`, and the relative path of
the entry is not in the include list. -/
theorem C20_matched_text_is_recorded :
    hasPlain (freshGlobals "/proj" ["!keep|zzz"]).ignorePatterns = true ∧
      invertAccepts (freshGlobals "/proj" ["!keep|zzz"]).ignorePatterns
        "/proj/keeper".toList = true ∧
      (scanDir (freshGlobals "/proj" ["!keep|zzz"]) "/proj/keeper".toList
        ⟨"keeper".toList, false⟩).2.includes = strs ["keep"] ∧
      "keeper".toList ∉ (scanDir (freshGlobals "/proj" ["!keep|zzz"]) "/proj/keeper".toList
        ⟨"keeper".toList, false⟩).2.includes := by
  decide!

/-- The per-entry inclusion rule, for a pattern list that holds a
non-inverting pattern and whose inverting patterns match whole paths only (so
that the matched text is the path of the entry).  For an entry reached through valid names under a clean base
directory, not bearing a default name, the relative path of the entry is in
the include list after `scanDir` exactly when it was there before, or some
inverting pattern accepts the path of the entry, or no pattern accepts it and
the parent directory is not in the excluded-directory set. -/
theorem inclusion_rule_of_whole_matches (g : Globals) (ms : List Str) (n : Str) (isDir : Bool)
    (hD : goodDir g.directory = true)
    (hanch : ∀ p ∈ g.ignorePatterns, p.Invert = true → isAnchored p.RegexPattern = true)
    (hms : ∀ m ∈ ms, validName m = true) (hn : validName n = true)
    (hdef : n ∉ defaultPatterns) (hplain : hasPlain g.ignorePatterns = true) :
    joinSep ['/'] (ms ++ [n]) ∈
        (scanDir g (pathOf g.directory (ms ++ [n])) ⟨n, isDir⟩).2.includes ↔
      joinSep ['/'] (ms ++ [n]) ∈ g.includes ∨
        invertAccepts g.ignorePatterns (pathOf g.directory (ms ++ [n])) = true ∨
        (anyAccepts g.ignorePatterns (pathOf g.directory (ms ++ [n])) = false ∧
          pathOf g.directory ms ∉ g.excludedDirs) := by
  rw [scanDir_at g ms n isDir hD hanch hms hn hdef, anyAccepts_eq, excludedAt,
    Dir_pathOf g.directory ms n hD hms hn, hplain]
  cases hi : invertAccepts g.ignorePatterns (pathOf g.directory (ms ++ [n])) <;>
    cases hp : plainAccepts g.ignorePatterns (pathOf g.directory (ms ++ [n])) <;>
    by_cases hx : pathOf g.directory ms ∈ g.excludedDirs <;>
    simp [hx, mem_appendIfNotExist]

/-- The inclusion rule in the scenario of the specification: `README.md` is
matched by `*.md` and by the inverting `!README.md`, and is included. -/
theorem inclusion_rule_at_readme :
    "README.md".toList ∈
      (scanDir (freshGlobals "/proj" scenarioLines) "/proj/README.md".toList
        ⟨"README.md".toList, false⟩).2.includes :=
  (inclusion_rule_of_whole_matches (freshGlobals "/proj" scenarioLines) [] "README.md".toList false
    (by decide!) (by decide!) (by decide) (by decide) (by decide) (by decide!)).2
    (Or.inr (Or.inl (by decide!)))


/-! ## Instances of the claims about the walk -/

/-- The skip of the default names at the ignore file `!vendor/keep.txt` and a
tree with a `vendor` directory at the root and one under `src`. -/
theorem default_names_are_skipped_at_vendor :
    scanDir (freshGlobals "/proj" ["!vendor/keep.txt"]) "/proj/src/vendor".toList
        ⟨(dirOf "vendor" [fileOf "keep.txt"]).name, (dirOf "vendor" [fileOf "keep.txt"]).isDir⟩ =
        (.skipThis, freshGlobals "/proj" ["!vendor/keep.txt"]) ∧
      walk (freshGlobals "/proj" ["!vendor/keep.txt"]) "/proj/src/vendor".toList
          (dirOf "vendor" [fileOf "keep.txt"]) =
        (.skipThis, freshGlobals "/proj" ["!vendor/keep.txt"]) ∧
      ∀ r ∈ (Scan (freshGlobals "/proj" ["!vendor/keep.txt"]) vendorTree).1.1,
        ∀ c ∈ splitOn '/' r, c ∉ defaultPatterns :=
  default_names_are_skipped (freshGlobals "/proj" ["!vendor/keep.txt"])
    "/proj/src/vendor".toList (dirOf "vendor" [fileOf "keep.txt"])
    (freshGlobals "/proj" ["!vendor/keep.txt"]) vendorTree
    (by decide!) (by decide!) (by decide!) (by decide!) (by decide!) (by decide!)

/-- C4 (amended) at the patterns `target` and `!target/*-runner.jar` and the
directory `target`. -/
theorem C4_transitive_directory_witness :
    scanDir (freshGlobals "/proj" ["target", "!target/*-runner.jar"])
        (pathOf (freshGlobals "/proj" ["target", "!target/*-runner.jar"]).directory
          ([] ++ [ "target".toList ])) ⟨"target".toList, true⟩ =
        (.ok, { freshGlobals "/proj" ["target", "!target/*-runner.jar"] with
          excludedDirs := setInsert
            (freshGlobals "/proj" ["target", "!target/*-runner.jar"]).excludedDirs
            (pathOf (freshGlobals "/proj" ["target", "!target/*-runner.jar"]).directory
              ([] ++ [ "target".toList ])) }) ∧
      (∀ k ∈ targetKids, k.name ∉ defaultPatterns →
        invertAccepts (freshGlobals "/proj" ["target", "!target/*-runner.jar"]).ignorePatterns
          (pathOf (freshGlobals "/proj" ["target", "!target/*-runner.jar"]).directory
            ([] ++ [ "target".toList ] ++ [k.name])) = true →
        ∀ g1, Later (walk (freshGlobals "/proj" ["target", "!target/*-runner.jar"])
            (pathOf (freshGlobals "/proj" ["target", "!target/*-runner.jar"]).directory
              ([] ++ [ "target".toList ])) (.dir "target".toList targetKids)).2 g1 →
          joinSep ['/'] ([] ++ [ "target".toList ] ++ [k.name]) ∈ g1.includes) ∧
      (∀ c, validName c = true →
        joinSep ['/'] ([] ++ [ "target".toList ] ++ [c]) ∈
          (Scan (freshGlobals "/proj" ["target", "!target/*-runner.jar"]) targetTree).1.1 →
        invertAccepts (freshGlobals "/proj" ["target", "!target/*-runner.jar"]).ignorePatterns
          (pathOf (freshGlobals "/proj" ["target", "!target/*-runner.jar"]).directory
            ([] ++ [ "target".toList ] ++ [c])) = true) :=
  C4_transitive_directory_is_descended
    (freshGlobals "/proj" ["target", "!target/*-runner.jar"])
    (freshGlobals "/proj" ["target", "!target/*-runner.jar"]) targetTree
    [] "target".toList targetKids
    (by decide!) (by decide!) (by decide!) (by decide!) (by decide!) (by decide!)
    (by decide!) (by decide!) (by decide!) rfl rfl (by decide!) (by decide!)

/-- C6 (amended) at the patterns `lib` and `!README.md` and the directory
`lib`. -/
theorem C6_matched_directory_witness :
    scanDir (freshGlobals "/proj" ["lib", "!README.md"]) "/proj/lib".toList
        ⟨"lib".toList, true⟩ =
        (.skipThis, { freshGlobals "/proj" ["lib", "!README.md"] with
          excludedDirs := setInsert (freshGlobals "/proj" ["lib", "!README.md"]).excludedDirs
            "/proj/lib".toList }) ∧
      ∀ r ∈ (Scan (freshGlobals "/proj" ["lib", "!README.md"]) scenarioTree).1.1,
        r ≠ joinSep ['/'] [ "lib".toList ] ∧ ¬ (joinSep ['/'] [ "lib".toList ] ++ ['/']) <+: r :=
  C6_matched_directory_is_pruned (freshGlobals "/proj" ["lib", "!README.md"])
    "/proj/lib".toList "lib".toList (freshGlobals "/proj" ["lib", "!README.md"]) scenarioTree
    [ "lib".toList ]
    (by decide!) (by decide!) (by decide!) (by decide!) (by decide!) (by decide!) (by decide!)
    (by decide!) (by decide!) (by decide!) (by decide!) (by decide!) (by decide!) (by decide!)

/-- C7 (amended) at the patterns `*`, `!README.md` and `!target/*-runner.jar`:
the result holds `README.md` and `target/foo-runner.jar`, each accepted by an
inverting pattern. -/
theorem C7_star_witness :
    (Scan (freshGlobals "/proj" ["*", "!README.md", "!target/*-runner.jar"])
        targetTree).1.1 = strs ["README.md", "target/foo-runner.jar"] ∧
      ∀ r ∈ (Scan (freshGlobals "/proj" ["*", "!README.md", "!target/*-runner.jar"])
          targetTree).1.1,
        ∃ p ∈ (freshGlobals "/proj" ["*", "!README.md", "!target/*-runner.jar"]).ignorePatterns,
          p.Invert = true ∧
            accepts p.RegexPattern
              (Join [(freshGlobals "/proj"
                ["*", "!README.md", "!target/*-runner.jar"]).directory, r]) = true :=
  ⟨by decide!,
    C7_star_leaves_only_inversions
      (freshGlobals "/proj" ["*", "!README.md", "!target/*-runner.jar"]) targetTree
      (starPattern "/proj")
      (by decide!) (by decide!) (by decide!) (by decide!) (by decide!) (by decide!)
      (by decide!)⟩

/-! ## The claim about directories matched by an inverting pattern -/

/-- C21 fails on the code: under `/proj` the directory `keeper` is matched by
the inverting pattern `!keep|zzz`, on its part `/proj/keep`, and is the
parent chain of no inverting pattern; `scanDir` adds the matched text made
relative to the base directory, `keep`, to the include list, not the relative
path of the directory.  With the inverting pattern `!zzz|eeper` the same
directory is matched on its last five characters, which have no relative
form, and `scanDir` returns an error: no skip signal, and nothing is
recorded. -/
theorem C21_matched_text_is_recorded :
    invertAccepts (freshGlobals "/proj" ["!keep|zzz"]).ignorePatterns
        "/proj/keeper".toList = true ∧
      transitiveAt "/proj".toList (freshGlobals "/proj" ["!keep|zzz"]).ignorePatterns
        "/proj/keeper".toList = false ∧
      (scanDir (freshGlobals "/proj" ["!keep|zzz"]) "/proj/keeper".toList
        ⟨"keeper".toList, true⟩).2.includes = strs ["keep"] ∧
      invertAccepts (freshGlobals "/proj" ["!zzz|eeper"]).ignorePatterns
        "/proj/keeper".toList = true ∧
      transitiveAt "/proj".toList (freshGlobals "/proj" ["!zzz|eeper"]).ignorePatterns
        "/proj/keeper".toList = false ∧
      scanDir (freshGlobals "/proj" ["!zzz|eeper"]) "/proj/keeper".toList
          ⟨"keeper".toList, true⟩ =
        (.err (.rel "/proj".toList "eeper".toList), freshGlobals "/proj" ["!zzz|eeper"]) := by
  decide!

/-- A directory matched by an inverting pattern counts as matched for
pruning, when the matchers of the inverting patterns match whole paths only
(so that the matched text is the path of the entry).  For a directory reached through valid names under a clean base
directory, not bearing a default name, that an inverting pattern accepts and
that is the base directory joined with the parent chain of no inverting
pattern, `scanDir` adds the relative path of the directory to the include
list, records the directory in the excluded-directory set and returns the
skip signal.  In a scan from a clean include list no path beneath the
directory is in the result, and a directory of this kind right under the base
directory is in the result. -/
theorem inverting_match_prunes_of_whole_matches (g0 : Globals) (root : Node) (ms : List Str) (n : Str)
    (hD : goodDir g0.directory = true)
    (hanch : ∀ p ∈ g0.ignorePatterns, p.Invert = true → isAnchored p.RegexPattern = true)
    (hms : ∀ m ∈ ms, validName m = true) (hn : validName n = true)
    (hdef : n ∉ defaultPatterns)
    (hinv : invertAccepts g0.ignorePatterns (pathOf g0.directory (ms ++ [n])) = true)
    (htr : transitiveAt g0.directory g0.ignorePatterns
      (pathOf g0.directory (ms ++ [n])) = false)
    (hclean : g0.includes = []) (hv : kidsAll validName root.children = true) :
    (∀ g : Globals, g.directory = g0.directory → g.ignorePatterns = g0.ignorePatterns →
        scanDir g (pathOf g0.directory (ms ++ [n])) ⟨n, true⟩ =
          (.skipThis, { g with
            includes := appendIfNotExist g.includes (joinSep ['/'] (ms ++ [n]))
            excludedDirs := setInsert g.excludedDirs (pathOf g0.directory (ms ++ [n])) })) ∧
      (∀ r ∈ (Scan g0 root).1.1, ¬ (joinSep ['/'] (ms ++ [n]) ++ ['/']) <+: r) ∧
      (ms = [] → ∀ kids, Node.dir n kids ∈ root.children → n ∈ (Scan g0 root).1.1) := by
  have hat : ∀ g : Globals, g.directory = g0.directory →
      g.ignorePatterns = g0.ignorePatterns →
      scanDir g (pathOf g0.directory (ms ++ [n])) ⟨n, true⟩ =
        (.skipThis, { g with
          includes := appendIfNotExist g.includes (joinSep ['/'] (ms ++ [n]))
          excludedDirs := setInsert g.excludedDirs (pathOf g0.directory (ms ++ [n])) }) := by
    intro g h1 h2
    have := scanDir_inverted g ms n true (h1 ▸ hD) (h2 ▸ hanch) hms hn hdef
      (by rw [h1, h2]; exact hinv) (by rw [h1, h2]; exact htr)
    rw [← h1]
    simpa using this
  have hchain : ∀ m ∈ ms ++ [n], validName m = true := by
    intro m hm
    rcases List.mem_append.mp hm with h | h
    · exact hms m h
    · rw [List.mem_singleton.mp h]; exact hn
  refine ⟨hat, ?_, ?_⟩
  · intro r hr hpre
    obtain ⟨cs, hcs, hne, hreq, hok⟩ := scan_includes_of g0.directory g0.ignorePatterns
      validName (fun _ h => h) hD hanch (fun cs => ¬ (ms ++ [n]) <+: cs.dropLast)
      (fun cs _ => ¬ (ms ++ [n]) <+: cs.dropLast)
      (fun _ _ _ _ _ _ _ _ _ hA _ _ => hA)
      (by
        intro g ms1 n1 c hg1 hg2 _ _ _ hA hok hpre
        rw [List.dropLast_concat] at hA hpre
        rcases List.prefix_concat_iff.mp hpre with h | h
        · obtain ⟨hm, hn1⟩ := List.append_inj' h rfl
          have hn1' : n = n1 := by simpa using hn1
          subst hm hn1'
          rw [hat g hg1 hg2] at hok
          simp at hok
        · exact hA h)
      (fun _ _ _ h _ => h) g0 root rfl rfl hclean (by intro c _; simp) hv r hr
    subst hreq
    have hp := prefix_of_joinSep_prefix hcs hne hchain (by simp) hpre
    have hneq : cs ≠ ms ++ [n] := by
      intro h
      rw [h] at hpre
      have := hpre.length_le
      simp at this
    exact hok (prefix_dropLast hp hneq)
  · intro hnil kids hk
    subst hnil
    obtain ⟨g2, hl2, hfin⟩ := walkChildren_reaches g0.directory g0.ignorePatterns hD hanch
      [] (by simp) (.dir n kids) root.children g0 rfl rfl hv hk
    have hsd := hat g2 hl2.1 hl2.2.1
    have hafter := walk_after_scanDir g2 (pathOf g0.directory ([] ++ [n])) (.dir n kids)
    simp only [Node.name, Node.isDir] at hafter hfin
    rw [hsd] at hafter
    have hin : n ∈ ({ g2 with
        includes := appendIfNotExist g2.includes (joinSep ['/'] ([] ++ [n]))
        excludedDirs := setInsert g2.excludedDirs (pathOf g0.directory ([] ++ [n])) } :
        Globals).includes := by
      simp only [List.nil_append, joinSep]
      exact (mem_appendIfNotExist _ _ _).2 (Or.inr rfl)
    rw [(Scan_eq g0 root hD).2]
    have := hfin.2.2.2.1 _ (hafter.2.2.2.1 _ hin)
    simpa [pathOf_nil] using this

/-- Pruning by an inverting match at the pattern `!docs` under `/proj`: the
result holds `docs` and none of the paths beneath it; without the pattern it
holds `docs` and all of them. -/
theorem inverting_match_prunes_at_docs :
    "docs".toList ∈ (Scan (freshGlobals "/proj" ["!docs"]) docsTree).1.1 ∧
      (∀ r ∈ (Scan (freshGlobals "/proj" ["!docs"]) docsTree).1.1,
        ¬ (joinSep ['/'] ([] ++ ["docs".toList]) ++ ['/']) <+: r) ∧
      freshScan "/proj" ["!docs"] docsTree = (strs ["README.md", "docs"], none) ∧
      freshScan "/proj" [] docsTree =
        (strs ["README.md", "docs", "docs/a.md", "docs/sub", "docs/sub/b.md"], none) :=
  ⟨(inverting_match_prunes_of_whole_matches (freshGlobals "/proj" ["!docs"]) docsTree [] "docs".toList
      (by decide!) (by decide!) (by decide) (by decide) (by decide) (by decide!) (by decide!)
      (by decide!) (by decide!)).2.2 rfl [fileOf "a.md", dirOf "sub" [fileOf "b.md"]]
      (List.Mem.tail _ (List.Mem.head _)),
   (inverting_match_prunes_of_whole_matches (freshGlobals "/proj" ["!docs"]) docsTree [] "docs".toList
      (by decide!) (by decide!) (by decide) (by decide) (by decide) (by decide!) (by decide!)
      (by decide!) (by decide!)).2.1,
   by decide!, by decide!⟩


end GoIgnoreScanner
